import Mathlib

/-
Verification of the fslm finite-state n-gram language model engine.

The development shallowly embeds the Go sources:
  * basic.go            : word/state ids, weights and sentinels;
  * probing_impl.go     : the open-addressing (linear probing) hash table
                          from word ids to (state, weight) pairs;
  * hashed.go           : the hashed query model and its query loop;
  * sorted.go           : the sorted query model, binary search and its
                          query loop, plus the binary container round trip;
  * builder.go          : the Builder (AddNgram, link, prune, move*).

Machine integers are modelled as Nat with explicit reductions modulo 2^64
where Go arithmetic overflows (the hash mixer).  IEEE-754 float32 weights
are modelled exactly: a weight is either the distinguished -inf value
WEIGHT_LOG0 or a rational; addition saturates at -inf exactly as IEEE
addition does on the values reachable here (no +inf or NaN ever arises:
the only non-finite value produced by the code is -inf).  Go loops whose
termination depends on data invariants are embedded with explicit fuel;
`none` models a panic or non-termination of the original loop.
-/

set_option maxRecDepth 10000

namespace Fslm

/-- Word ids are uint32 values; the all-ones value is the reserved
sentinel word.NIL (an invalid word). -/
def WORD_NIL : Nat := 2 ^ 32 - 1

/-- State ids are uint32 values; the all-ones value is STATE_NIL. -/
def STATE_NIL : Nat := 2 ^ 32 - 1

/-- Models always use state 0 for the empty context. -/
def STATE_EMPTY : Nat := 0

/-- Models always use state 1 for the start context. -/
def STATE_START : Nat := 1

/-- Weight models the float32 log-probabilities of the engine: either the
distinguished log(0) value (IEEE -inf) or a finite rational. -/
inductive Weight where
  | log0 : Weight
  | fin : Rat → Weight
deriving DecidableEq, Repr

/-- WEIGHT_LOG0 is math.Inf(-1), the weight of impossible events. -/
def WEIGHT_LOG0 : Weight := Weight.log0

/-- Addition of weights: -inf absorbs, finite values add (exactly the
IEEE float32 behavior on the value set reachable in this program, up to
rounding of finite sums which we model exactly over the rationals). -/
def Weight.add : Weight → Weight → Weight
  | Weight.log0, _ => Weight.log0
  | Weight.fin _, Weight.log0 => Weight.log0
  | Weight.fin a, Weight.fin b => Weight.fin (a + b)

instance : Add Weight := ⟨Weight.add⟩

instance : Zero Weight := ⟨Weight.fin 0⟩

/-- StateWeight is the value type stored in transition tables: a
destination state and a weight. -/
structure StateWeight where
  State : Nat
  Weight : Weight
deriving DecidableEq, Repr

instance : Inhabited StateWeight := ⟨⟨0, 0⟩⟩

/-- WordStateWeight is one labeled transition: word, destination state
and weight (the entry type of the sorted model). -/
structure WordStateWeight where
  Word : Nat
  State : Nat
  Weight : Weight
deriving DecidableEq, Repr

instance : Inhabited WordStateWeight := ⟨⟨0, 0, 0⟩⟩

/-- WordIdHash is the fast-hash 64-bit mixer from probing_params.go,
computed over Nat with explicit reduction modulo 2^64. -/
def WordIdHash (k : Nat) : Nat :=
  let h1 := k % 2 ^ 64
  let h2 := (h1 ^^^ (h1 >>> 23)) % 2 ^ 64
  let h3 := (h2 * 0x2127599bf4325c37) % 2 ^ 64
  (h3 ^^^ (h3 >>> 47)) % 2 ^ 64

/-- xqwEntry is one hash bucket: a key (word id, WORD_NIL when the bucket
is empty) and a StateWeight value. -/
structure xqwEntry where
  Key : Nat
  Value : StateWeight
deriving DecidableEq, Repr

instance : Inhabited xqwEntry := ⟨⟨WORD_NIL, default⟩⟩

/-- xqwBuckets is the bucket array of the probing hash table. -/
def xqwBuckets : Type := List xqwEntry

instance : DecidableEq xqwBuckets := inferInstanceAs (DecidableEq (List xqwEntry))

instance : Repr xqwBuckets := inferInstanceAs (Repr (List xqwEntry))

instance : Membership xqwEntry xqwBuckets := inferInstanceAs (Membership xqwEntry (List xqwEntry))

/-- The length of a bucket array. -/
def xqwBuckets.length (b : xqwBuckets) : Nat := List.length b

/-- xqwInitBuckets makes n buckets whose keys are all WORD_NIL (values
are the Go zero value: state 0, weight 0). -/
def xqwInitBuckets (n : Nat) : xqwBuckets :=
  List.replicate n ⟨WORD_NIL, ⟨0, 0⟩⟩

/-- The starting probe index of key k: hash modulo capacity. -/
def xqwBuckets.start (b : xqwBuckets) (k : Nat) : Nat :=
  WordIdHash k % b.length

/-- The successor probe index with wrap-around, mirroring the shared
increment in the probe loops of probing_impl.go. -/
def probeNext (len i : Nat) : Nat :=
  if i + 1 = len then 0 else i + 1

/-- Probe loop of xqwBuckets.Find: scan from index i, return the index of
the bucket holding key k, or an inner none when an empty bucket is hit
first; the outer none is fuel exhaustion (the Go loop would not have
terminated / would index out of bounds). -/
def findAux (b : xqwBuckets) (k : Nat) : Nat → Nat → Option (Option Nat)
  | 0, _ => none
  | fuel + 1, i =>
    match List.get? b i with
    | none => none
    | some ei =>
      if ei.Key = k then some (some i)
      else if ei.Key = WORD_NIL then some none
      else findAux b k fuel (probeNext (List.length b) i)

/-- xqwBuckets.Find: value of key k, inner none when absent, outer none
when the probe loop does not terminate. -/
def xqwBuckets.Find (b : xqwBuckets) (k : Nat) : Option (Option StateWeight) :=
  match findAux b k b.length (b.start k) with
  | none => none
  | some none => some none
  | some (some i) => some ((List.get? b i).map xqwEntry.Value)

/-- Probe loop of xqwBuckets.FindEntry: index of the first bucket from
start(k) holding either key k or WORD_NIL. -/
def findEntryAux (b : xqwBuckets) (k : Nat) : Nat → Nat → Option Nat
  | 0, _ => none
  | fuel + 1, i =>
    match List.get? b i with
    | none => none
    | some ei =>
      if ei.Key = k ∨ ei.Key = WORD_NIL then some i
      else findEntryAux b k fuel (probeNext (List.length b) i)

/-- xqwBuckets.FindEntry, returning the index of the found bucket. -/
def xqwBuckets.FindEntry (b : xqwBuckets) (k : Nat) : Option Nat :=
  findEntryAux b k b.length (b.start k)

/-- Probe loop of xqwBuckets.nextAvailable: index of the first empty
bucket from start(k). -/
def nextAvailableAux (b : xqwBuckets) : Nat → Nat → Option Nat
  | 0, _ => none
  | fuel + 1, i =>
    match List.get? b i with
    | none => none
    | some ei =>
      if ei.Key = WORD_NIL then some i
      else nextAvailableAux b fuel (probeNext (List.length b) i)

/-- xqwBuckets.nextAvailable, returning the index of the first empty
bucket on k's probe path. -/
def xqwBuckets.nextAvailable (b : xqwBuckets) (k : Nat) : Option Nat :=
  nextAvailableAux b b.length (b.start k)

/-- xqwBuckets.Size: the number of live (non-WORD_NIL) buckets. -/
def xqwBuckets.Size (b : xqwBuckets) : Nat :=
  List.countP (fun e => decide (e.Key ≠ WORD_NIL)) b

/-- xqwBuckets.Range: the live entries, in bucket order. -/
def xqwBuckets.Range (b : xqwBuckets) : List xqwEntry :=
  List.filter (fun e => decide (e.Key ≠ WORD_NIL)) b

/-- xqwMap is the probing hash table (bucket array, live entry count,
growth threshold). -/
structure xqwMap where
  buckets : xqwBuckets
  numEntries : Nat
  threshold : Nat
deriving DecidableEq, Repr

/-- newXqwMap from probing_impl.go: capacity defaults to 4 when the
request is 0 and is raised to 2 when below 2; maxUsed defaults to 0.8
outside (0,1); the growth threshold is the truncation of
capacity * maxUsed clamped into [1, capacity-1].  Go's int and float64
are modelled as Int and Rat (truncation of a positive product is the
floor). -/
def newXqwMap (initNumBuckets0 : Int) (maxUsed0 : Rat) : xqwMap :=
  let initNumBuckets : Int :=
    if initNumBuckets0 = 0 then 4
    else if initNumBuckets0 < 2 then 2
    else initNumBuckets0
  let maxUsed : Rat := if maxUsed0 ≤ 0 ∨ 1 ≤ maxUsed0 then 4 / 5 else maxUsed0
  let threshold0 : Int := Rat.floor ((initNumBuckets : Rat) * maxUsed)
  let threshold1 : Int := if threshold0 < 1 then 1 else threshold0
  let threshold : Int :=
    if threshold1 > initNumBuckets - 1 then initNumBuckets - 1 else threshold1
  ⟨xqwInitBuckets initNumBuckets.toNat, 0, threshold.toNat⟩

/-- The capacity of a map, as in len(m.buckets). -/
def xqwMap.capacity (m : xqwMap) : Nat := m.buckets.length

/-- xqwMap.Size. -/
def xqwMap.Size (m : xqwMap) : Nat := m.numEntries

/-- xqwMap.Find. -/
def xqwMap.Find (m : xqwMap) (k : Nat) : Option (Option StateWeight) :=
  m.buckets.Find k

/-- Reinsertion of the live entries of old into fresh buckets, as done by
the loop in xqwMap.Resize; none when some nextAvailable probe fails to
find an empty bucket. -/
def reinsertAll (old : List xqwEntry) (init : xqwBuckets) : Option xqwBuckets :=
  List.foldl
    (fun acc e =>
      Option.bind acc (fun bs =>
        if e.Key = WORD_NIL then some bs
        else (xqwBuckets.nextAvailable bs e.Key).map
          (fun j => List.set bs j e)))
    (some init) old

/-- xqwMap.Resize: capacity is raised to numEntries+1 when the request is
lower; live entries are re-inserted; the threshold is rescaled by
numBuckets/oldNumBuckets (integer arithmetic) and clamped to at least
numEntries. -/
def xqwMap.Resize (m : xqwMap) (numBuckets0 : Nat) : Option xqwMap :=
  let numBuckets :=
    if numBuckets0 < m.numEntries + 1 then m.numEntries + 1 else numBuckets0
  match reinsertAll m.buckets (xqwInitBuckets numBuckets) with
  | none => none
  | some buckets =>
    let oldNumBuckets := m.buckets.length
    let threshold0 := m.threshold * numBuckets / oldNumBuckets
    let threshold := if threshold0 < m.numEntries then m.numEntries else threshold0
    some ⟨buckets, m.numEntries, threshold⟩

/-- xqwMap.FindOrInsert: probe for k; when an empty bucket is hit, grow
if at threshold, then install the entry (with the Go zero value) and
report its index.  The returned pair is the updated map and the index of
the bucket holding k (whose Value the Go callers then overwrite through
the returned pointer). -/
def xqwMap.FindOrInsert (m : xqwMap) (k : Nat) : Option (xqwMap × Nat) :=
  match m.buckets.FindEntry k with
  | none => none
  | some i =>
    match List.get? m.buckets i with
    | none => none
    | some e =>
      if e.Key ≠ WORD_NIL then some (m, i)
      else if m.numEntries ≥ m.threshold then
        match m.Resize (m.buckets.length * 2) with
        | none => none
        | some m1 =>
          match m1.buckets.nextAvailable k with
          | none => none
          | some j =>
            some (⟨List.set m1.buckets j ⟨k, ⟨0, 0⟩⟩, m1.numEntries + 1,
                   m1.threshold⟩, j)
      else
        some (⟨List.set m.buckets i ⟨k, ⟨0, 0⟩⟩, m.numEntries + 1,
               m.threshold⟩, i)

/-- Writing a value through the pointer returned by FindOrInsert, as the
Go callers do with an assignment to the returned *StateWeight. -/
def xqwMap.setValueAt (m : xqwMap) (i : Nat) (v : StateWeight) : xqwMap :=
  match List.get? m.buckets i with
  | none => m
  | some e => ⟨List.set m.buckets i ⟨e.Key, v⟩, m.numEntries, m.threshold⟩

/-- Sorted is the sorted query model of sorted.go: per-state transition
arrays sorted by word, with the back-off entry stored under WORD_NIL as
the last entry. -/
structure Sorted where
  vocab : List String
  bos : String
  eos : String
  bosId : Nat
  eosId : Nat
  transitions : List (List WordStateWeight)
deriving DecidableEq, Repr

/-- Binary-search loop of Sorted.findNext over the interval [l, h),
returning the index of an entry whose word is x. -/
def findNextAux (next : List WordStateWeight) (x : Nat) : Nat → Nat → Option Nat
  | l, h =>
    if hlt : l < h then
      match List.get? next (l + (h - l) / 2) with
      | none => none
      | some e =>
        if e.Word < x then findNextAux next x (l + (h - l) / 2 + 1) h
        else if x < e.Word then findNextAux next x l (l + (h - l) / 2)
        else some (l + (h - l) / 2)
    else none
termination_by l h => h - l
decreasing_by
  all_goals omega

/-- Sorted.findNext: binary search for x in state p's array; on a miss
the back-off entry next[len(next)-1] is returned.  none models the Go
panics (state index out of range, or empty transition array). -/
def Sorted.findNext (m : Sorted) (p x : Nat) : Option WordStateWeight :=
  match List.get? m.transitions p with
  | none => none
  | some next =>
    match findNextAux next x 0 next.length with
    | some i => List.get? next i
    | none => List.get? next (next.length - 1)

/-- The back-off loop of Sorted.NextI, with explicit fuel; one step per
iteration of the Go for-loop. -/
def Sorted.NextIAux (m : Sorted) (x : Nat) : Nat → Nat → Weight → Option (Nat × Weight)
  | 0, _, _ => none
  | fuel + 1, p, w =>
    match m.findNext p x with
    | none => none
    | some next =>
      if next.Word = WORD_NIL ∧ p ≠ STATE_EMPTY then
        Sorted.NextIAux m x fuel next.State (w + next.Weight)
      else if next.Word ≠ WORD_NIL then some (next.State, w + next.Weight)
      else some (STATE_EMPTY, WEIGHT_LOG0)

/-- Sorted.NextI.  The fuel numStates+1 is enough for any model whose
back-off chains reach STATE_EMPTY. -/
def Sorted.NextI (m : Sorted) (p x : Nat) : Option (Nat × Weight) :=
  Sorted.NextIAux m x (m.transitions.length + 1) p 0

/-- Sorted.Final. -/
def Sorted.Final (m : Sorted) (p : Nat) : Option Weight :=
  (m.NextI p m.eosId).map Prod.snd

/-- Hashed is the hashed query model of hashed.go: per-state bucket
arrays in which every empty bucket carries the state's back-off
transition as its value. -/
structure Hashed where
  vocab : List String
  bos : String
  eos : String
  bosId : Nat
  eosId : Nat
  transitions : List xqwBuckets
deriving DecidableEq, Repr

/-- The back-off loop of Hashed.NextI, with explicit fuel. -/
def Hashed.NextIAux (m : Hashed) (x : Nat) : Nat → Nat → Weight → Option (Nat × Weight)
  | 0, _, _ => none
  | fuel + 1, p, w =>
    match List.get? m.transitions p with
    | none => none
    | some bks =>
      match bks.FindEntry x with
      | none => none
      | some j =>
        match List.get? bks j with
        | none => none
        | some next =>
          if next.Key = WORD_NIL ∧ p ≠ STATE_EMPTY then
            Hashed.NextIAux m x fuel next.Value.State (w + next.Value.Weight)
          else if next.Key ≠ WORD_NIL then
            some (next.Value.State, w + next.Value.Weight)
          else some (STATE_EMPTY, WEIGHT_LOG0)

/-- Hashed.NextI. -/
def Hashed.NextI (m : Hashed) (p x : Nat) : Option (Nat × Weight) :=
  Hashed.NextIAux m x (m.transitions.length + 1) p 0

/-- Hashed.Final. -/
def Hashed.Final (m : Hashed) (p : Nat) : Option Weight :=
  (m.NextI p m.eosId).map Prod.snd

/-
Specification-level description of the query walk, following the words
of the spec (section 4.4): starting from weight 0, a missed lookup adds
the state's back-off weight and moves to the back-off state; a lexical
hit (q', w') returns (q', w + w'); a miss at STATE_EMPTY returns exactly
(STATE_EMPTY, WEIGHT_LOG0), discarding the accumulated weight.
-/

/-- One abstract back-off walk, parametrized by the lexical lookup and
the back-off map of the model. -/
def specWalk (lookup : Nat → Option (Nat × Weight)) (bo : Nat → Nat × Weight) :
    Nat → Nat → Weight → Option (Nat × Weight)
  | 0, _, _ => none
  | fuel + 1, p, w =>
    match lookup p with
    | some (q, w2) => some (q, w + w2)
    | none =>
      if p = STATE_EMPTY then some (STATE_EMPTY, WEIGHT_LOG0)
      else specWalk lookup bo fuel (bo p).1 (w + (bo p).2)

/-- The lexical entries of a sorted state: its array without the final
back-off entry. -/
def sortedLexical (row : List WordStateWeight) : List WordStateWeight :=
  List.filter (fun e => decide (e.Word ≠ WORD_NIL)) row

/-- Spec-level lexical lookup for the sorted model: the (unique) lexical
entry of state p labeled x. -/
def Sorted.specLookup (m : Sorted) (p x : Nat) : Option (Nat × Weight) :=
  if x = WORD_NIL then none
  else
    (List.find? (fun e => decide (e.Word = x)) (List.getD m.transitions p [])).map
      (fun e => (e.State, e.Weight))

/-- Spec-level back-off map for the sorted model: the last entry of the
state's array. -/
def Sorted.specBackOff (m : Sorted) (p : Nat) : Nat × Weight :=
  match List.getLast? (List.getD m.transitions p []) with
  | some e => (e.State, e.Weight)
  | none => (STATE_NIL, 0)

/-- The spec-level query walk for the sorted model. -/
def Sorted.specNext (m : Sorted) (p x : Nat) : Option (Nat × Weight) :=
  specWalk (fun s => m.specLookup s x) m.specBackOff (m.transitions.length + 1) p 0

/-- Spec-level lexical lookup for the hashed model: the (unique) live
bucket of state p keyed x. -/
def Hashed.specLookup (m : Hashed) (p x : Nat) : Option (Nat × Weight) :=
  if x = WORD_NIL then none
  else
    (List.find? (fun e => decide (e.Key = x)) (List.getD m.transitions p [])).map
      (fun e => (e.Value.State, e.Value.Weight))

/-- Spec-level back-off map for the hashed model: the value shared by
the state's empty buckets. -/
def Hashed.specBackOff (m : Hashed) (p : Nat) : Nat × Weight :=
  match List.find? (fun e => e.Key == WORD_NIL) (List.getD m.transitions p []) with
  | some e => (e.Value.State, e.Value.Weight)
  | none => (STATE_NIL, 0)

/-- The spec-level query walk for the hashed model. -/
def Hashed.specNext (m : Hashed) (p x : Nat) : Option (Nat × Weight) :=
  specWalk (fun s => m.specLookup s x) m.specBackOff (m.transitions.length + 1) p 0

/-
Well-formedness of compiled models (the invariants of section 3 of the
spec, as executable predicates).
-/

/-- Shape of one sorted state array: non-empty, last entry keyed
WORD_NIL, strictly ascending words, all non-last words valid. -/
def sortedRowOk (row : List WordStateWeight) : Bool :=
  !List.isEmpty row &&
  (match List.getLast? row with
   | some e => e.Word == WORD_NIL
   | none => false) &&
  List.Pairwise (fun a b => a.Word < b.Word) row &&
  List.all (List.dropLast row) (fun e => e.Word < WORD_NIL)

/-- Back-off chain of a sorted model reaches STATE_EMPTY within the
given number of steps, every intermediate state being valid. -/
def Sorted.reachEmpty (m : Sorted) : Nat → Nat → Bool
  | 0, p => p == STATE_EMPTY
  | fuel + 1, p =>
    p == STATE_EMPTY ||
    (match List.get? m.transitions p with
     | none => false
     | some row =>
       match List.getLast? row with
       | none => false
       | some e => Sorted.reachEmpty m fuel e.State)

/-- Well-formedness of a sorted model: every state array has the sorted
shape and every back-off chain reaches STATE_EMPTY. -/
def Sorted.wf (m : Sorted) : Bool :=
  List.all m.transitions sortedRowOk &&
  List.all (List.range m.transitions.length)
    (fun p => m.reachEmpty m.transitions.length p)

/-- Shape of one hashed state's bucket array: it has an empty bucket,
all empty buckets share one value (the back-off transition), live keys
are valid and duplicate-free, and probing for any live key finds a
bucket holding that key. -/
def hashedRowOk (b : xqwBuckets) : Bool :=
  List.any b (fun e => e.Key == WORD_NIL) &&
  (match List.find? (fun e => e.Key == WORD_NIL) b with
   | some e0 => List.all b (fun e => e.Key != WORD_NIL || e.Value == e0.Value)
   | none => false) &&
  List.all b (fun e => e.Key == WORD_NIL || e.Key < WORD_NIL) &&
  List.Pairwise (fun a b => a.Key ≠ WORD_NIL → b.Key ≠ WORD_NIL → a.Key ≠ b.Key) b &&
  List.all (List.range (List.length b)) (fun j =>
    match List.get? b j with
    | none => false
    | some e =>
      e.Key == WORD_NIL ||
      (match xqwBuckets.FindEntry b e.Key with
       | none => false
       | some j2 =>
         match List.get? b j2 with
         | none => false
         | some e2 => e2.Key == e.Key))

/-- Back-off chain of a hashed model reaches STATE_EMPTY within the
given number of steps. -/
def Hashed.reachEmpty (m : Hashed) : Nat → Nat → Bool
  | 0, p => p == STATE_EMPTY
  | fuel + 1, p =>
    p == STATE_EMPTY ||
    (match List.get? m.transitions p with
     | none => false
     | some b =>
       match List.find? (fun e => e.Key == WORD_NIL) b with
       | none => false
       | some e => Hashed.reachEmpty m fuel e.Value.State)

/-- Well-formedness of a hashed model. -/
def Hashed.wf (m : Hashed) : Bool :=
  List.all m.transitions hashedRowOk &&
  List.all (List.range m.transitions.length)
    (fun p => m.reachEmpty m.transitions.length p)

/-
The Builder of builder.go.  The vocabulary type comes from the external
package github.com/kho/word, which is not part of this repository's
sources.
-/

/-- Modelled from the spec (section 4.1): the word.Vocab of the missing
github.com/kho/word package is an append-only bijection between tokens
and dense integer ids; id_of returns WORD_NIL when absent; id_or_add
appends. -/
def vocabIdOf (v : List String) (s : String) : Nat :=
  match List.indexOf? s v with
  | some i => i
  | none => WORD_NIL

/-- Modelled from the spec (section 4.1): id_or_add returns the existing
id or appends the word and returns the new id. -/
def vocabIdOrAdd (v : List String) (s : String) : List String × Nat :=
  match List.indexOf? s v with
  | some i => (v, i)
  | none => (v ++ [s], v.length)

/-- The value of the fslm.log0 flag at its default: weights no greater
than this are coerced to WEIGHT_LOG0 by AddNgram. -/
def textLog0 : Weight := Weight.fin (-99)

/-- The float comparison w <= w2 on weights (-inf is below everything). -/
def Weight.leB : Weight → Weight → Bool
  | Weight.log0, _ => true
  | Weight.fin _, Weight.log0 => false
  | Weight.fin a, Weight.fin b => a ≤ b

/-- Builder state: vocabulary, boundary symbols and ids, per-state
transition maps (nil until the first insertion) and per-state back-off
(state STATE_NIL means unresolved). -/
structure Builder where
  vocab : List String
  bos : String
  eos : String
  bosId : Nat
  eosId : Nat
  transitions : List (Option xqwMap)
  backoff : List StateWeight
deriving DecidableEq, Repr

/-- Builder.newState: appends a state with no transition map and an
unresolved back-off; returns its id. -/
def Builder.newState (b : Builder) : Builder × Nat :=
  (⟨b.vocab, b.bos, b.eos, b.bosId, b.eosId,
    b.transitions ++ [none], b.backoff ++ [⟨STATE_NIL, 0⟩]⟩,
   b.backoff.length)

/-- Builder.idOrAdd wraps the vocabulary mutation of b.vocab.IdOrAdd. -/
def Builder.idOrAdd (b : Builder) (s : String) : Builder × Nat :=
  let vi := vocabIdOrAdd b.vocab s
  ({b with vocab := vi.1}, vi.2)

/-- Builder.setTransition: create state p's map if nil, then
FindOrInsert x and write (q, w) through the returned pointer. -/
def Builder.setTransition (b : Builder) (p x q : Nat) (w : Weight) : Option Builder :=
  match List.get? b.transitions p with
  | none => none
  | some mp0 =>
    let mp := mp0.getD (newXqwMap 0 0)
    match mp.FindOrInsert x with
    | none => none
    | some mi =>
      some {b with transitions := List.set b.transitions p (some (mi.1.setValueAt mi.2 ⟨q, w⟩))}

/-- Builder.setBackOffWeight. -/
def Builder.setBackOffWeight (b : Builder) (p : Nat) (bow : Weight) : Option Builder :=
  match List.get? b.backoff p with
  | none => none
  | some e => some {b with backoff := List.set b.backoff p ⟨e.State, bow⟩}

/-- Builder.findNextState: create state p's map if nil; return the
existing destination on x, or create a fresh state and a weight-0
transition to it. -/
def Builder.findNextState (b0 : Builder) (p x : Nat) : Option (Builder × Nat) :=
  match List.get? b0.transitions p with
  | none => none
  | some mp0 =>
    let mp := mp0.getD (newXqwMap 0 0)
    let b := {b0 with transitions := List.set b0.transitions p (some mp)}
    match mp.Find x with
    | none => none
    | some (some qw) => some (b, qw.State)
    | some none =>
      let bq := b.newState
      match bq.1.setTransition p x bq.2 0 with
      | none => none
      | some b2 => some (b2, bq.2)

/-- Builder.findState: walk/create the context trie from p along ws. -/
def Builder.findState : Builder → Nat → List String → Option (Builder × Nat)
  | b, p, [] => some (b, p)
  | b, p, w :: ws =>
    let bx := b.idOrAdd w
    match bx.1.findNextState p bx.2 with
    | none => none
    | some bq => Builder.findState bq.1 bq.2 ws

/-- The fatal validation of Builder.AddNgram: end-of-sentence anywhere in
the context, or begin-of-sentence after index 0, calls glog.Fatalf. -/
def addNgramFatal (bos eos : String) (context : List String) : Bool :=
  match context with
  | [] => false
  | c0 :: rest => c0 == eos || List.any rest (fun i => i == bos || i == eos)

/-- Builder.AddNgram: coerce weights at or below the log0 threshold,
validate the context (none = glog.Fatalf), walk the context to p, and
install the transition; for non-EOS words also create the destination
and record its back-off weight. -/
def Builder.AddNgram (b0 : Builder) (context : List String) (word : String)
    (weight0 backOff0 : Weight) : Option Builder :=
  let weight := if weight0.leB textLog0 then WEIGHT_LOG0 else weight0
  let backOff := if backOff0.leB textLog0 then WEIGHT_LOG0 else backOff0
  if addNgramFatal b0.bos b0.eos context then none
  else
    match b0.findState STATE_EMPTY context with
    | none => none
    | some bp =>
      let bx := bp.1.idOrAdd word
      let b2 := bx.1
      let p := bp.2
      let x := bx.2
      if x ≠ b2.eosId then
        match b2.findNextState p x with
        | none => none
        | some bq =>
          match bq.1.setBackOffWeight bq.2 backOff with
          | none => none
          | some b3 => b3.setTransition p x bq.2 weight
      else
        b2.setTransition p x STATE_NIL weight

/-- NewBuilder: default vocabulary when none is given, distinct and
present boundary symbols, two initial states and the BOS transition from
STATE_EMPTY to STATE_START. -/
def NewBuilder (vocab0 : Option (List String)) (bos0 eos0 : String) : Option Builder :=
  let vbe : List String × String × String :=
    match vocab0 with
    | none => ([a_bos, a_eos], a_bos, a_eos)
    | some v => (v, bos0, eos0)
  let vocab := vbe.1
  let bos := vbe.2.1
  let eos := vbe.2.2
  if bos = eos then none
  else
    let bosId := vocabIdOf vocab bos
    let eosId := vocabIdOf vocab eos
    if bosId = WORD_NIL then none
    else if eosId = WORD_NIL then none
    else
      let b : Builder :=
        ⟨vocab, bos, eos, bosId, eosId, [none, none], [⟨STATE_NIL, 0⟩, ⟨STATE_NIL, 0⟩]⟩
      b.setTransition STATE_EMPTY bosId STATE_START 0
where
  a_bos : String := "<s>"
  a_eos : String := "</s>"

/-- The back-off-chain lookup inside Builder.linkTransition: from pBack,
look x up, following back-off states while absent and not at
STATE_EMPTY.  Returns the final (pBack, found entry or none); the outer
none models a panic (nil map / bad index) or fuel exhaustion. -/
def Builder.chainFindAux (b : Builder) (x : Nat) : Nat → Nat → Option (Nat × Option StateWeight)
  | 0, _ => none
  | fuel + 1, pBack =>
    match List.get? b.transitions pBack with
    | none => none
    | some none => none
    | some (some mp) =>
      match mp.Find x with
      | none => none
      | some (some qw) => some (pBack, some qw)
      | some none =>
        if pBack = STATE_EMPTY then some (pBack, none)
        else
          match List.get? b.backoff pBack with
          | none => none
          | some sw => Builder.chainFindAux b x fuel sw.State

/-- Builder.linkTransition: resolve state q's back-off (q reached from p
on x).  If already resolved, return it.  Otherwise find the first entry
on x along p's back-off chain; on a miss q backs off to STATE_EMPTY; on
a hit (pBack, x) -> qBack, recursively resolve qBack's back-off
(qBackBack, w); if qBack has no lexical transitions, q backs off to
qBackBack and w is folded into q's back-off weight, else q backs off to
qBack.  Returns the updated builder and q's resolved back-off. -/
def Builder.linkTransition (b : Builder) : Nat → Nat → Nat → Nat → Option (Builder × Nat × Weight)
  | 0, _, _, _ => none
  | fuel + 1, p, x, q =>
    match List.get? b.backoff q with
    | none => none
    | some qBackOff =>
      if qBackOff.State ≠ STATE_NIL then some (b, qBackOff.State, qBackOff.Weight)
      else
        match List.get? b.backoff p with
        | none => none
        | some pbo =>
          match b.chainFindAux x (b.backoff.length + 1) pbo.State with
          | none => none
          | some (_, none) =>
            match List.get? b.backoff q with
            | none => none
            | some e =>
              some ({b with backoff := List.set b.backoff q ⟨STATE_EMPTY, e.Weight⟩},
                    STATE_EMPTY, e.Weight)
          | some (pBack, some qwBack) =>
            match Builder.linkTransition b fuel pBack x qwBack.State with
            | none => none
            | some bw =>
              let b1 := bw.1
              let qBackBack := bw.2.1
              let w := bw.2.2
              match List.get? b1.backoff q with
              | none => none
              | some e =>
                match List.get? b1.transitions qwBack.State with
                | none => none
                | some mqb =>
                  if mqb = none then
                    some ({b1 with backoff := List.set b1.backoff q ⟨qBackBack, e.Weight + w⟩},
                          qBackBack, e.Weight + w)
                  else
                    some ({b1 with backoff := List.set b1.backoff q ⟨qwBack.State, e.Weight⟩},
                          qwBack.State, e.Weight)

/-- Builder.link: direct children of STATE_EMPTY back off to
STATE_EMPTY; every other state with a transition map has each of its
transitions' destinations resolved by linkTransition. -/
def Builder.link (b0 : Builder) : Option Builder := do
  let mp0 ← match List.get? b0.transitions STATE_EMPTY with
    | none => none
    | some none => none
    | some (some mp) => some mp
  let b1 ← List.foldlM (fun (bb : Builder) (e : xqwEntry) =>
      if e.Value.State ≠ STATE_NIL then
        match List.get? bb.backoff e.Value.State with
        | none => none
        | some sw =>
          some {bb with backoff := List.set bb.backoff e.Value.State ⟨STATE_EMPTY, sw.Weight⟩}
      else some bb)
    b0 mp0.buckets.Range
  List.foldlM (fun (bb : Builder) (p : Nat) =>
      match List.get? b0.transitions p with
      | none => none
      | some none => some bb
      | some (some es) =>
        List.foldlM (fun (bb2 : Builder) (e : xqwEntry) =>
            if e.Value.State ≠ STATE_NIL then
              (bb2.linkTransition (bb2.backoff.length + 1) p e.Key e.Value.State).map
                (fun r => r.1)
            else some bb2)
          bb es.buckets.Range)
    b1 (List.range' 1 (b0.transitions.length - 1))

/-- The loop of Builder.prune over the states after STATE_START:
surviving states get the next dense id, dead states get STATE_NIL. -/
def pruneAux : List (Option xqwMap) → Nat → List Nat × Nat
  | [], nextId => ([], nextId)
  | es :: rest, nextId =>
    if es.isSome then
      let r := pruneAux rest (nextId + 1)
      (nextId :: r.1, r.2)
    else
      let r := pruneAux rest nextId
      (STATE_NIL :: r.1, r.2)

/-- Builder.prune: STATE_EMPTY and STATE_START are kept unchanged;
states without transitions are marked STATE_NIL; returns the old-to-new
mapping and the number of surviving states. -/
def Builder.prune (b : Builder) : List Nat × Nat :=
  let r := pruneAux (List.drop 2 b.transitions) 2
  (STATE_EMPTY :: STATE_START :: r.1, r.2)

/-- The destination pre-walk shared by moveHashed and moveSorted: a
non-final destination is remapped; if it was pruned, step to its
resolved back-off state and fold the back-off weight into the
transition. -/
def prewalkEntry (b : Builder) (oldToNew : List Nat) (q0 : Nat) (w0 : Weight) :
    Option (Nat × Weight) :=
  if q0 ≠ STATE_NIL then
    match List.get? oldToNew q0 with
    | none => none
    | some q1 =>
      if q1 = STATE_NIL then
        match List.get? b.backoff q0 with
        | none => none
        | some s =>
          match List.get? oldToNew s.State with
          | none => none
          | some q2 => some (q2, w0 + s.Weight)
      else some (q1, w0)
  else some (q0, w0)

/-- The remapping of a state's stored back-off in moveHashed/moveSorted:
a resolved back-off state is sent through oldToNew. -/
def remapBackoff (oldToNew : List Nat) (sw : StateWeight) : Option StateWeight :=
  if sw.State ≠ STATE_NIL then
    (List.get? oldToNew sw.State).map (fun s => ⟨s, sw.Weight⟩)
  else some sw

/-- Sorting of a state's array by word, as sort.Sort(byWord(next)); on
the duplicate-free arrays the builder produces, any comparison sort
yields this unique result. -/
def sortByWord (l : List WordStateWeight) : List WordStateWeight :=
  List.insertionSort (fun a b => a.Word ≤ b.Word) l

/-- Builder.moveSorted: for each surviving state, collect its pre-walked
transitions, append the back-off entry under WORD_NIL, and sort by
word. -/
def Builder.moveSorted (b : Builder) (oldToNew : List Nat) (numStates : Nat) :
    Option Sorted := do
  let init := List.replicate numStates ([] : List WordStateWeight)
  let trans ← List.foldlM (fun (acc : List (List WordStateWeight)) (oe : Nat × Nat) =>
      if oe.2 = STATE_NIL then some acc
      else do
        let entries ← match List.get? b.transitions oe.1 with
          | none => none
          | some none => some ([] : List WordStateWeight)
          | some (some mp) =>
            List.foldlM (fun (lst : List WordStateWeight) (e : xqwEntry) => do
                let qw ← prewalkEntry b oldToNew e.Value.State e.Value.Weight
                pure (lst ++ [⟨e.Key, qw.1, qw.2⟩]))
              ([] : List WordStateWeight) mp.buckets.Range
        let bo ← List.get? b.backoff oe.1
        let bo1 ← remapBackoff oldToNew bo
        pure (List.set acc oe.2
          (sortByWord (entries ++ [⟨WORD_NIL, bo1.State, bo1.Weight⟩]))))
    init (List.enum oldToNew)
  pure ⟨b.vocab, b.bos, b.eos, b.bosId, b.eosId, trans⟩

/-- Builder.DumpSorted. -/
def Builder.DumpSorted (b : Builder) : Option Sorted := do
  let b1 ← b.link
  let oe := b1.prune
  b1.moveSorted oe.1 oe.2

/-- Magic word of the sorted binary format. -/
def MAGIC_SORTED : String := "#fslm.sort"

/-- Magic word of the hashed binary format. -/
def MAGIC_HASHED : String := "#fslm.hash"

/-- The content of a binary container file: magic, the header fields
(vocabulary, boundary symbols, per-state counts as int64), and the flat
record blob.  Modelled from the spec: the gob codec serializing the
header is abstracted as the fields themselves. -/
structure BinFile (α : Type) where
  magic : String
  vocab : List String
  bos : String
  eos : String
  counts : List Int
  entries : List α
deriving DecidableEq

/-- Slicing of the flat entry blob into per-state arrays according to
the header counts (entrySlice[low : low+n] chunks); none models the Go
panic on a negative or overlong slice. -/
def splitFlat {α : Type} : List Int → List α → Option (List (List α))
  | [], _ => some []
  | n :: ns, flat =>
    if n < 0 then none
    else if flat.length < n.toNat then none
    else
      match splitFlat ns (List.drop n.toNat flat) with
      | some chunks => some (List.take n.toNat flat :: chunks)
      | none => none

/-- Sorted.WriteBinary: magic, header (vocab, bos, eos, per-state
lexical-transition counts len-1), and the concatenated per-state
arrays. -/
def Sorted.WriteBinary (m : Sorted) : BinFile WordStateWeight :=
  ⟨MAGIC_SORTED, m.vocab, m.bos, m.eos,
   List.map (fun next => (next.length : Int) - 1) m.transitions,
   List.flatten m.transitions⟩

/-- Sorted.UnsafeParseBinary: check the magic, decode the header,
re-derive the boundary ids from the vocabulary, and re-slice the blob
into n+1-entry per-state arrays. -/
def Sorted.UnsafeParseBinary (raw : BinFile WordStateWeight) : Option Sorted :=
  if raw.magic ≠ MAGIC_SORTED then none
  else
    let bosId := vocabIdOf raw.vocab raw.bos
    let eosId := vocabIdOf raw.vocab raw.eos
    if bosId = WORD_NIL then none
    else if eosId = WORD_NIL then none
    else
      match splitFlat (List.map (fun n => n + 1) raw.counts) raw.entries with
      | some chunks => some ⟨raw.vocab, raw.bos, raw.eos, bosId, eosId, chunks⟩
      | none => none

/-- Hashed.WriteBinary: magic, header (vocab, bos, eos, per-state bucket
counts), and the concatenated bucket arrays. -/
def Hashed.WriteBinary (m : Hashed) : BinFile xqwEntry :=
  ⟨MAGIC_HASHED, m.vocab, m.bos, m.eos,
   List.map (fun b => (List.length b : Int)) m.transitions,
   List.flatten m.transitions⟩

/-- Hashed.unsafeParseBinary. -/
def Hashed.unsafeParseBinary (raw : BinFile xqwEntry) : Option Hashed :=
  if raw.magic ≠ MAGIC_HASHED then none
  else
    let bosId := vocabIdOf raw.vocab raw.bos
    let eosId := vocabIdOf raw.vocab raw.eos
    if bosId = WORD_NIL then none
    else if eosId = WORD_NIL then none
    else
      match splitFlat raw.counts raw.entries with
      | some chunks => some ⟨raw.vocab, raw.bos, raw.eos, bosId, eosId, chunks⟩
      | none => none

/-- The hash-table invariant of the spec: the entry count agrees with
the number of live buckets, there is at least one empty slot
(count < capacity), and the growth threshold is below the capacity. -/
def xqwMap.Inv (m : xqwMap) : Prop :=
  xqwBuckets.Size m.buckets = m.numEntries ∧
  m.numEntries < List.length m.buckets ∧
  m.threshold < List.length m.buckets

instance (m : xqwMap) : Decidable m.Inv :=
  inferInstanceAs (Decidable (_ ∧ _ ∧ _))

/-- A small concrete sorted model (states: empty, start, one word
context) used to instantiate the universally quantified theorems. -/
def exSorted : Sorted :=
  ⟨["<s>", "</s>", "a"], "<s>", "</s>", 0, 1,
   [[⟨0, 1, 0⟩, ⟨2, 2, Weight.fin (-2)⟩, ⟨WORD_NIL, STATE_NIL, 0⟩],
    [⟨WORD_NIL, 0, Weight.fin (-1)⟩],
    [⟨WORD_NIL, 0, Weight.fin (-3)⟩]]⟩

/-- The hashed counterpart of exSorted (bucket layouts follow the fast
hash modulo the capacities). -/
def exHashed : Hashed :=
  ⟨["<s>", "</s>", "a"], "<s>", "</s>", 0, 1,
   [[⟨0, ⟨1, 0⟩⟩, ⟨WORD_NIL, ⟨STATE_NIL, 0⟩⟩, ⟨WORD_NIL, ⟨STATE_NIL, 0⟩⟩,
     ⟨2, ⟨2, Weight.fin (-2)⟩⟩],
    [⟨WORD_NIL, ⟨0, Weight.fin (-1)⟩⟩, ⟨WORD_NIL, ⟨0, Weight.fin (-1)⟩⟩],
    [⟨WORD_NIL, ⟨0, Weight.fin (-3)⟩⟩, ⟨WORD_NIL, ⟨0, Weight.fin (-3)⟩⟩]]⟩

/-- Per-map well-formedness inside the Builder: the table invariant
plus validity of the stored live entries (keys are real word ids; every
non-final destination is a valid state). -/
def mapOk (eosId nstates : Nat) (mp : xqwMap) : Prop :=
  mp.Inv ∧ ∀ e ∈ (mp.buckets : List xqwEntry), e.Key ≠ WORD_NIL →
    e.Key < WORD_NIL ∧ (e.Key ≠ eosId → e.Value.State < nstates)

instance (eosId nstates : Nat) (mp : xqwMap) : Decidable (mapOk eosId nstates mp) :=
  inferInstanceAs (Decidable (_ ∧ _))

/-- mapOk lifted to the optional maps stored by the Builder. -/
def optMapOk (eosId nstates : Nat) : Option xqwMap → Prop
  | none => True
  | some mp => mapOk eosId nstates mp

instance (eosId nstates : Nat) (omp : Option xqwMap) :
    Decidable (optMapOk eosId nstates omp) :=
  match omp with
  | none => isTrue trivial
  | some mp => inferInstanceAs (Decidable (mapOk eosId nstates mp))

/-- The Builder invariant: per-state arrays in sync, at least the two
initial states, boundary ids naming their tokens in the vocabulary, and
every transition map well-formed. -/
def Builder.Good (b : Builder) : Prop :=
  b.transitions.length = b.backoff.length ∧
  2 ≤ b.backoff.length ∧
  List.get? b.vocab b.bosId = some b.bos ∧
  List.get? b.vocab b.eosId = some b.eos ∧
  ∀ omp ∈ b.transitions, optMapOk b.eosId b.backoff.length omp

instance (b : Builder) : Decidable b.Good :=
  inferInstanceAs (Decidable (_ ∧ _))

/-- The open-addressing discipline of the builder's tables: every live
bucket is found by FindEntry at its own index (its probe path from the
hash start holds no empty bucket and no other copy of its key).  All
insertions of probing_impl.go maintain this; it makes live keys pairwise
distinct. -/
def bucketsFindOk (b : xqwBuckets) : Prop :=
  ∀ j e, List.get? b j = some e → e.Key ≠ WORD_NIL →
    xqwBuckets.FindEntry b e.Key = some j

/-- Executable form of bucketsFindOk, for concrete instances. -/
def bucketsFindOkB (b : xqwBuckets) : Bool :=
  List.all (List.range (List.length b)) (fun j =>
    match List.get? b j with
    | none => false
    | some e => e.Key == WORD_NIL || xqwBuckets.FindEntry b e.Key == some j)

/-- All live keys of a map are true word ids (below WORD_NIL). -/
def mapKeysLt (mp : xqwMap) : Prop :=
  ∀ e ∈ (mp.buckets : List xqwEntry), e.Key ≠ WORD_NIL → e.Key < WORD_NIL

/-- The per-map probing discipline over the whole Builder: every created
transition table is built by FindOrInsert-style insertions, so its live
buckets are found at their own index and its keys are valid word ids. -/
def Builder.KeysOk (b : Builder) : Prop :=
  ∀ omp ∈ b.transitions, ∀ mp, omp = some mp →
    bucketsFindOk mp.buckets ∧ mapKeysLt mp

/-- The total vocabulary/state room a list of AddNgram calls can
consume: each call adds at most context-length + 1 words and at most
context-length + 1 states. -/
def ngramRoom (ngrams : List (List String × String × Weight × Weight)) : Nat :=
  List.sum (List.map (fun ng => List.length ng.1 + 1) ngrams)

/-- Folding a list of AddNgram calls over a builder, as a client does
between NewBuilder and a Dump. -/
def addAll (b0 : Builder) (ngrams : List (List String × String × Weight × Weight)) :
    Option Builder :=
  List.foldlM (fun bb ng => bb.AddNgram ng.1 ng.2.1 ng.2.2.1 ng.2.2.2) b0 ngrams

/-- The complete sorted pipeline: NewBuilder, a list of AddNgram calls,
DumpSorted. -/
def buildSorted (vocab0 : Option (List String)) (bos0 eos0 : String)
    (ngrams : List (List String × String × Weight × Weight)) : Option Sorted := do
  let b0 ← NewBuilder vocab0 bos0 eos0
  let b ← addAll b0 ngrams
  b.DumpSorted

/-- Depth assignment for builder states: a witness list d giving each
state its n-gram context length.  STATE_EMPTY has depth 0, every lexical
transition with a real destination increases depth by exactly one, and
every resolved back-off strictly decreases depth.  Array lengths are in
sync and fit the id space. -/
def Builder.DepthInv (b : Builder) (d : List Nat) : Prop :=
  List.length d = List.length b.backoff ∧
  List.length b.transitions = List.length b.backoff ∧
  List.length b.backoff ≤ STATE_NIL ∧
  List.get? d STATE_EMPTY = some 0 ∧
  (∀ q dq, 1 ≤ q → List.get? d q = some dq → 1 ≤ dq) ∧
  (∀ p mp, List.get? b.transitions p = some (some mp) →
    ∀ e ∈ (mp.buckets : List xqwEntry), e.Key ≠ WORD_NIL →
      e.Value.State ≠ STATE_NIL →
      ∃ dp dq, List.get? d p = some dp ∧ List.get? d e.Value.State = some dq ∧
        dq = dp + 1) ∧
  (∀ q sw, List.get? b.backoff q = some sw → sw.State ≠ STATE_NIL →
    ∃ dq ds, List.get? d q = some dq ∧ List.get? d sw.State = some ds ∧ ds < dq)

/-- Every resolved back-off points at STATE_EMPTY or at a state that
owns a transition map (and hence survives pruning). -/
def Builder.BackOffTargetsOk (b : Builder) : Prop :=
  ∀ q sw, List.get? b.backoff q = some sw → sw.State ≠ STATE_NIL →
    sw.State = STATE_EMPTY ∨ ∃ mp, List.get? b.transitions sw.State = some (some mp)

/-- State q is the destination of some live lexical transition. -/
def Builder.Covered (b : Builder) (q : Nat) : Prop :=
  ∃ p mp e, List.get? b.transitions p = some (some mp) ∧
    e ∈ (mp.buckets : List xqwEntry) ∧ e.Key ≠ WORD_NIL ∧ e.Value.State = q

/-- Every state except STATE_EMPTY is the destination of some live
lexical transition (the transition that created it). -/
def Builder.DestOk (b : Builder) : Prop :=
  ∀ q, 1 ≤ q → q < List.length b.backoff → b.Covered q

/-- A live entry stores destination STATE_NIL exactly when it is keyed
by the end-of-sentence id (a final weight). -/
def Builder.EosNil (b : Builder) : Prop :=
  ∀ p mp e, List.get? b.transitions p = some (some mp) →
    e ∈ (mp.buckets : List xqwEntry) → e.Key ≠ WORD_NIL →
    (e.Value.State = STATE_NIL ↔ e.Key = b.eosId)

/-- The builder invariant needed for back-off termination of the
compiled model, with the depth witness exposed: a depth invariant,
healthy back-off targets, destination coverage, final-entry shape and
the eos id naming the eos token. -/
def Builder.Ready (b : Builder) (d : List Nat) : Prop :=
  b.DepthInv d ∧ b.BackOffTargetsOk ∧ b.DestOk ∧ b.EosNil ∧
  List.get? b.vocab b.eosId = some b.eos

/-- The builder invariant with the depth witness quantified away. -/
def Builder.LinkReady (b : Builder) : Prop :=
  ∃ d, b.Ready d

theorem Weight.zero_add (w : Weight) : (0 : Weight) + w = w := by
  cases w with
  | log0 => rfl
  | fin a =>
    show Weight.fin ((0 : Rat) + a) = Weight.fin a
    simp

theorem Weight.log0_add (w : Weight) : Weight.log0 + w = Weight.log0 := by
  cases w <;> rfl

/-
Probe-loop lemmas for the open-addressing table.
-/

theorem probeNext_lt {len i : Nat} (h : i < len) : probeNext len i < len := by
  unfold probeNext
  split <;> omega

/-- Wrap-around probing visits index j within len steps from any start. -/
theorem exists_probe_offset {len i j : Nat} (hi : i < len) (hj : j < len) :
    ∃ t, t < len ∧ (i + t) % len = j := by
  refine ⟨(j + len - i) % len, Nat.mod_lt _ (by omega), ?_⟩
  have h1 : (i + (j + len - i) % len) % len = (i + (j + len - i)) % len := by
    conv_rhs => rw [Nat.add_mod]
    rw [Nat.add_mod i ((j + len - i) % len), Nat.mod_mod_of_dvd _ dvd_rfl]
  rw [h1, show i + (j + len - i) = j + len by omega, Nat.add_mod_right,
    Nat.mod_eq_of_lt hj]

/-- Stepping the probe keeps the remaining offsets aligned. -/
theorem probeNext_offset {len i t : Nat} (hi : i < len) (ht : 1 ≤ t) :
    (probeNext len i + (t - 1)) % len = (i + t) % len := by
  unfold probeNext
  split
  · next hip =>
    rw [Nat.zero_add, show i + t = (t - 1) + len by omega, Nat.add_mod_right]
  · next hip =>
    have : i + 1 + (t - 1) = i + t := by omega
    rw [this]

theorem findEntryAux_sound (b : xqwBuckets) (k : Nat) :
    ∀ fuel i j, findEntryAux b k fuel i = some j →
      ∃ e, List.get? b j = some e ∧ (e.Key = k ∨ e.Key = WORD_NIL) := by
  intro fuel
  induction fuel with
  | zero => intro i j h; simp [findEntryAux] at h
  | succ f ih =>
    intro i j h
    rw [findEntryAux] at h
    cases hget : List.get? b i with
    | none => rw [hget] at h; cases h
    | some e =>
      rw [hget] at h
      dsimp only at h
      by_cases hstop : e.Key = k ∨ e.Key = WORD_NIL
      · rw [if_pos hstop] at h
        cases h
        exact ⟨e, hget, hstop⟩
      · rw [if_neg hstop] at h
        exact ih _ _ h

theorem findEntryAux_isSome (b : xqwBuckets) (k : Nat) :
    ∀ fuel i, i < List.length b →
      (∃ t, t < fuel ∧ ∃ e, List.get? b ((i + t) % List.length b) = some e ∧
        (e.Key = k ∨ e.Key = WORD_NIL)) →
      (findEntryAux b k fuel i).isSome := by
  intro fuel
  induction fuel with
  | zero =>
    intro i hi h
    obtain ⟨t, ht, _⟩ := h
    omega
  | succ f ih =>
    intro i hi h
    obtain ⟨t, ht, e, he, hke⟩ := h
    obtain ⟨ei, hei⟩ : ∃ ei, List.get? b i = some ei := by
      rw [List.get?_eq_get hi]; exact ⟨_, rfl⟩
    rw [findEntryAux, hei]
    dsimp only
    by_cases hstop : ei.Key = k ∨ ei.Key = WORD_NIL
    · rw [if_pos hstop]; rfl
    · rw [if_neg hstop]
      apply ih _ (probeNext_lt hi)
      have ht1 : 1 ≤ t := by
        rcases Nat.eq_zero_or_pos t with h0 | h1
        · subst h0
          rw [Nat.add_zero, Nat.mod_eq_of_lt hi, hei] at he
          cases he
          exact absurd hke hstop
        · exact h1
      refine ⟨t - 1, by omega, e, ?_, hke⟩
      rw [probeNext_offset hi ht1]
      exact he

theorem nextAvailableAux_sound (b : xqwBuckets) :
    ∀ fuel i j, nextAvailableAux b fuel i = some j →
      ∃ e, List.get? b j = some e ∧ e.Key = WORD_NIL := by
  intro fuel
  induction fuel with
  | zero => intro i j h; simp [nextAvailableAux] at h
  | succ f ih =>
    intro i j h
    rw [nextAvailableAux] at h
    cases hget : List.get? b i with
    | none => rw [hget] at h; cases h
    | some e =>
      rw [hget] at h
      dsimp only at h
      by_cases hstop : e.Key = WORD_NIL
      · rw [if_pos hstop] at h
        cases h
        exact ⟨e, hget, hstop⟩
      · rw [if_neg hstop] at h
        exact ih _ _ h

theorem nextAvailableAux_isSome (b : xqwBuckets) :
    ∀ fuel i, i < List.length b →
      (∃ t, t < fuel ∧ ∃ e, List.get? b ((i + t) % List.length b) = some e ∧
        e.Key = WORD_NIL) →
      (nextAvailableAux b fuel i).isSome := by
  intro fuel
  induction fuel with
  | zero =>
    intro i hi h
    obtain ⟨t, ht, _⟩ := h
    omega
  | succ f ih =>
    intro i hi h
    obtain ⟨t, ht, e, he, hke⟩ := h
    obtain ⟨ei, hei⟩ : ∃ ei, List.get? b i = some ei := by
      rw [List.get?_eq_get hi]; exact ⟨_, rfl⟩
    rw [nextAvailableAux, hei]
    dsimp only
    by_cases hstop : ei.Key = WORD_NIL
    · rw [if_pos hstop]; rfl
    · rw [if_neg hstop]
      apply ih _ (probeNext_lt hi)
      have ht1 : 1 ≤ t := by
        rcases Nat.eq_zero_or_pos t with h0 | h1
        · subst h0
          rw [Nat.add_zero, Nat.mod_eq_of_lt hi, hei] at he
          cases he
          exact absurd hke hstop
        · exact h1
      refine ⟨t - 1, by omega, e, ?_, hke⟩
      rw [probeNext_offset hi ht1]
      exact he

theorem findAux_sound (b : xqwBuckets) (k : Nat) :
    ∀ fuel i r, findAux b k fuel i = some r →
      (∀ j, r = some j → ∃ e, List.get? b j = some e ∧ e.Key = k) := by
  intro fuel
  induction fuel with
  | zero => intro i r h; simp [findAux] at h
  | succ f ih =>
    intro i r h j hj
    rw [findAux] at h
    cases hget : List.get? b i with
    | none => rw [hget] at h; cases h
    | some e =>
      rw [hget] at h
      dsimp only at h
      by_cases hk : e.Key = k
      · rw [if_pos hk] at h
        cases h
        cases hj
        exact ⟨e, hget, hk⟩
      · rw [if_neg hk] at h
        by_cases hnil : e.Key = WORD_NIL
        · rw [if_pos hnil] at h
          cases h
          cases hj
        · rw [if_neg hnil] at h
          exact ih _ _ h j hj

theorem findAux_isSome (b : xqwBuckets) (k : Nat) :
    ∀ fuel i, i < List.length b →
      (∃ t, t < fuel ∧ ∃ e, List.get? b ((i + t) % List.length b) = some e ∧
        (e.Key = k ∨ e.Key = WORD_NIL)) →
      (findAux b k fuel i).isSome := by
  intro fuel
  induction fuel with
  | zero =>
    intro i hi h
    obtain ⟨t, ht, _⟩ := h
    omega
  | succ f ih =>
    intro i hi h
    obtain ⟨t, ht, e, he, hke⟩ := h
    obtain ⟨ei, hei⟩ : ∃ ei, List.get? b i = some ei := by
      rw [List.get?_eq_get hi]; exact ⟨_, rfl⟩
    rw [findAux, hei]
    dsimp only
    by_cases hk : ei.Key = k
    · rw [if_pos hk]; rfl
    · rw [if_neg hk]
      by_cases hnil : ei.Key = WORD_NIL
      · rw [if_pos hnil]; rfl
      · rw [if_neg hnil]
        apply ih _ (probeNext_lt hi)
        have ht1 : 1 ≤ t := by
          rcases Nat.eq_zero_or_pos t with h0 | h1
          · subst h0
            rw [Nat.add_zero, Nat.mod_eq_of_lt hi, hei] at he
            cases he
            rcases hke with h | h
            · exact absurd h hk
            · exact absurd h hnil
          · exact h1
        refine ⟨t - 1, by omega, e, ?_, hke⟩
        rw [probeNext_offset hi ht1]
        exact he

/-
Construction parameters of the probing table (claim C8).
-/

/-- C8: for every requested capacity and max_load, newXqwMap constructs
a table with capacity at least 2 (4 when the request is 0, i.e.
unspecified), an empty entry count, max_load defaulting to 0.8 outside
(0,1), and growth threshold floor(capacity * max_load) clamped into
[1, capacity-1]. -/
theorem newXqwMap_spec (a : Int) (mu : Rat) :
    2 ≤ (newXqwMap a mu).capacity ∧
    (newXqwMap a mu).capacity = (if a = 0 then 4 else if a < 2 then 2 else a.toNat) ∧
    (newXqwMap a mu).numEntries = 0 ∧
    ((newXqwMap a mu).threshold : Int) =
      min (max (Rat.floor (((newXqwMap a mu).capacity : Rat) *
        (if mu ≤ 0 ∨ 1 ≤ mu then (4 / 5 : Rat) else mu))) 1)
        (((newXqwMap a mu).capacity : Int) - 1) := by
  have hcap : ∀ n : Nat, (xqwMap.mk (xqwInitBuckets n) 0 0).buckets.length = n := by
    intro n
    show (List.replicate n _).length = n
    simp
  simp only [newXqwMap, xqwMap.capacity]
  set I : Int := if a = 0 then 4 else if a < 2 then 2 else a with hI
  have hI2 : 2 ≤ I := by
    rw [hI]
    split
    · omega
    · split <;> omega
  have hlen : (xqwInitBuckets I.toNat).length = I.toNat := by
    show (List.replicate I.toNat _).length = I.toNat
    simp
  refine ⟨by omega, ?_, trivial, ?_⟩
  · rw [hlen, hI]
    split
    · rfl
    · split
      · simp
      · rfl
  · rw [hlen]
    have hcast : ((I.toNat : Nat) : Rat) = (I : Rat) := by
      have h := Int.toNat_of_nonneg (show (0 : Int) ≤ I by omega)
      exact_mod_cast h
    rw [hcast]
    set load : Rat := if mu ≤ 0 ∨ 1 ≤ mu then (4 / 5 : Rat) else mu with hload
    set t0 : Int := Rat.floor ((I : Rat) * load) with ht0
    have h1 : (if t0 < 1 then (1 : Int) else t0) = max t0 1 := by omega
    rw [h1]
    have hne : ((I.toNat : Nat) : Int) = I := Int.toNat_of_nonneg (by omega)
    by_cases h2 : max t0 1 > I - 1
    · rw [if_pos h2, hne]
      have : min (max t0 1) (I - 1) = I - 1 := by omega
      rw [this]
      omega
    · rw [if_neg h2, hne]
      have : min (max t0 1) (I - 1) = max t0 1 := by omega
      rw [this]
      omega

/-
Size accounting and termination of the table operations (claim C7).
-/

theorem Size_nil : xqwBuckets.Size ([] : List xqwEntry) = 0 := rfl

theorem Size_cons (e : xqwEntry) (l : List xqwEntry) :
    xqwBuckets.Size (e :: l) =
      xqwBuckets.Size l + (if e.Key ≠ WORD_NIL then 1 else 0) := by
  unfold xqwBuckets.Size
  rw [List.countP_cons]
  split <;> simp_all

theorem Size_initBuckets (n : Nat) : xqwBuckets.Size (xqwInitBuckets n) = 0 := by
  induction n with
  | zero => rfl
  | succ k ih =>
    unfold xqwInitBuckets at ih ⊢
    rw [List.replicate_succ, Size_cons, ih]
    simp

theorem length_initBuckets (n : Nat) : List.length (xqwInitBuckets n) = n := by
  unfold xqwInitBuckets
  simp

theorem exists_nil_bucket {b : xqwBuckets} (h : b.Size < List.length b) :
    ∃ j e, List.get? b j = some e ∧ e.Key = WORD_NIL := by
  by_contra hno
  push_neg at hno
  have hall : b.Size = List.length b := by
    unfold xqwBuckets.Size
    rw [List.countP_eq_length]
    intro e he
    obtain ⟨j, hj⟩ := List.mem_iff_get?.mp he
    simpa using hno j e hj
  omega

theorem get?_lt_length {α : Type} {l : List α} {j : Nat} {a : α}
    (h : List.get? l j = some a) : j < List.length l := by
  by_contra hge
  rw [List.get?_eq_none.mpr (by omega)] at h
  cases h

theorem FindEntry_isSome {b : xqwBuckets} {k : Nat}
    (h : ∃ j e, List.get? b j = some e ∧ (e.Key = k ∨ e.Key = WORD_NIL)) :
    (b.FindEntry k).isSome := by
  obtain ⟨j, e, hj, hke⟩ := h
  have hjlen : j < List.length b := get?_lt_length hj
  have hstart : xqwBuckets.start b k < List.length b := by
    show WordIdHash k % List.length b < List.length b
    exact Nat.mod_lt _ (by omega)
  obtain ⟨t, ht, hoff⟩ := exists_probe_offset hstart hjlen
  show (findEntryAux b k (List.length b) (b.start k)).isSome
  apply findEntryAux_isSome _ _ _ _ hstart
  exact ⟨t, ht, e, by rw [hoff]; exact hj, hke⟩

theorem nextAvailable_isSome {b : xqwBuckets} {k : Nat}
    (h : ∃ j e, List.get? b j = some e ∧ e.Key = WORD_NIL) :
    (b.nextAvailable k).isSome := by
  obtain ⟨j, e, hj, hke⟩ := h
  have hjlen : j < List.length b := get?_lt_length hj
  have hstart : xqwBuckets.start b k < List.length b := by
    show WordIdHash k % List.length b < List.length b
    exact Nat.mod_lt _ (by omega)
  obtain ⟨t, ht, hoff⟩ := exists_probe_offset hstart hjlen
  show (nextAvailableAux b (List.length b) (b.start k)).isSome
  apply nextAvailableAux_isSome _ _ _ hstart
  exact ⟨t, ht, e, by rw [hoff]; exact hj, hke⟩

theorem Find_isSome {b : xqwBuckets} {k : Nat}
    (h : ∃ j e, List.get? b j = some e ∧ (e.Key = k ∨ e.Key = WORD_NIL)) :
    (b.Find k).isSome := by
  obtain ⟨j, e, hj, hke⟩ := h
  have hjlen : j < List.length b := get?_lt_length hj
  have hstart : xqwBuckets.start b k < List.length b := by
    show WordIdHash k % List.length b < List.length b
    exact Nat.mod_lt _ (by omega)
  obtain ⟨t, ht, hoff⟩ := exists_probe_offset hstart hjlen
  have haux : (findAux b k (List.length b) (b.start k)).isSome := by
    apply findAux_isSome _ _ _ _ hstart
    exact ⟨t, ht, e, by rw [hoff]; exact hj, hke⟩
  unfold xqwBuckets.Find
  obtain ⟨r, hr⟩ := Option.isSome_iff_exists.mp haux
  show (match findAux b k (List.length b) (b.start k) with
    | none => none
    | some none => some none
    | some (some i) => some ((List.get? b i).map xqwEntry.Value)).isSome
  rw [hr]
  cases r <;> rfl

theorem Size_set {b : List xqwEntry} :
    ∀ (j : Nat) (e v : xqwEntry), List.get? b j = some e →
      xqwBuckets.Size (List.set b j v) + (if e.Key ≠ WORD_NIL then 1 else 0)
        = xqwBuckets.Size b + (if v.Key ≠ WORD_NIL then 1 else 0) := by
  induction b with
  | nil => intro j e v h; cases j <;> cases h
  | cons a l ih =>
    intro j e v h
    cases j with
    | zero =>
      cases h
      rw [List.set_cons_zero, Size_cons, Size_cons]
      omega
    | succ j2 =>
      rw [List.set_cons_succ, Size_cons, Size_cons]
      have := ih j2 e v h
      omega

theorem reinsertAll_fold_none (old : List xqwEntry) :
    List.foldl
      (fun acc e =>
        Option.bind acc (fun bs =>
          if e.Key = WORD_NIL then some bs
          else (xqwBuckets.nextAvailable bs e.Key).map
            (fun j => List.set bs j e)))
      none old = none := by
  induction old with
  | nil => rfl
  | cons e rest ih => rw [List.foldl_cons]; exact ih

theorem reinsertAll_cons (e : xqwEntry) (old : List xqwEntry) (init : xqwBuckets) :
    reinsertAll (e :: old) init =
      if e.Key = WORD_NIL then reinsertAll old init
      else
        match init.nextAvailable e.Key with
        | none => none
        | some j => reinsertAll old (List.set init j e) := by
  unfold reinsertAll
  rw [List.foldl_cons]
  by_cases hk : e.Key = WORD_NIL
  · rw [if_pos hk]
    have : (Option.bind (some init) (fun bs =>
        if e.Key = WORD_NIL then some bs
        else (xqwBuckets.nextAvailable bs e.Key).map (fun j => List.set bs j e)))
        = some init := by
      rw [Option.some_bind, if_pos hk]
    rw [this]
  · rw [if_neg hk]
    have hbind : (Option.bind (some init) (fun bs =>
        if e.Key = WORD_NIL then some bs
        else (xqwBuckets.nextAvailable bs e.Key).map (fun j => List.set bs j e)))
        = (xqwBuckets.nextAvailable init e.Key).map (fun j => List.set init j e) := by
      rw [Option.some_bind, if_neg hk]
    rw [hbind]
    cases hna : xqwBuckets.nextAvailable init e.Key with
    | none =>
      rw [Option.map_none']
      exact reinsertAll_fold_none old
    | some j =>
      rw [Option.map_some']

theorem reinsertAll_spec :
    ∀ (old : List xqwEntry) (init : xqwBuckets),
      xqwBuckets.Size init + xqwBuckets.Size old < List.length init →
      ∃ bs, reinsertAll old init = some bs ∧ List.length bs = List.length init ∧
        xqwBuckets.Size bs = xqwBuckets.Size init + xqwBuckets.Size old ∧
        (∀ e2 ∈ (bs : List xqwEntry), e2 ∈ (init : List xqwEntry) ∨ e2 ∈ old) := by
  intro old
  induction old with
  | nil =>
    intro init h
    exact ⟨init, rfl, rfl, by simp [Size_nil], fun e2 he2 => Or.inl he2⟩
  | cons e rest ih =>
    intro init h
    rw [reinsertAll_cons]
    rw [Size_cons] at h
    by_cases hk : e.Key = WORD_NIL
    · rw [if_pos hk]
      have h2 : xqwBuckets.Size init + xqwBuckets.Size rest < List.length init := by
        simp [hk] at h
        omega
      obtain ⟨bs, h1, h2', h3, h4⟩ := ih init h2
      refine ⟨bs, h1, h2', ?_, ?_⟩
      · rw [h3, Size_cons]
        simp [hk]
      · intro e2 he2
        rcases h4 e2 he2 with hm | hm
        · exact Or.inl hm
        · exact Or.inr (List.mem_cons_of_mem _ hm)
    · rw [if_neg hk]
      have hroom : xqwBuckets.Size init < List.length init := by
        simp [hk] at h
        omega
      have hna : (init.nextAvailable e.Key).isSome :=
        nextAvailable_isSome (exists_nil_bucket hroom)
      obtain ⟨j, hj⟩ := Option.isSome_iff_exists.mp hna
      rw [hj]
      obtain ⟨e0, he0, he0nil⟩ := nextAvailableAux_sound init _ _ j hj
      have hsz := Size_set j e0 e he0
      have hszset : xqwBuckets.Size (List.set init j e) = xqwBuckets.Size init + 1 := by
        rw [he0nil] at hsz
        simp [hk] at hsz
        omega
      have h2 : xqwBuckets.Size (List.set init j e) + xqwBuckets.Size rest
          < List.length (List.set init j e) := by
        rw [hszset, List.length_set]
        simp [hk] at h
        omega
      obtain ⟨bs, h1, hlen, h3, h4⟩ := ih _ h2
      refine ⟨bs, h1, by rw [hlen, List.length_set], ?_, ?_⟩
      · rw [h3, hszset, Size_cons]
        simp [hk]
        omega
      · intro e2 he2
        rcases h4 e2 he2 with hm | hm
        · rcases List.mem_or_eq_of_mem_set hm with hmm | hmm
          · exact Or.inl hmm
          · subst hmm
            exact Or.inr (List.mem_cons_self _ _)
        · exact Or.inr (List.mem_cons_of_mem _ hm)

theorem Resize_spec (m : xqwMap) (n : Nat) (hinv : m.Inv) :
    ∃ m2, m.Resize n = some m2 ∧ m2.Inv ∧ m2.numEntries = m.numEntries ∧
      List.length m2.buckets = max n (m.numEntries + 1) ∧
      m2.threshold = max (m.threshold * (max n (m.numEntries + 1)) / List.length m.buckets)
        m.numEntries ∧
      (∀ e2 ∈ (m2.buckets : List xqwEntry), e2.Key ≠ WORD_NIL →
        e2 ∈ (m.buckets : List xqwEntry)) := by
  obtain ⟨hsync, hcnt, hthr⟩ := hinv
  have hnb : (if n < m.numEntries + 1 then m.numEntries + 1 else n)
      = max n (m.numEntries + 1) := by
    split <;> omega
  have hroom : xqwBuckets.Size (xqwInitBuckets (max n (m.numEntries + 1)))
      + xqwBuckets.Size m.buckets
      < List.length (xqwInitBuckets (max n (m.numEntries + 1))) := by
    rw [Size_initBuckets, length_initBuckets, hsync]
    omega
  obtain ⟨bs, h1, hlen, h3, h4⟩ := reinsertAll_spec m.buckets _ hroom
  rw [length_initBuckets] at hlen
  rw [Size_initBuckets] at h3
  have hres : m.Resize n = some ⟨bs, m.numEntries,
      (if m.threshold * (max n (m.numEntries + 1)) / List.length m.buckets
          < m.numEntries
       then m.numEntries
       else m.threshold * (max n (m.numEntries + 1)) / List.length m.buckets)⟩ := by
    unfold xqwMap.Resize
    dsimp only
    rw [hnb, h1]
    rfl
  rw [hres]
  refine ⟨_, rfl, ⟨?_, ?_, ?_⟩, rfl, hlen, ?_, ?_⟩
  · show xqwBuckets.Size bs = m.numEntries
    omega
  · show m.numEntries < List.length bs
    omega
  · show (if m.threshold * (max n (m.numEntries + 1)) / List.length m.buckets
          < m.numEntries
        then m.numEntries
        else m.threshold * (max n (m.numEntries + 1)) / List.length m.buckets)
        < List.length bs
    split
    · omega
    · rw [hlen, Nat.div_lt_iff_lt_mul (by omega)]
      have h6 : m.threshold * (max n (m.numEntries + 1))
          < List.length m.buckets * (max n (m.numEntries + 1)) := by
        apply Nat.mul_lt_mul_of_lt_of_le hthr (le_refl _)
        omega
      have h5 : (max n (m.numEntries + 1)) * List.length m.buckets
          = List.length m.buckets * (max n (m.numEntries + 1)) := Nat.mul_comm _ _
      omega
  · show (if m.threshold * (max n (m.numEntries + 1)) / List.length m.buckets
          < m.numEntries
        then m.numEntries
        else m.threshold * (max n (m.numEntries + 1)) / List.length m.buckets)
        = _
    split <;> omega
  · intro e2 he2 hke2
    rcases h4 e2 he2 with hm | hm
    · exact absurd (List.eq_of_mem_replicate hm ▸ rfl) hke2
    · exact hm

theorem newXqwMap_inv (a : Int) (mu : Rat) : (newXqwMap a mu).Inv := by
  obtain ⟨h2, hcap, hcnt, hthr⟩ := newXqwMap_spec a mu
  refine ⟨?_, ?_, ?_⟩
  · show xqwBuckets.Size (newXqwMap a mu).buckets = _
    have : (newXqwMap a mu).buckets = xqwInitBuckets
        (if a = 0 then 4 else if a < 2 then 2 else a).toNat := by
      unfold newXqwMap
      rfl
    rw [this, Size_initBuckets, hcnt]
  · rw [hcnt]
    have : 0 < (newXqwMap a mu).capacity := by omega
    exact this
  · have hle : ((newXqwMap a mu).threshold : Int) ≤ ((newXqwMap a mu).capacity : Int) - 1 := by
      rw [hthr]
      omega
    have : (newXqwMap a mu).threshold < (newXqwMap a mu).capacity := by omega
    exact this

theorem FindOrInsert_spec (m : xqwMap) (k : Nat) (hinv : m.Inv) (hk : k ≠ WORD_NIL) :
    ∃ m2 i, m.FindOrInsert k = some (m2, i) ∧ m2.Inv ∧
      (∃ v0, List.get? m2.buckets i = some ⟨k, v0⟩) ∧
      (∀ e2 ∈ (m2.buckets : List xqwEntry), e2.Key ≠ WORD_NIL →
        e2 ∈ (m.buckets : List xqwEntry) ∨ e2 = ⟨k, ⟨0, 0⟩⟩) := by
  obtain ⟨hsync, hcnt, hthr⟩ := hinv
  have hfe : (m.buckets.FindEntry k).isSome := by
    apply FindEntry_isSome
    obtain ⟨j, e, hj, hnil⟩ := exists_nil_bucket (by rw [hsync]; exact hcnt)
    exact ⟨j, e, hj, Or.inr hnil⟩
  obtain ⟨i, hi⟩ := Option.isSome_iff_exists.mp hfe
  obtain ⟨e, he, hke⟩ := findEntryAux_sound m.buckets k _ _ i hi
  unfold xqwMap.FindOrInsert
  rw [hi]
  dsimp only
  rw [he]
  dsimp only
  by_cases hlive : e.Key ≠ WORD_NIL
  · rw [if_pos hlive]
    have hek : e.Key = k := by
      rcases hke with h | h
      · exact h
      · exact absurd h hlive
    have hee : e = ⟨k, e.Value⟩ := by
      cases e
      simp_all
    refine ⟨m, i, rfl, ⟨hsync, hcnt, hthr⟩, ⟨e.Value, by rw [he, hee]⟩, ?_⟩
    intro e2 he2 _
    exact Or.inl he2
  · rw [if_neg hlive]
    push_neg at hlive
    by_cases hgrow : m.numEntries ≥ m.threshold
    · rw [if_pos hgrow]
      obtain ⟨m1, hm1, hm1inv, hm1cnt, hm1len, hm1thr, hm1mem⟩ :=
        Resize_spec m (xqwBuckets.length m.buckets * 2) ⟨hsync, hcnt, hthr⟩
      have hlen_eq : xqwBuckets.length m.buckets = List.length m.buckets := rfl
      rw [hlen_eq] at hm1len
      rw [hm1]
      dsimp only
      obtain ⟨hs1, hc1, ht1⟩ := hm1inv
      have hna : (m1.buckets.nextAvailable k).isSome :=
        nextAvailable_isSome (exists_nil_bucket (by rw [hs1]; exact hc1))
      obtain ⟨j, hj⟩ := Option.isSome_iff_exists.mp hna
      rw [hj]
      obtain ⟨e0, he0, he0nil⟩ := nextAvailableAux_sound m1.buckets _ _ j hj
      refine ⟨_, j, rfl, ⟨?_, ?_, ?_⟩, ?_, ?_⟩
      · show xqwBuckets.Size (List.set m1.buckets j ⟨k, ⟨0, 0⟩⟩) = m1.numEntries + 1
        have hsz := Size_set j e0 ⟨k, ⟨0, 0⟩⟩ he0
        rw [he0nil] at hsz
        simp [hk] at hsz
        omega
      · show m1.numEntries + 1 < List.length (List.set m1.buckets j ⟨k, ⟨0, 0⟩⟩)
        rw [List.length_set, hm1len, hm1cnt]
        omega
      · show m1.threshold < List.length (List.set m1.buckets j ⟨k, ⟨0, 0⟩⟩)
        rw [List.length_set]
        exact ht1
      · exact ⟨⟨0, 0⟩, List.get?_set_eq_of_lt _ (get?_lt_length he0)⟩
      · intro e2 he2 hke2
        rcases List.mem_or_eq_of_mem_set he2 with hm | hm
        · exact Or.inl (hm1mem e2 hm hke2)
        · exact Or.inr hm
    · rw [if_neg hgrow]
      refine ⟨_, i, rfl, ⟨?_, ?_, ?_⟩, ?_, ?_⟩
      · show xqwBuckets.Size (List.set m.buckets i ⟨k, ⟨0, 0⟩⟩) = m.numEntries + 1
        have hsz := Size_set i e ⟨k, ⟨0, 0⟩⟩ he
        rw [hlive] at hsz
        simp [hk] at hsz
        omega
      · show m.numEntries + 1 < List.length (List.set m.buckets i ⟨k, ⟨0, 0⟩⟩)
        rw [List.length_set]
        omega
      · show m.threshold < List.length (List.set m.buckets i ⟨k, ⟨0, 0⟩⟩)
        rw [List.length_set]
        exact hthr
      · exact ⟨⟨0, 0⟩, List.get?_set_eq_of_lt _ (get?_lt_length he)⟩
      · intro e2 he2 hke2
        rcases List.mem_or_eq_of_mem_set he2 with hm | hm
        · exact Or.inl hm
        · exact Or.inr hm

/-- C7: the open-addressing table invariant (entry count in sync and
count < capacity, i.e. at least one empty slot, with the threshold below
capacity) holds after construction, is preserved by every FindOrInsert
of a valid key and by every Resize, and under the invariant all three
probe loops (Find, FindEntry, nextAvailable) terminate. -/
theorem probing_inv_preserved :
    (∀ (a : Int) (mu : Rat), (newXqwMap a mu).Inv) ∧
    (∀ (m : xqwMap) (k : Nat), m.Inv → k ≠ WORD_NIL →
      ∃ m2 i, m.FindOrInsert k = some (m2, i) ∧ m2.Inv) ∧
    (∀ (m : xqwMap) (n : Nat), m.Inv → ∃ m2, m.Resize n = some m2 ∧ m2.Inv) ∧
    (∀ (m : xqwMap) (k : Nat), m.Inv →
      (m.buckets.Find k).isSome ∧ (m.buckets.FindEntry k).isSome ∧
      (m.buckets.nextAvailable k).isSome) := by
  refine ⟨newXqwMap_inv, ?_, ?_, ?_⟩
  · intro m k h1 h2
    obtain ⟨m2, i, ha, hb, _, _⟩ := FindOrInsert_spec m k h1 h2
    exact ⟨m2, i, ha, hb⟩
  · intro m n hinv
    obtain ⟨m2, h1, h2, _, _⟩ := Resize_spec m n hinv
    exact ⟨m2, h1, h2⟩
  · intro m k hinv
    obtain ⟨hsync, hcnt, hthr⟩ := hinv
    have hnil := exists_nil_bucket (b := m.buckets) (by omega)
    obtain ⟨j, e, hj, hke⟩ := hnil
    exact ⟨Find_isSome ⟨j, e, hj, Or.inr hke⟩,
      FindEntry_isSome ⟨j, e, hj, Or.inr hke⟩,
      nextAvailable_isSome ⟨j, e, hj, hke⟩⟩

/-- Witness for C7 at a concrete table and key. -/
theorem probing_inv_preserved_witness :
    ∃ m2 i, (newXqwMap 4 (4 / 5)).FindOrInsert 7 = some (m2, i) ∧ m2.Inv :=
  probing_inv_preserved.2.1 (newXqwMap 4 (4 / 5)) 7 (by with_unfolding_all decide)
    (by decide)

/-
Binary search correctness on sorted rows (for claims C1/C10, sorted
model).
-/

theorem pairwise_get_lt {row : List WordStateWeight}
    (hp : List.Pairwise (fun a b => a.Word < b.Word) row)
    {i j : Nat} {ei ej : WordStateWeight} (hij : i < j)
    (hi : List.get? row i = some ei) (hj : List.get? row j = some ej) :
    ei.Word < ej.Word := by
  have hi2 := List.get?_eq_some.mp hi
  have hj2 := List.get?_eq_some.mp hj
  obtain ⟨hilen, hig⟩ := hi2
  obtain ⟨hjlen, hjg⟩ := hj2
  have := (List.pairwise_iff_get.mp hp) ⟨i, hilen⟩ ⟨j, hjlen⟩ hij
  rw [hig, hjg] at this
  exact this

theorem findNextAux_none_spec (row : List WordStateWeight) (x : Nat)
    (hp : List.Pairwise (fun a b => a.Word < b.Word) row) :
    ∀ (n l h : Nat), h - l ≤ n → h ≤ List.length row → findNextAux row x l h = none →
      ∀ i e, l ≤ i → i < h → List.get? row i = some e → e.Word ≠ x := by
  intro n
  induction n with
  | zero =>
    intro l h hn hh hnone i e hli hih hi
    omega
  | succ n2 ih =>
    intro l h hn hh hnone i e hli hih hi
    by_cases hlt : l < h
    · rw [findNextAux, dif_pos hlt] at hnone
      have hmlt : l + (h - l) / 2 < h := by omega
      obtain ⟨em, hmid⟩ : ∃ em, List.get? row (l + (h - l) / 2) = some em := by
        rw [List.get?_eq_get (by omega)]
        exact ⟨_, rfl⟩
      rw [hmid] at hnone
      dsimp only at hnone
      by_cases hl : em.Word < x
      · rw [if_pos hl] at hnone
        by_cases hcase : l + (h - l) / 2 + 1 ≤ i
        · exact ih (l + (h - l) / 2 + 1) h (by omega) hh hnone i e hcase hih hi
        · by_cases heq : i = l + (h - l) / 2
          · subst heq
            rw [hi] at hmid
            cases hmid
            omega
          · have hlt2 : e.Word < em.Word :=
              pairwise_get_lt hp (by omega) hi hmid
            omega
      · rw [if_neg hl] at hnone
        by_cases hg : x < em.Word
        · rw [if_pos hg] at hnone
          by_cases hcase : i < l + (h - l) / 2
          · exact ih l (l + (h - l) / 2) (by omega) (by omega) hnone i e hli hcase hi
          · by_cases heq : i = l + (h - l) / 2
            · subst heq
              rw [hi] at hmid
              cases hmid
              omega
            · have hlt2 : em.Word < e.Word :=
              pairwise_get_lt hp (by omega) hmid hi
              omega
        · rw [if_neg hg] at hnone
          cases hnone
    · omega

theorem findNextAux_some_spec (row : List WordStateWeight) (x : Nat) :
    ∀ (n l h : Nat), h - l ≤ n → h ≤ List.length row →
      ∀ j, findNextAux row x l h = some j →
        ∃ e, List.get? row j = some e ∧ e.Word = x := by
  intro n
  induction n with
  | zero =>
    intro l h hn hh j hj
    rw [findNextAux] at hj
    rw [dif_neg (by omega)] at hj
    cases hj
  | succ n2 ih =>
    intro l h hn hh j hj
    by_cases hlt : l < h
    · rw [findNextAux, dif_pos hlt] at hj
      have hmlt : l + (h - l) / 2 < h := by omega
      obtain ⟨em, hmid⟩ : ∃ em, List.get? row (l + (h - l) / 2) = some em := by
        rw [List.get?_eq_get (by omega)]
        exact ⟨_, rfl⟩
      rw [hmid] at hj
      dsimp only at hj
      by_cases hl : em.Word < x
      · rw [if_pos hl] at hj
        exact ih (l + (h - l) / 2 + 1) h (by omega) hh j hj
      · rw [if_neg hl] at hj
        by_cases hg : x < em.Word
        · rw [if_pos hg] at hj
          exact ih l (l + (h - l) / 2) (by omega) (by omega) j hj
        · rw [if_neg hg] at hj
          cases hj
          exact ⟨em, hmid, by omega⟩
    · rw [findNextAux, dif_neg hlt] at hj
      cases hj

/-
Unpacking of the sorted well-formedness predicate and the per-step
behavior of the sorted query loop.
-/

theorem sortedRowOk_unpack {row : List WordStateWeight} (h : sortedRowOk row = true) :
    row ≠ [] ∧
    (∃ elast, List.getLast? row = some elast ∧ elast.Word = WORD_NIL) ∧
    List.Pairwise (fun a b => a.Word < b.Word) row ∧
    (∀ e ∈ List.dropLast row, e.Word < WORD_NIL) := by
  unfold sortedRowOk at h
  simp only [Bool.and_eq_true] at h
  obtain ⟨⟨⟨h1, h2⟩, h3⟩, h4⟩ := h
  refine ⟨?_, ?_, ?_, ?_⟩
  · intro hnil
    rw [hnil] at h1
    simp at h1
  · cases hlast : List.getLast? row with
    | none => rw [hlast] at h2; cases h2
    | some e =>
      rw [hlast] at h2
      exact ⟨e, rfl, by simpa using h2⟩
  · exact of_decide_eq_true h3
  · intro e he
    have := List.all_eq_true.mp h4 e he
    simpa using this

theorem sorted_wf_rows {m : Sorted} (h : m.wf = true) :
    ∀ p row, List.get? m.transitions p = some row → sortedRowOk row = true := by
  intro p row hrow
  unfold Sorted.wf at h
  simp only [Bool.and_eq_true] at h
  exact List.all_eq_true.mp h.1 row (List.get?_mem hrow)

theorem sorted_wf_reach {m : Sorted} (h : m.wf = true) :
    ∀ p, p < m.transitions.length → m.reachEmpty m.transitions.length p = true := by
  intro p hp
  unfold Sorted.wf at h
  simp only [Bool.and_eq_true] at h
  exact List.all_eq_true.mp h.2 p (List.mem_range.mpr hp)

theorem reachEmpty_below {m : Sorted} {fuel p : Nat}
    (h : m.reachEmpty fuel p = true) (hlen0 : 0 < m.transitions.length) :
    p < m.transitions.length := by
  cases fuel with
  | zero =>
    unfold Sorted.reachEmpty at h
    have : p = STATE_EMPTY := by simpa using h
    rw [this]
    exact hlen0
  | succ f =>
    unfold Sorted.reachEmpty at h
    simp only [Bool.or_eq_true] at h
    rcases h with h | h
    · have : p = STATE_EMPTY := by simpa using h
      rw [this]
      exact hlen0
    · cases hrow : List.get? m.transitions p with
      | none => rw [hrow] at h; cases h
      | some row => exact get?_lt_length hrow

theorem findNext_hit {m : Sorted} {p x : Nat} {row : List WordStateWeight}
    {e0 : WordStateWeight}
    (hrow : List.get? m.transitions p = some row) (hok : sortedRowOk row = true)
    (hfound : List.find? (fun e => decide (e.Word = x)) row = some e0) :
    m.findNext p x = some e0 ∧ e0.Word = x := by
  obtain ⟨hne, ⟨elast, hlast, hlastnil⟩, hp, hdrop⟩ := sortedRowOk_unpack hok
  have he0mem : e0 ∈ row := List.mem_of_find?_eq_some hfound
  have he0x : e0.Word = x := by
    have := List.find?_some hfound
    simpa using this
  obtain ⟨i, hi⟩ := List.mem_iff_get?.mp he0mem
  unfold Sorted.findNext
  rw [hrow]
  dsimp only
  cases haux : findNextAux row x 0 (List.length row) with
  | none =>
    exact absurd he0x
      (findNextAux_none_spec row x hp (List.length row) 0 (List.length row)
        (by omega) (le_refl _) haux i e0 (by omega) (get?_lt_length hi) hi)
  | some j =>
    obtain ⟨ej, hj, hjx⟩ := findNextAux_some_spec row x (List.length row) 0
      (List.length row) (by omega) (le_refl _) j haux
    have hij : i = j := by
      by_contra hne2
      rcases Nat.lt_or_ge i j with hlt | hge
      · have := pairwise_get_lt hp hlt hi hj
        omega
      · have hgt : j < i := by omega
        have := pairwise_get_lt hp hgt hj hi
        omega
    subst hij
    rw [hi] at hj
    cases hj
    exact ⟨hi, he0x⟩

theorem findNext_miss {m : Sorted} {p x : Nat} {row : List WordStateWeight}
    (hrow : List.get? m.transitions p = some row) (hok : sortedRowOk row = true)
    (hmiss : x = WORD_NIL ∨ List.find? (fun e => decide (e.Word = x)) row = none) :
    ∃ elast, m.findNext p x = some elast ∧ List.getLast? row = some elast ∧
      elast.Word = WORD_NIL := by
  obtain ⟨hne, ⟨elast, hlast, hlastnil⟩, hp, hdrop⟩ := sortedRowOk_unpack hok
  have hlast2 : List.get? row (List.length row - 1) = some elast := by
    rw [← List.getLast?_eq_get?]
    exact hlast
  have hlen1 : 0 < List.length row := by
    cases row with
    | nil => exact absurd rfl hne
    | cons a l => simp
  unfold Sorted.findNext
  rw [hrow]
  dsimp only
  cases haux : findNextAux row x 0 (List.length row) with
  | none => exact ⟨elast, hlast2, hlast, hlastnil⟩
  | some j =>
    obtain ⟨ej, hj, hjx⟩ := findNextAux_some_spec row x (List.length row) 0
      (List.length row) (by omega) (le_refl _) j haux
    rcases hmiss with hxnil | hnone
    · subst hxnil
      have hjlast : j = List.length row - 1 := by
        by_contra hne2
        have hjlt : j < List.length row - 1 := by
          have := get?_lt_length hj
          omega
        have := pairwise_get_lt hp hjlt hj hlast2
        rw [hlastnil] at this
        omega
      subst hjlast
      rw [hlast2] at hj
      cases hj
      exact ⟨elast, hlast2, hlast, hjx⟩
    · have := List.find?_eq_none.mp hnone ej (List.get?_mem hj)
      simp [hjx] at this

theorem specLookup_eq {m : Sorted} {p x : Nat} {row : List WordStateWeight}
    (hrow : List.get? m.transitions p = some row) :
    m.specLookup p x =
      if x = WORD_NIL then none
      else (List.find? (fun e => decide (e.Word = x)) row).map
        (fun e => (e.State, e.Weight)) := by
  unfold Sorted.specLookup
  rw [List.getD_eq_get?, hrow]
  rfl

theorem specBackOff_eq {m : Sorted} {p : Nat} {row : List WordStateWeight}
    {elast : WordStateWeight}
    (hrow : List.get? m.transitions p = some row)
    (hlast : List.getLast? row = some elast) :
    m.specBackOff p = (elast.State, elast.Weight) := by
  unfold Sorted.specBackOff
  rw [List.getD_eq_get?, hrow, Option.getD_some, hlast]

/-
Per-step unfoldings of the query loop and of its specification walk.
-/

theorem NextIAux_hit {m : Sorted} {x fuel p : Nat} {w : Weight} {e : WordStateWeight}
    (hfn : m.findNext p x = some e) (he : e.Word ≠ WORD_NIL) :
    Sorted.NextIAux m x (fuel + 1) p w = some (e.State, w + e.Weight) := by
  rw [Sorted.NextIAux, hfn]
  dsimp only
  rw [if_neg (fun hc => he hc.1), if_pos he]

theorem NextIAux_oov {m : Sorted} {x fuel p : Nat} {w : Weight} {e : WordStateWeight}
    (hfn : m.findNext p x = some e) (he : e.Word = WORD_NIL) (hpE : p = STATE_EMPTY) :
    Sorted.NextIAux m x (fuel + 1) p w = some (STATE_EMPTY, WEIGHT_LOG0) := by
  rw [Sorted.NextIAux, hfn]
  dsimp only
  rw [if_neg (fun hc => hc.2 hpE), if_neg (fun hc => hc he)]

theorem NextIAux_step {m : Sorted} {x fuel p : Nat} {w : Weight} {e : WordStateWeight}
    (hfn : m.findNext p x = some e) (he : e.Word = WORD_NIL) (hpne : p ≠ STATE_EMPTY) :
    Sorted.NextIAux m x (fuel + 1) p w =
      Sorted.NextIAux m x fuel e.State (w + e.Weight) := by
  rw [Sorted.NextIAux, hfn]
  dsimp only
  rw [if_pos ⟨he, hpne⟩]

theorem specWalk_hit {lookup : Nat → Option (Nat × Weight)} {bo : Nat → Nat × Weight}
    {fuel p : Nat} {w : Weight} {qw : Nat × Weight} (h : lookup p = some qw) :
    specWalk lookup bo (fuel + 1) p w = some (qw.1, w + qw.2) := by
  obtain ⟨q, w2⟩ := qw
  rw [specWalk, h]

theorem specWalk_oov {lookup : Nat → Option (Nat × Weight)} {bo : Nat → Nat × Weight}
    {fuel p : Nat} {w : Weight} (h : lookup p = none) (hpE : p = STATE_EMPTY) :
    specWalk lookup bo (fuel + 1) p w = some (STATE_EMPTY, WEIGHT_LOG0) := by
  rw [specWalk, h]
  dsimp only
  rw [if_pos hpE]

theorem specWalk_step {lookup : Nat → Option (Nat × Weight)} {bo : Nat → Nat × Weight}
    {fuel p : Nat} {w : Weight} (h : lookup p = none) (hpne : p ≠ STATE_EMPTY) :
    specWalk lookup bo (fuel + 1) p w = specWalk lookup bo fuel (bo p).1 (w + (bo p).2) := by
  rw [specWalk, h]
  dsimp only
  rw [if_neg hpne]

theorem reachEmpty_zero {m : Sorted} {p : Nat} (h : m.reachEmpty 0 p = true) :
    p = STATE_EMPTY := by
  unfold Sorted.reachEmpty at h
  simpa using h

theorem reachEmpty_step {m : Sorted} {fuel p : Nat}
    (h : m.reachEmpty (fuel + 1) p = true) (hpne : p ≠ STATE_EMPTY) :
    ∃ row e, List.get? m.transitions p = some row ∧ List.getLast? row = some e ∧
      m.reachEmpty fuel e.State = true := by
  unfold Sorted.reachEmpty at h
  simp only [Bool.or_eq_true] at h
  rcases h with h | h
  · exact absurd (by simpa using h) hpne
  · cases hrow : List.get? m.transitions p with
    | none =>
      rw [hrow] at h
      dsimp only at h
      exact Bool.noConfusion h
    | some row =>
      rw [hrow] at h
      dsimp only at h
      cases hlast : List.getLast? row with
      | none =>
        rw [hlast] at h
        dsimp only at h
        exact Bool.noConfusion h
      | some e =>
        rw [hlast] at h
        dsimp only at h
        exact ⟨row, e, rfl, hlast, h⟩

/-- One terminal step of the walk at a state p (p's lookup either hits
or, when p is STATE_EMPTY, yields the OOV result): the query loop and
the spec walk agree. -/
theorem sorted_step_empty (m : Sorted) (x : Nat) (hwf : m.wf = true)
    (hlen0 : 0 < m.transitions.length) (fuel : Nat) (w : Weight) :
    Sorted.NextIAux m x (fuel + 1) STATE_EMPTY w =
      specWalk (fun s => m.specLookup s x) m.specBackOff (fuel + 1) STATE_EMPTY w := by
  obtain ⟨row, hrow⟩ : ∃ row, List.get? m.transitions STATE_EMPTY = some row := by
    show ∃ row, List.get? m.transitions 0 = some row
    rw [List.get?_eq_get hlen0]
    exact ⟨_, rfl⟩
  have hok := sorted_wf_rows hwf _ _ hrow
  by_cases hx : x = WORD_NIL
  · obtain ⟨elast, hfn, hlast, hnil⟩ := findNext_miss hrow hok (Or.inl hx)
    rw [NextIAux_oov hfn hnil rfl, specWalk_oov ?_ rfl]
    rw [specLookup_eq hrow, if_pos hx]
  · cases hfind : List.find? (fun e => decide (e.Word = x)) row with
    | some e0 =>
      obtain ⟨hfn, he0x⟩ := findNext_hit hrow hok hfind
      rw [NextIAux_hit hfn (by rw [he0x]; exact hx),
        @specWalk_hit _ _ _ _ _ (e0.State, e0.Weight) ?_]
      rw [specLookup_eq hrow, if_neg hx, hfind]
      rfl
    | none =>
      obtain ⟨elast, hfn, hlast, hnil⟩ := findNext_miss hrow hok (Or.inr hfind)
      rw [NextIAux_oov hfn hnil rfl, specWalk_oov ?_ rfl]
      rw [specLookup_eq hrow, if_neg hx, hfind]
      rfl

/-- The sorted query loop computes exactly the specification walk, for
every state whose back-off chain reaches STATE_EMPTY within the fuel. -/
theorem sorted_NextIAux_eq_spec (m : Sorted) (x : Nat) (hwf : m.wf = true)
    (hlen0 : 0 < m.transitions.length) :
    ∀ fuel p w, m.reachEmpty fuel p = true →
      Sorted.NextIAux m x (fuel + 1) p w =
        specWalk (fun s => m.specLookup s x) m.specBackOff (fuel + 1) p w := by
  intro fuel
  induction fuel with
  | zero =>
    intro p w hreach
    rw [reachEmpty_zero hreach]
    exact sorted_step_empty m x hwf hlen0 0 w
  | succ f ih =>
    intro p w hreach
    by_cases hpE : p = STATE_EMPTY
    · rw [hpE]
      exact sorted_step_empty m x hwf hlen0 (f + 1) w
    · obtain ⟨row, e, hrow, hlast, hreach2⟩ := reachEmpty_step hreach hpE
      have hok := sorted_wf_rows hwf _ _ hrow
      by_cases hx : x = WORD_NIL
      · obtain ⟨elast, hfn, hlast2, hnil⟩ := findNext_miss hrow hok (Or.inl hx)
        have hee : elast = e := by
          rw [hlast] at hlast2
          cases hlast2
          rfl
        subst hee
        rw [NextIAux_step hfn hnil hpE, specWalk_step ?_ hpE,
          specBackOff_eq hrow hlast]
        · exact ih _ _ hreach2
        · rw [specLookup_eq hrow, if_pos hx]
      · cases hfind : List.find? (fun e2 => decide (e2.Word = x)) row with
        | some e0 =>
          obtain ⟨hfn, he0x⟩ := findNext_hit hrow hok hfind
          rw [NextIAux_hit hfn (by rw [he0x]; exact hx),
            @specWalk_hit _ _ _ _ _ (e0.State, e0.Weight) ?_]
          rw [specLookup_eq hrow, if_neg hx, hfind]
          rfl
        | none =>
          obtain ⟨elast, hfn, hlast2, hnil⟩ := findNext_miss hrow hok (Or.inr hfind)
          have hee : elast = e := by
            rw [hlast] at hlast2
            cases hlast2
            rfl
          subst hee
          rw [NextIAux_step hfn hnil hpE, specWalk_step ?_ hpE,
            specBackOff_eq hrow hlast]
          · exact ih _ _ hreach2
          · rw [specLookup_eq hrow, if_neg hx, hfind]
            rfl

/-- The sorted spec walk on the invalid word: every lookup misses, so
the walk descends the back-off chain and reports the OOV result. -/
theorem sorted_specWalk_nil (m : Sorted) (hwf : m.wf = true)
    (hlen0 : 0 < m.transitions.length) :
    ∀ fuel p w, m.reachEmpty fuel p = true →
      specWalk (fun s => m.specLookup s WORD_NIL) m.specBackOff (fuel + 1) p w =
        some (STATE_EMPTY, WEIGHT_LOG0) := by
  intro fuel
  induction fuel with
  | zero =>
    intro p w hreach
    rw [reachEmpty_zero hreach]
    apply specWalk_oov ?_ rfl
    unfold Sorted.specLookup
    rw [if_pos rfl]
  | succ f ih =>
    intro p w hreach
    by_cases hpE : p = STATE_EMPTY
    · apply specWalk_oov ?_ hpE
      unfold Sorted.specLookup
      rw [if_pos rfl]
    · obtain ⟨row, e, hrow, hlast, hreach2⟩ := reachEmpty_step hreach hpE
      rw [specWalk_step ?_ hpE, specBackOff_eq hrow hlast]
      · exact ih _ _ hreach2
      · unfold Sorted.specLookup
        rw [if_pos rfl]

/-
The hashed model: lookup characterization and the walk equivalence.
-/

theorem hashedRowOk_unpack {b : xqwBuckets} (h : hashedRowOk b = true) :
    (∃ e0, List.find? (fun e => e.Key == WORD_NIL) b = some e0 ∧ e0.Key = WORD_NIL ∧
      ∀ e ∈ (b : List xqwEntry), e.Key = WORD_NIL → e.Value = e0.Value) ∧
    List.Pairwise (fun a b2 => a.Key ≠ WORD_NIL → b2.Key ≠ WORD_NIL → a.Key ≠ b2.Key) b ∧
    (∀ j e, List.get? b j = some e → e.Key ≠ WORD_NIL →
      ∃ j2 e2, b.FindEntry e.Key = some j2 ∧ List.get? b j2 = some e2 ∧
        e2.Key = e.Key) := by
  unfold hashedRowOk at h
  simp only [Bool.and_eq_true] at h
  obtain ⟨⟨⟨⟨h1, h2⟩, h3⟩, h4⟩, h5⟩ := h
  refine ⟨?_, of_decide_eq_true h4, ?_⟩
  · cases hfind : List.find? (fun e => e.Key == WORD_NIL) b with
    | none => rw [hfind] at h2; cases h2
    | some e0 =>
      rw [hfind] at h2
      refine ⟨e0, rfl, ?_, ?_⟩
      · have := List.find?_some hfind
        simpa using this
      · intro e he hke
        have := List.all_eq_true.mp h2 e he
        simp only [Bool.or_eq_true] at this
        rcases this with hy | hy
        · simp [hke] at hy
        · simpa using hy
  · intro j e hj hke
    have hjmem : j ∈ List.range (List.length b) :=
      List.mem_range.mpr (get?_lt_length hj)
    have := List.all_eq_true.mp h5 j hjmem
    rw [hj] at this
    dsimp only at this
    simp only [Bool.or_eq_true] at this
    rcases this with hy | hy
    · exact absurd (by simpa using hy) hke
    · cases hfe : xqwBuckets.FindEntry b e.Key with
      | none =>
        rw [hfe] at hy
        dsimp only at hy
        exact Bool.noConfusion hy
      | some j2 =>
        rw [hfe] at hy
        dsimp only at hy
        cases hj2 : List.get? b j2 with
        | none =>
          rw [hj2] at hy
          dsimp only at hy
          exact Bool.noConfusion hy
        | some e2 =>
          rw [hj2] at hy
          dsimp only at hy
          exact ⟨j2, e2, rfl, hj2, by simpa using hy⟩

theorem pairwise_get_distinct {b : xqwBuckets}
    (hp : List.Pairwise (fun a b2 => a.Key ≠ WORD_NIL → b2.Key ≠ WORD_NIL → a.Key ≠ b2.Key) b)
    {i j : Nat} {ei ej : xqwEntry} (hi : List.get? b i = some ei)
    (hj : List.get? b j = some ej) (hik : ei.Key ≠ WORD_NIL)
    (hjk : ej.Key ≠ WORD_NIL) (hkeys : ei.Key = ej.Key) : i = j := by
  by_contra hne
  rcases Nat.lt_or_ge i j with hlt | hge
  · obtain ⟨hilen, hig⟩ := List.get?_eq_some.mp hi
    obtain ⟨hjlen, hjg⟩ := List.get?_eq_some.mp hj
    have := (List.pairwise_iff_get.mp hp) ⟨i, hilen⟩ ⟨j, hjlen⟩ hlt
    rw [hig, hjg] at this
    exact this hik hjk hkeys
  · have hlt : j < i := by omega
    obtain ⟨hilen, hig⟩ := List.get?_eq_some.mp hi
    obtain ⟨hjlen, hjg⟩ := List.get?_eq_some.mp hj
    have := (List.pairwise_iff_get.mp hp) ⟨j, hjlen⟩ ⟨i, hilen⟩ hlt
    rw [hig, hjg] at this
    exact this hjk hik hkeys.symm

theorem hashed_lookup_hit {b : xqwBuckets} {x : Nat} {e0 : xqwEntry}
    (hok : hashedRowOk b = true) (hx : x ≠ WORD_NIL)
    (hfound : List.find? (fun e => decide (e.Key = x)) b = some e0) :
    ∃ j, b.FindEntry x = some j ∧ List.get? b j = some e0 := by
  obtain ⟨_, hpair, hprobe⟩ := hashedRowOk_unpack hok
  have he0mem : e0 ∈ b := List.mem_of_find?_eq_some hfound
  have he0x : e0.Key = x := by
    have := List.find?_some hfound
    simpa using this
  obtain ⟨i, hi⟩ := List.mem_iff_get?.mp he0mem
  obtain ⟨j2, e2, hfe, hj2, he2⟩ := hprobe i e0 hi (by rw [he0x]; exact hx)
  rw [he0x] at hfe he2
  have hij : i = j2 := pairwise_get_distinct hpair hi hj2
    (by rw [he0x]; exact hx) (by rw [he2]; exact hx) (by rw [he0x, he2])
  subst hij
  rw [hi] at hj2
  cases hj2
  exact ⟨i, hfe, hi⟩

theorem hashed_lookup_miss {b : xqwBuckets} {x : Nat} {e0 : xqwEntry}
    (hok : hashedRowOk b = true)
    (hnilval : List.find? (fun e => e.Key == WORD_NIL) b = some e0)
    (hmiss : x = WORD_NIL ∨ List.find? (fun e => decide (e.Key = x)) b = none) :
    ∃ j e, b.FindEntry x = some j ∧ List.get? b j = some e ∧ e.Key = WORD_NIL ∧
      e.Value = e0.Value := by
  obtain ⟨⟨e0b, he0b, he0bk, huniform⟩, hpair, hprobe⟩ := hashedRowOk_unpack hok
  rw [hnilval] at he0b
  cases he0b
  have he0mem : e0 ∈ b := List.mem_of_find?_eq_some hnilval
  obtain ⟨i0, hi0⟩ := List.mem_iff_get?.mp he0mem
  have hfe : (b.FindEntry x).isSome :=
    FindEntry_isSome ⟨i0, e0, hi0, Or.inr he0bk⟩
  obtain ⟨j, hj⟩ := Option.isSome_iff_exists.mp hfe
  obtain ⟨e, he, hke⟩ := findEntryAux_sound b x _ _ j hj
  have henil : e.Key = WORD_NIL := by
    rcases hke with hk | hk
    · rcases hmiss with hxnil | hnone
      · rw [hk, hxnil]
      · exact absurd (List.find?_eq_none.mp hnone e (List.get?_mem he))
          (by simp [hk])
    · exact hk
  exact ⟨j, e, hj, he, henil, huniform e (List.get?_mem he) henil⟩

theorem hashed_wf_rows {m : Hashed} (h : m.wf = true) :
    ∀ p bks, List.get? m.transitions p = some bks → hashedRowOk bks = true := by
  intro p bks hrow
  unfold Hashed.wf at h
  simp only [Bool.and_eq_true] at h
  exact List.all_eq_true.mp h.1 bks (List.get?_mem hrow)

theorem hashed_wf_reach {m : Hashed} (h : m.wf = true) :
    ∀ p, p < m.transitions.length → m.reachEmpty m.transitions.length p = true := by
  intro p hp
  unfold Hashed.wf at h
  simp only [Bool.and_eq_true] at h
  exact List.all_eq_true.mp h.2 p (List.mem_range.mpr hp)

theorem hashed_reachEmpty_zero {m : Hashed} {p : Nat}
    (h : m.reachEmpty 0 p = true) : p = STATE_EMPTY := by
  unfold Hashed.reachEmpty at h
  simpa using h

theorem hashed_reachEmpty_step {m : Hashed} {fuel p : Nat}
    (h : m.reachEmpty (fuel + 1) p = true) (hpne : p ≠ STATE_EMPTY) :
    ∃ bks e, List.get? m.transitions p = some bks ∧
      List.find? (fun e2 => e2.Key == WORD_NIL) bks = some e ∧
      m.reachEmpty fuel e.Value.State = true := by
  unfold Hashed.reachEmpty at h
  simp only [Bool.or_eq_true] at h
  rcases h with h | h
  · exact absurd (by simpa using h) hpne
  · cases hrow : List.get? m.transitions p with
    | none =>
      rw [hrow] at h
      dsimp only at h
      exact Bool.noConfusion h
    | some bks =>
      rw [hrow] at h
      dsimp only at h
      cases hfind : List.find? (fun e2 => e2.Key == WORD_NIL) bks with
      | none =>
        rw [hfind] at h
        dsimp only at h
        exact Bool.noConfusion h
      | some e =>
        rw [hfind] at h
        dsimp only at h
        exact ⟨bks, e, rfl, hfind, h⟩

theorem hashed_specLookup_eq {m : Hashed} {p x : Nat} {bks : xqwBuckets}
    (hrow : List.get? m.transitions p = some bks) :
    m.specLookup p x =
      if x = WORD_NIL then none
      else (List.find? (fun e => decide (e.Key = x)) bks).map
        (fun e => (e.Value.State, e.Value.Weight)) := by
  unfold Hashed.specLookup
  rw [List.getD_eq_get?, hrow]
  rfl

theorem hashed_specBackOff_eq {m : Hashed} {p : Nat} {bks : xqwBuckets}
    {e0 : xqwEntry} (hrow : List.get? m.transitions p = some bks)
    (hfind : List.find? (fun e => e.Key == WORD_NIL) bks = some e0) :
    m.specBackOff p = (e0.Value.State, e0.Value.Weight) := by
  unfold Hashed.specBackOff
  rw [List.getD_eq_get?, hrow, Option.getD_some, hfind]

theorem hashed_NextIAux_hit {m : Hashed} {x fuel p j : Nat} {w : Weight}
    {bks : xqwBuckets} {next : xqwEntry}
    (hrow : List.get? m.transitions p = some bks)
    (hj : bks.FindEntry x = some j) (hnext : List.get? bks j = some next)
    (hke : next.Key ≠ WORD_NIL) :
    Hashed.NextIAux m x (fuel + 1) p w =
      some (next.Value.State, w + next.Value.Weight) := by
  rw [Hashed.NextIAux, hrow]
  dsimp only
  rw [hj]
  dsimp only
  rw [hnext]
  dsimp only
  rw [if_neg (fun hc => hke hc.1), if_pos hke]

theorem hashed_NextIAux_oov {m : Hashed} {x fuel p j : Nat} {w : Weight}
    {bks : xqwBuckets} {next : xqwEntry}
    (hrow : List.get? m.transitions p = some bks)
    (hj : bks.FindEntry x = some j) (hnext : List.get? bks j = some next)
    (hke : next.Key = WORD_NIL) (hpE : p = STATE_EMPTY) :
    Hashed.NextIAux m x (fuel + 1) p w = some (STATE_EMPTY, WEIGHT_LOG0) := by
  rw [Hashed.NextIAux, hrow]
  dsimp only
  rw [hj]
  dsimp only
  rw [hnext]
  dsimp only
  rw [if_neg (fun hc => hc.2 hpE), if_neg (fun hc => hc hke)]

theorem hashed_NextIAux_step {m : Hashed} {x fuel p j : Nat} {w : Weight}
    {bks : xqwBuckets} {next : xqwEntry}
    (hrow : List.get? m.transitions p = some bks)
    (hj : bks.FindEntry x = some j) (hnext : List.get? bks j = some next)
    (hke : next.Key = WORD_NIL) (hpne : p ≠ STATE_EMPTY) :
    Hashed.NextIAux m x (fuel + 1) p w =
      Hashed.NextIAux m x fuel next.Value.State (w + next.Value.Weight) := by
  rw [Hashed.NextIAux, hrow]
  dsimp only
  rw [hj]
  dsimp only
  rw [hnext]
  dsimp only
  rw [if_pos ⟨hke, hpne⟩]

/-- One terminal step of the hashed walk at STATE_EMPTY. -/
theorem hashed_step_empty (m : Hashed) (x : Nat) (hwf : m.wf = true)
    (hlen0 : 0 < m.transitions.length) (fuel : Nat) (w : Weight) :
    Hashed.NextIAux m x (fuel + 1) STATE_EMPTY w =
      specWalk (fun s => m.specLookup s x) m.specBackOff (fuel + 1) STATE_EMPTY w := by
  obtain ⟨bks, hrow⟩ : ∃ bks, List.get? m.transitions STATE_EMPTY = some bks := by
    show ∃ bks, List.get? m.transitions 0 = some bks
    rw [List.get?_eq_get hlen0]
    exact ⟨_, rfl⟩
  have hok := hashed_wf_rows hwf _ _ hrow
  obtain ⟨⟨e0, hnilval, he0k, _⟩, _, _⟩ := hashedRowOk_unpack hok
  by_cases hx : x = WORD_NIL
  · obtain ⟨j, e, hj, he, henil, _⟩ := hashed_lookup_miss hok hnilval (Or.inl hx)
    rw [hashed_NextIAux_oov hrow hj he henil rfl, specWalk_oov ?_ rfl]
    rw [hashed_specLookup_eq hrow, if_pos hx]
  · cases hfind : List.find? (fun e => decide (e.Key = x)) bks with
    | some ef =>
      obtain ⟨j, hj, hje⟩ := hashed_lookup_hit hok hx hfind
      have hefx : ef.Key = x := by
        have := List.find?_some hfind
        simpa using this
      rw [hashed_NextIAux_hit hrow hj hje (by rw [hefx]; exact hx),
        @specWalk_hit _ _ _ _ _ (ef.Value.State, ef.Value.Weight) ?_]
      rw [hashed_specLookup_eq hrow, if_neg hx, hfind]
      rfl
    | none =>
      obtain ⟨j, e, hj, he, henil, _⟩ := hashed_lookup_miss hok hnilval (Or.inr hfind)
      rw [hashed_NextIAux_oov hrow hj he henil rfl, specWalk_oov ?_ rfl]
      rw [hashed_specLookup_eq hrow, if_neg hx, hfind]
      rfl

/-- The hashed query loop computes exactly the specification walk. -/
theorem hashed_NextIAux_eq_spec (m : Hashed) (x : Nat) (hwf : m.wf = true)
    (hlen0 : 0 < m.transitions.length) :
    ∀ fuel p w, m.reachEmpty fuel p = true →
      Hashed.NextIAux m x (fuel + 1) p w =
        specWalk (fun s => m.specLookup s x) m.specBackOff (fuel + 1) p w := by
  intro fuel
  induction fuel with
  | zero =>
    intro p w hreach
    rw [hashed_reachEmpty_zero hreach]
    exact hashed_step_empty m x hwf hlen0 0 w
  | succ f ih =>
    intro p w hreach
    by_cases hpE : p = STATE_EMPTY
    · rw [hpE]
      exact hashed_step_empty m x hwf hlen0 (f + 1) w
    · obtain ⟨bks, e, hrow, hnilval, hreach2⟩ := hashed_reachEmpty_step hreach hpE
      have hok := hashed_wf_rows hwf _ _ hrow
      by_cases hx : x = WORD_NIL
      · obtain ⟨j, ee, hj, he, henil, hval⟩ := hashed_lookup_miss hok hnilval (Or.inl hx)
        rw [hashed_NextIAux_step hrow hj he henil hpE, specWalk_step ?_ hpE,
          hashed_specBackOff_eq hrow hnilval]
        · rw [hval]
          exact ih _ _ hreach2
        · rw [hashed_specLookup_eq hrow, if_pos hx]
      · cases hfind : List.find? (fun e2 => decide (e2.Key = x)) bks with
        | some ef =>
          obtain ⟨j, hj, hje⟩ := hashed_lookup_hit hok hx hfind
          have hefx : ef.Key = x := by
            have := List.find?_some hfind
            simpa using this
          rw [hashed_NextIAux_hit hrow hj hje (by rw [hefx]; exact hx),
            @specWalk_hit _ _ _ _ _ (ef.Value.State, ef.Value.Weight) ?_]
          rw [hashed_specLookup_eq hrow, if_neg hx, hfind]
          rfl
        | none =>
          obtain ⟨j, ee, hj, he, henil, hval⟩ := hashed_lookup_miss hok hnilval (Or.inr hfind)
          rw [hashed_NextIAux_step hrow hj he henil hpE, specWalk_step ?_ hpE,
            hashed_specBackOff_eq hrow hnilval]
          · rw [hval]
            exact ih _ _ hreach2
          · rw [hashed_specLookup_eq hrow, if_neg hx, hfind]
            rfl

/-- The hashed spec walk on the invalid word yields the OOV result. -/
theorem hashed_specWalk_nil (m : Hashed) (hwf : m.wf = true)
    (hlen0 : 0 < m.transitions.length) :
    ∀ fuel p w, m.reachEmpty fuel p = true →
      specWalk (fun s => m.specLookup s WORD_NIL) m.specBackOff (fuel + 1) p w =
        some (STATE_EMPTY, WEIGHT_LOG0) := by
  intro fuel
  induction fuel with
  | zero =>
    intro p w hreach
    rw [hashed_reachEmpty_zero hreach]
    apply specWalk_oov ?_ rfl
    unfold Hashed.specLookup
    rw [if_pos rfl]
  | succ f ih =>
    intro p w hreach
    by_cases hpE : p = STATE_EMPTY
    · apply specWalk_oov ?_ hpE
      unfold Hashed.specLookup
      rw [if_pos rfl]
    · obtain ⟨bks, e, hrow, hnilval, hreach2⟩ := hashed_reachEmpty_step hreach hpE
      rw [specWalk_step ?_ hpE, hashed_specBackOff_eq hrow hnilval]
      · exact ih _ _ hreach2
      · unfold Hashed.specLookup
        rw [if_pos rfl]

/-- C1: for every well-formed compiled model (hashed or sorted), every
valid state p and every word id x other than BOS and EOS, NextI computes
exactly the specification walk: it starts with weight 0; whenever the
lookup at the current state misses it adds that state's back-off weight
and moves to the back-off state; a lexical hit (q', w') returns
(q', w + w'); and when x is not found even at STATE_EMPTY it returns
exactly (STATE_EMPTY, WEIGHT_LOG0), discarding the accumulated weight
(specWalk together with specLookup/specBackOff is that description). -/
theorem nextI_eq_specNext :
    (∀ (m : Sorted) (p x : Nat), m.wf = true → p < m.transitions.length →
      x ≠ m.bosId → x ≠ m.eosId → m.NextI p x = m.specNext p x) ∧
    (∀ (m : Hashed) (p x : Nat), m.wf = true → p < m.transitions.length →
      x ≠ m.bosId → x ≠ m.eosId → m.NextI p x = m.specNext p x) := by
  constructor
  · intro m p x hwf hp _ _
    unfold Sorted.NextI Sorted.specNext
    exact sorted_NextIAux_eq_spec m x hwf (by omega) m.transitions.length p 0
      (sorted_wf_reach hwf p hp)
  · intro m p x hwf hp _ _
    unfold Hashed.NextI Hashed.specNext
    exact hashed_NextIAux_eq_spec m x hwf (by omega) m.transitions.length p 0
      (hashed_wf_reach hwf p hp)

/-- Witness for C1 on the concrete models: an actual back-off step
followed by a lexical hit, in both representations. -/
theorem nextI_eq_specNext_witness :
    exSorted.NextI 1 2 = exSorted.specNext 1 2 ∧
    exHashed.NextI 1 2 = exHashed.specNext 1 2 :=
  ⟨nextI_eq_specNext.1 exSorted 1 2 (by decide) (by decide) (by decide) (by decide),
   nextI_eq_specNext.2 exHashed 1 2 (by decide) (by decide) (by decide) (by decide)⟩

/-- C10: querying the reserved sentinel word id WORD_NIL from any valid
state of a well-formed model is total (no panic, terminating probes:
the result is some) and returns exactly (STATE_EMPTY, WEIGHT_LOG0):
every lookup on the way yields the state's back-off entry, so the walk
descends the back-off chain to STATE_EMPTY. -/
theorem nextI_word_nil_oov :
    (∀ (m : Sorted) (p : Nat), m.wf = true → p < m.transitions.length →
      m.NextI p WORD_NIL = some (STATE_EMPTY, WEIGHT_LOG0)) ∧
    (∀ (m : Hashed) (p : Nat), m.wf = true → p < m.transitions.length →
      m.NextI p WORD_NIL = some (STATE_EMPTY, WEIGHT_LOG0)) := by
  constructor
  · intro m p hwf hp
    unfold Sorted.NextI
    rw [sorted_NextIAux_eq_spec m WORD_NIL hwf (by omega) m.transitions.length p 0
      (sorted_wf_reach hwf p hp)]
    exact sorted_specWalk_nil m hwf (by omega) m.transitions.length p 0
      (sorted_wf_reach hwf p hp)
  · intro m p hwf hp
    unfold Hashed.NextI
    rw [hashed_NextIAux_eq_spec m WORD_NIL hwf (by omega) m.transitions.length p 0
      (hashed_wf_reach hwf p hp)]
    exact hashed_specWalk_nil m hwf (by omega) m.transitions.length p 0
      (hashed_wf_reach hwf p hp)

/-- Witness for C10 on the concrete models. -/
theorem nextI_word_nil_oov_witness :
    exSorted.NextI 1 WORD_NIL = some (STATE_EMPTY, WEIGHT_LOG0) ∧
    exHashed.NextI 1 WORD_NIL = some (STATE_EMPTY, WEIGHT_LOG0) :=
  ⟨nextI_word_nil_oov.1 exSorted 1 (by decide) (by decide),
   nextI_word_nil_oov.2 exHashed 1 (by decide) (by decide)⟩

/-
The binary container round trip (claim C3).
-/

theorem splitFlat_exact {α : Type} :
    ∀ ls : List (List α),
      splitFlat (List.map (fun l => (List.length l : Int)) ls) (List.flatten ls)
        = some ls := by
  intro ls
  induction ls with
  | nil => rfl
  | cons l rest ih =>
    rw [List.map_cons, List.flatten_cons, splitFlat]
    rw [if_neg (by omega)]
    rw [if_neg (by
      rw [List.length_append]
      omega)]
    have htake : List.take (List.length l : Int).toNat (l ++ List.flatten rest) = l := by
      rw [Int.toNat_ofNat, List.take_left]
    have hdrop : List.drop (List.length l : Int).toNat (l ++ List.flatten rest)
        = List.flatten rest := by
      rw [Int.toNat_ofNat, List.drop_left]
    rw [hdrop, ih, htake]

/-- C3: serializing a model to the binary container and re-parsing the
result yields a model equal to the original, hence one on which NextI
returns the same (state, weight) pair for every state p and word id x;
this holds for both the sorted and the hashed format.  The hypotheses
say that the stored boundary ids agree with the vocabulary, as in every
model the Builder produces. -/
theorem binary_roundtrip :
    (∀ m : Sorted, vocabIdOf m.vocab m.bos = m.bosId →
      vocabIdOf m.vocab m.eos = m.eosId →
      m.bosId ≠ WORD_NIL → m.eosId ≠ WORD_NIL →
      Sorted.UnsafeParseBinary m.WriteBinary = some m ∧
      ∀ m2, Sorted.UnsafeParseBinary m.WriteBinary = some m2 →
        ∀ p x, m2.NextI p x = m.NextI p x) ∧
    (∀ m : Hashed, vocabIdOf m.vocab m.bos = m.bosId →
      vocabIdOf m.vocab m.eos = m.eosId →
      m.bosId ≠ WORD_NIL → m.eosId ≠ WORD_NIL →
      Hashed.unsafeParseBinary m.WriteBinary = some m ∧
      ∀ m2, Hashed.unsafeParseBinary m.WriteBinary = some m2 →
        ∀ p x, m2.NextI p x = m.NextI p x) := by
  constructor
  · intro m hbos heos hbosnil heosnil
    have hparse : Sorted.UnsafeParseBinary m.WriteBinary = some m := by
      unfold Sorted.UnsafeParseBinary Sorted.WriteBinary
      dsimp only
      rw [if_neg (by simp)]
      rw [hbos, heos, if_neg hbosnil, if_neg heosnil]
      have hcounts : List.map (fun n => n + 1)
          (List.map (fun next => (List.length next : Int) - 1) m.transitions)
          = List.map (fun l => (List.length l : Int)) m.transitions := by
        rw [List.map_map]
        apply List.map_congr_left
        intro a _
        dsimp only [Function.comp]
        omega
      rw [hcounts, splitFlat_exact]
    refine ⟨hparse, ?_⟩
    intro m2 hm2
    rw [hparse] at hm2
    cases hm2
    intro p x
    rfl
  · intro m hbos heos hbosnil heosnil
    have hparse : Hashed.unsafeParseBinary m.WriteBinary = some m := by
      unfold Hashed.unsafeParseBinary Hashed.WriteBinary
      dsimp only
      rw [if_neg (by simp)]
      rw [hbos, heos, if_neg hbosnil, if_neg heosnil]
      have hcounts : List.map (fun b => (List.length b : Int)) m.transitions
          = List.map (fun l => (List.length l : Int)) m.transitions := rfl
      rw [hcounts, splitFlat_exact]
    refine ⟨hparse, ?_⟩
    intro m2 hm2
    rw [hparse] at hm2
    cases hm2
    intro p x
    rfl

/-- Witness for C3 on the concrete models. -/
theorem binary_roundtrip_witness :
    Sorted.UnsafeParseBinary exSorted.WriteBinary = some exSorted ∧
    Hashed.unsafeParseBinary exHashed.WriteBinary = some exHashed :=
  ⟨(binary_roundtrip.1 exSorted (by decide) (by decide) (by decide) (by decide)).1,
   (binary_roundtrip.2 exHashed (by decide) (by decide) (by decide) (by decide)).1⟩

/-
Builder invariant machinery (for claims C9, C6).
-/

theorem indexOf?_get? {s : String} :
    ∀ (v : List String) (i : Nat), List.indexOf? s v = some i →
      List.get? v i = some s := by
  intro v
  induction v with
  | nil => intro i h; simp at h
  | cons a rest ih =>
    intro i h
    rw [List.indexOf?_cons] at h
    by_cases hs : (a == s) = true
    · rw [if_pos hs] at h
      cases h
      have : a = s := by simpa using hs
      rw [this]
      rfl
    · rw [if_neg hs] at h
      cases hrec : List.indexOf? s rest with
      | none =>
        rw [hrec] at h
        cases h
      | some j =>
        rw [hrec] at h
        cases h
        rw [List.get?_cons_succ]
        exact ih j hrec

theorem vocabIdOrAdd_spec (v : List String) (s : String) :
    (vocabIdOrAdd v s).2 < List.length (vocabIdOrAdd v s).1 ∧
    List.length v ≤ List.length (vocabIdOrAdd v s).1 ∧
    List.length (vocabIdOrAdd v s).1 ≤ List.length v + 1 ∧
    (∀ i a, List.get? v i = some a → List.get? (vocabIdOrAdd v s).1 i = some a) ∧
    List.get? (vocabIdOrAdd v s).1 (vocabIdOrAdd v s).2 = some s := by
  unfold vocabIdOrAdd
  cases hfind : List.indexOf? s v with
  | none =>
    dsimp only
    refine ⟨by simp, by simp, by simp, ?_, ?_⟩
    · intro i a ha
      rw [List.get?_append (get?_lt_length ha)]
      exact ha
    · rw [List.get?_append_right (le_refl _)]
      simp
  | some i =>
    dsimp only
    have hget := indexOf?_get? v i hfind
    exact ⟨get?_lt_length hget, le_refl _, by omega, fun _ _ h => h, hget⟩

theorem setValueAt_spec {m : xqwMap} {i k : Nat} {v0 : StateWeight}
    (he : List.get? m.buckets i = some ⟨k, v0⟩) (v : StateWeight) :
    (m.setValueAt i v).buckets = List.set m.buckets i ⟨k, v⟩ ∧
    (m.setValueAt i v).numEntries = m.numEntries ∧
    (m.setValueAt i v).threshold = m.threshold := by
  unfold xqwMap.setValueAt
  rw [he]
  exact ⟨rfl, rfl, rfl⟩

theorem setValueAt_inv {m : xqwMap} {i k : Nat} {v0 : StateWeight} (hinv : m.Inv)
    (he : List.get? m.buckets i = some ⟨k, v0⟩) (hk : k ≠ WORD_NIL) (v : StateWeight) :
    (m.setValueAt i v).Inv := by
  obtain ⟨hs, hc, ht⟩ := hinv
  obtain ⟨hb, hn, hh⟩ := setValueAt_spec he v
  refine ⟨?_, ?_, ?_⟩
  · rw [hb, hn]
    have hsz := Size_set i ⟨k, v0⟩ ⟨k, v⟩ he
    simp [hk] at hsz
    omega
  · rw [hn, hb, List.length_set]
    exact hc
  · rw [hh, hb, List.length_set]
    exact ht

theorem mapOk_mono {eosId n n2 : Nat} {mp : xqwMap} (h : mapOk eosId n mp)
    (hn : n ≤ n2) : mapOk eosId n2 mp := by
  obtain ⟨h1, h2⟩ := h
  refine ⟨h1, ?_⟩
  intro e he hke
  obtain ⟨ha, hb⟩ := h2 e he hke
  exact ⟨ha, fun hx => lt_of_lt_of_le (hb hx) hn⟩

theorem optMapOk_mono {eosId n n2 : Nat} {omp : Option xqwMap}
    (h : optMapOk eosId n omp) (hn : n ≤ n2) : optMapOk eosId n2 omp := by
  cases omp with
  | none => trivial
  | some mp => exact mapOk_mono h hn

theorem mapOk_newXqwMap (eosId nstates : Nat) (a : Int) (mu : Rat) :
    mapOk eosId nstates (newXqwMap a mu) := by
  refine ⟨newXqwMap_inv a mu, ?_⟩
  intro e he hke
  have : (newXqwMap a mu).buckets = xqwInitBuckets
      (if a = 0 then 4 else if a < 2 then 2 else a).toNat := rfl
  rw [this] at he
  have := List.eq_of_mem_replicate he
  rw [this] at hke
  exact absurd rfl hke

/-- Builder.newState: appends a fresh state, preserving the invariant;
the returned id is the old state count. -/
theorem newState_spec (b : Builder) (hg : b.Good) :
    (b.newState).1.Good ∧ (b.newState).2 = b.backoff.length ∧
    (b.newState).1.backoff.length = b.backoff.length + 1 ∧
    (b.newState).1.transitions.length = b.transitions.length + 1 ∧
    (b.newState).1.vocab = b.vocab ∧ (b.newState).1.bos = b.bos ∧
    (b.newState).1.eos = b.eos ∧ (b.newState).1.bosId = b.bosId ∧
    (b.newState).1.eosId = b.eosId := by
  obtain ⟨h1, h2, h3, h4, h5⟩ := hg
  refine ⟨⟨?_, ?_, h3, h4, ?_⟩, rfl, by simp [Builder.newState], by simp [Builder.newState],
    rfl, rfl, rfl, rfl, rfl⟩
  · show List.length (b.transitions ++ [none]) = List.length (b.backoff ++ [⟨STATE_NIL, 0⟩])
    simp [h1]
  · show 2 ≤ List.length (b.backoff ++ [⟨STATE_NIL, 0⟩])
    simp
    omega
  · intro omp homp
    show optMapOk b.eosId (List.length (b.backoff ++ [⟨STATE_NIL, 0⟩])) omp
    rcases List.mem_append.mp homp with hm | hm
    · exact optMapOk_mono (h5 omp hm) (by simp)
    · have : omp = none := by simpa using hm
      rw [this]
      trivial

/-- Builder.setTransition succeeds on a valid state and word and
preserves the invariant. -/
theorem setTransition_spec (b : Builder) (p x q : Nat) (w : Weight) (hg : b.Good)
    (hp : p < b.transitions.length) (hx : x < WORD_NIL)
    (hq : x ≠ b.eosId → q < b.backoff.length) :
    ∃ b2, b.setTransition p x q w = some b2 ∧ b2.Good ∧
      b2.backoff = b.backoff ∧ b2.vocab = b.vocab ∧ b2.bos = b.bos ∧
      b2.eos = b.eos ∧ b2.bosId = b.bosId ∧ b2.eosId = b.eosId ∧
      b2.transitions.length = b.transitions.length := by
  obtain ⟨h1, h2, h3, h4, h5⟩ := hg
  obtain ⟨mp0, hmp0⟩ : ∃ mp0, List.get? b.transitions p = some mp0 := by
    rw [List.get?_eq_get hp]
    exact ⟨_, rfl⟩
  have hmapok : mapOk b.eosId b.backoff.length (mp0.getD (newXqwMap 0 0)) := by
    cases mp0 with
    | none => exact mapOk_newXqwMap _ _ 0 0
    | some mp => exact h5 (some mp) (List.get?_mem hmp0)
  obtain ⟨hinv, hentries⟩ := hmapok
  obtain ⟨m2, i, hfoi, hm2inv, ⟨v0, hv0⟩, hm2mem⟩ :=
    FindOrInsert_spec _ x hinv (by omega)
  unfold Builder.setTransition
  rw [hmp0]
  dsimp only
  rw [hfoi]
  dsimp only
  refine ⟨_, rfl, ⟨?_, h2, h3, h4, ?_⟩, rfl, rfl, rfl, rfl, rfl, rfl, ?_⟩
  · show List.length (List.set b.transitions p _) = _
    rw [List.length_set]
    exact h1
  · intro omp homp
    show optMapOk b.eosId b.backoff.length omp
    rcases List.mem_or_eq_of_mem_set homp with hm | hm
    · exact h5 omp hm
    · rw [hm]
      show mapOk b.eosId b.backoff.length (m2.setValueAt i ⟨q, w⟩)
      obtain ⟨hbuck, _, _⟩ := setValueAt_spec hv0 ⟨q, w⟩
      refine ⟨setValueAt_inv hm2inv hv0 (by omega) _, ?_⟩
      intro e he hke
      rw [hbuck] at he
      rcases List.mem_or_eq_of_mem_set he with hm2 | hm2
      · rcases hm2mem e hm2 hke with hm3 | hm3
        · exact hentries e hm3 hke
        · rw [hm3]
          exact ⟨hx, fun _ => by
            show 0 < b.backoff.length
            omega⟩
      · rw [hm2]
        exact ⟨hx, hq⟩
  · show List.length (List.set b.transitions p _) = _
    rw [List.length_set]

/-- Builder.setBackOffWeight succeeds on a valid state and preserves
the invariant. -/
theorem setBackOffWeight_spec (b : Builder) (p : Nat) (bow : Weight) (hg : b.Good)
    (hp : p < b.backoff.length) :
    ∃ b2, b.setBackOffWeight p bow = some b2 ∧ b2.Good ∧
      b2.transitions = b.transitions ∧ b2.backoff.length = b.backoff.length ∧
      b2.vocab = b.vocab ∧ b2.bos = b.bos ∧ b2.eos = b.eos ∧
      b2.bosId = b.bosId ∧ b2.eosId = b.eosId := by
  obtain ⟨h1, h2, h3, h4, h5⟩ := hg
  obtain ⟨e, he⟩ : ∃ e, List.get? b.backoff p = some e := by
    rw [List.get?_eq_get hp]
    exact ⟨_, rfl⟩
  unfold Builder.setBackOffWeight
  rw [he]
  dsimp only
  refine ⟨_, rfl, ⟨?_, ?_, h3, h4, ?_⟩, rfl, by rw [List.length_set], rfl, rfl, rfl,
    rfl, rfl⟩
  · show b.transitions.length = List.length (List.set b.backoff p _)
    rw [List.length_set]
    exact h1
  · show 2 ≤ List.length (List.set b.backoff p _)
    rw [List.length_set]
    exact h2
  · intro omp homp
    show optMapOk b.eosId (List.length (List.set b.backoff p _)) omp
    rw [List.length_set]
    exact h5 omp homp

/-- Builder.idOrAdd extends the vocabulary and preserves the invariant;
the returned id names the word and differs from eosId when the word is
not the end-of-sentence token. -/
theorem idOrAdd_spec (b : Builder) (s : String) (hg : b.Good) :
    (b.idOrAdd s).1.Good ∧
    (b.idOrAdd s).2 < List.length (b.idOrAdd s).1.vocab ∧
    List.length b.vocab ≤ List.length (b.idOrAdd s).1.vocab ∧
    List.length (b.idOrAdd s).1.vocab ≤ List.length b.vocab + 1 ∧
    List.get? (b.idOrAdd s).1.vocab (b.idOrAdd s).2 = some s ∧
    (b.idOrAdd s).1.transitions = b.transitions ∧
    (b.idOrAdd s).1.backoff = b.backoff ∧
    (b.idOrAdd s).1.bos = b.bos ∧ (b.idOrAdd s).1.eos = b.eos ∧
    (b.idOrAdd s).1.bosId = b.bosId ∧ (b.idOrAdd s).1.eosId = b.eosId ∧
    (s ≠ b.eos → (b.idOrAdd s).2 ≠ b.eosId) := by
  obtain ⟨h1, h2, h3, h4, h5⟩ := hg
  obtain ⟨ha, hb, hc, hd, he⟩ := vocabIdOrAdd_spec b.vocab s
  refine ⟨⟨h1, h2, hd _ _ h3, hd _ _ h4, h5⟩, ha, hb, hc, he, rfl, rfl, rfl, rfl,
    rfl, rfl, ?_⟩
  intro hs hid
  have hid2 : (vocabIdOrAdd b.vocab s).2 = b.eosId := hid
  rw [hid2] at he
  rw [hd _ _ h4] at he
  cases he
  exact hs rfl

theorem Find_value_spec {b : xqwBuckets} {k : Nat} {sw : StateWeight}
    (h : b.Find k = some (some sw)) :
    ∃ i e, List.get? b i = some e ∧ e.Key = k ∧ sw = e.Value := by
  unfold xqwBuckets.Find at h
  cases haux : findAux b k (xqwBuckets.length b) (b.start k) with
  | none => rw [haux] at h; cases h
  | some r =>
    rw [haux] at h
    cases r with
    | none => cases h
    | some i =>
      dsimp only at h
      obtain ⟨e, he, hke⟩ := findAux_sound b k _ _ _ haux i rfl
      rw [he] at h
      cases h
      exact ⟨i, e, he, hke, rfl⟩

/-- Builder.findNextState succeeds on a valid state and a valid non-EOS
word, preserving the invariant; the returned state is valid. -/
theorem findNextState_spec (b : Builder) (p x : Nat) (hg : b.Good)
    (hp : p < b.transitions.length) (hx : x < WORD_NIL) (hxe : x ≠ b.eosId) :
    ∃ b2 q, b.findNextState p x = some (b2, q) ∧ b2.Good ∧
      q < b2.backoff.length ∧ b.backoff.length ≤ b2.backoff.length ∧
      b2.vocab = b.vocab ∧ b2.bos = b.bos ∧ b2.eos = b.eos ∧
      b2.bosId = b.bosId ∧ b2.eosId = b.eosId := by
  obtain ⟨mp0, hmp0⟩ : ∃ mp0, List.get? b.transitions p = some mp0 := by
    rw [List.get?_eq_get hp]
    exact ⟨_, rfl⟩
  have hmapok : mapOk b.eosId b.backoff.length (mp0.getD (newXqwMap 0 0)) := by
    cases mp0 with
    | none => exact mapOk_newXqwMap _ _ 0 0
    | some mp =>
      obtain ⟨_, _, _, _, h5⟩ := hg
      exact h5 (some mp) (List.get?_mem hmp0)
  obtain ⟨hinv, hentries⟩ := hmapok
  have hfind : ((mp0.getD (newXqwMap 0 0)).Find x).isSome := by
    obtain ⟨hs, hc, _⟩ := hinv
    obtain ⟨j, e, hj, hke⟩ := exists_nil_bucket (by rw [hs]; exact hc)
    exact Find_isSome ⟨j, e, hj, Or.inr hke⟩
  obtain ⟨r, hr⟩ := Option.isSome_iff_exists.mp hfind
  unfold Builder.findNextState
  rw [hmp0]
  dsimp only
  rw [hr]
  set b1 : Builder := ⟨b.vocab, b.bos, b.eos, b.bosId, b.eosId,
    List.set b.transitions p (some (mp0.getD (newXqwMap 0 0))), b.backoff⟩ with hb1def
  have hb1tr : b1.transitions.length = b.transitions.length := by
    rw [hb1def]
    exact List.length_set _ _ _
  have hb1bk : b1.backoff = b.backoff := by rw [hb1def]
  have hb1eos : b1.eosId = b.eosId := by rw [hb1def]
  have hbgood : b1.Good := by
    obtain ⟨h1, h2, h3, h4, h5⟩ := hg
    refine ⟨by rw [hb1tr, hb1bk]; exact h1, by rw [hb1bk]; exact h2, h3, h4, ?_⟩
    intro omp homp
    rw [hb1eos, hb1bk]
    rw [hb1def] at homp
    rcases List.mem_or_eq_of_mem_set homp with hm | hm
    · exact h5 omp hm
    · rw [hm]
      exact ⟨hinv, hentries⟩
  cases r with
  | some qw =>
    dsimp only
    obtain ⟨i, e, he, hke, hval⟩ := Find_value_spec hr
    obtain ⟨_, hstate⟩ := hentries e (List.get?_mem he) (by rw [hke]; omega)
    refine ⟨b1, qw.State, rfl, hbgood, ?_, ?_, ?_, ?_, ?_, ?_, ?_⟩
    · rw [hval, hb1bk]
      exact hstate (by rw [hke]; exact hxe)
    · rw [hb1bk]
    · rw [hb1def]
    · rw [hb1def]
    · rw [hb1def]
    · rw [hb1def]
    · rw [hb1def]
  | none =>
    dsimp only
    obtain ⟨hg1, hq1, hlen1, hlent1, hv1, hbo1, heo1, hbi1, hei1⟩ :=
      newState_spec b1 hbgood
    obtain ⟨b2, hset, hg2, hback2, hvoc2, hbos2, heos2, hbid2, heid2, hlent2⟩ :=
      setTransition_spec (b1.newState).1 p x (b1.newState).2 0 hg1
        (by rw [hlent1, hb1tr]; omega)
        hx
        (by intro _
            rw [hq1, hlen1]
            omega)
    rw [hset]
    refine ⟨b2, (b1.newState).2, rfl, hg2, ?_, ?_, ?_, ?_, ?_, ?_, ?_⟩
    · rw [hback2, hq1, hlen1]
      omega
    · rw [hback2, hlen1, hb1bk]
      omega
    · rw [hvoc2, hv1, hb1def]
    · rw [hbos2, hbo1, hb1def]
    · rw [heos2, heo1, hb1def]
    · rw [hbid2, hbi1, hb1def]
    · rw [heid2, hei1, hb1def]

/-- Builder.findState walks or creates the context, preserving the
invariant; the resulting state is valid and the vocabulary grows by at
most the number of context words. -/
theorem findState_spec :
    ∀ (ws : List String) (b : Builder) (p : Nat), b.Good →
      p < b.transitions.length →
      (∀ s ∈ ws, s ≠ b.eos) →
      List.length b.vocab + List.length ws ≤ WORD_NIL →
      ∃ b2 p2, Builder.findState b p ws = some (b2, p2) ∧ b2.Good ∧
        p2 < b2.transitions.length ∧
        List.length b2.vocab ≤ List.length b.vocab + List.length ws ∧
        b2.bos = b.bos ∧ b2.eos = b.eos ∧ b2.bosId = b.bosId ∧
        b2.eosId = b.eosId := by
  intro ws
  induction ws with
  | nil =>
    intro b p hg hp _ _
    exact ⟨b, p, rfl, hg, hp, by omega, rfl, rfl, rfl, rfl⟩
  | cons shead rest ih =>
    intro b p hg hp hws hroom
    obtain ⟨hg1, hid1, hvg1, hvle1, hgetid, htr1, hbk1, hbos1, heos1, hbid1, heid1,
      hneq1⟩ := idOrAdd_spec b shead hg
    have hxlt : (b.idOrAdd shead).2 < WORD_NIL := by
      have hrest : 0 ≤ List.length rest := by omega
      have : List.length (b.idOrAdd shead).1.vocab ≤ List.length b.vocab + 1 := hvle1
      simp only [List.length_cons] at hroom
      omega
    have hxne : (b.idOrAdd shead).2 ≠ (b.idOrAdd shead).1.eosId := by
      rw [heid1]
      exact hneq1 (hws shead (List.mem_cons_self _ _))
    obtain ⟨b2, q, hfns, hg2, hq2, hbk2, hvoc2, hbos2, heos2, hbid2, heid2⟩ :=
      findNextState_spec (b.idOrAdd shead).1 p (b.idOrAdd shead).2 hg1
        (by rw [htr1]; exact hp) hxlt hxne
    obtain ⟨b3, p3, hfs, hg3, hp3, hvg3, hbos3, heos3, hbid3, heid3⟩ :=
      ih b2 q hg2
        (by rw [hg2.1]; exact hq2)
        (by intro s2 hs2
            rw [heos2, heos1]
            exact hws s2 (List.mem_cons_of_mem _ hs2))
        (by rw [hvoc2]
            simp only [List.length_cons] at hroom
            omega)
    rw [Builder.findState]
    rw [hfns]
    dsimp only
    rw [hfs]
    refine ⟨b3, p3, rfl, hg3, hp3, ?_, ?_, ?_, ?_, ?_⟩
    · rw [hvoc2] at hvg3
      simp only [List.length_cons]
      omega
    · rw [hbos3, hbos2, hbos1]
    · rw [heos3, heos2, heos1]
    · rw [hbid3, hbid2, hbid1]
    · rw [heid3, heid2, heid1]

/-- The fatal test of AddNgram holds exactly when eos occurs anywhere in
the context or bos occurs at a positive index. -/
theorem addNgramFatal_iff (bos eos : String) (context : List String) :
    addNgramFatal bos eos context = true ↔
      (eos ∈ context ∨ ∃ i, 0 < i ∧ List.get? context i = some bos) := by
  cases context with
  | nil =>
    constructor
    · intro h
      simp [addNgramFatal] at h
    · rintro (h | ⟨i, hi, hg⟩)
      · simp at h
      · simp at hg
  | cons c0 rest =>
    unfold addNgramFatal
    rw [Bool.or_eq_true, beq_iff_eq, List.any_eq_true]
    constructor
    · rintro (h | ⟨i, hmem, hcond⟩)
      · exact Or.inl (h ▸ List.mem_cons_self _ _)
      · rw [Bool.or_eq_true, beq_iff_eq, beq_iff_eq] at hcond
        rcases hcond with hb | he
        · obtain ⟨j, hj⟩ := List.mem_iff_get?.mp (hb ▸ hmem)
          exact Or.inr ⟨j + 1, Nat.succ_pos j, hj⟩
        · exact Or.inl (List.mem_cons_of_mem _ (he ▸ hmem))
    · rintro (h | ⟨i, hi, hg⟩)
      · rcases List.mem_cons.mp h with h0 | hr
        · exact Or.inl h0.symm
        · exact Or.inr ⟨eos, hr,
            by rw [Bool.or_eq_true, beq_iff_eq, beq_iff_eq]; exact Or.inr rfl⟩
      · cases i with
        | zero => exact absurd hi (by omega)
        | succ j =>
          have hj : List.get? rest j = some bos := hg
          exact Or.inr ⟨bos, List.get?_mem hj,
            by rw [Bool.or_eq_true, beq_iff_eq, beq_iff_eq]; exact Or.inl rfl⟩

/-- C9: Builder.AddNgram fails fatally (returns none in this embedding,
where none models glog.Fatalf) if and only if the end-of-sentence token
appears anywhere in the context or the begin-of-sentence token appears
at a positive index of the context; in particular a context whose first
element is the begin-of-sentence token is accepted. -/
theorem addNgram_fatal_iff (b : Builder) (context : List String)
    (word : String) (w0 bow0 : Weight) (hg : b.Good)
    (hroom : List.length b.vocab + List.length context + 1 ≤ WORD_NIL) :
    (b.AddNgram context word w0 bow0 = none ↔
      (b.eos ∈ context ∨ ∃ i, 0 < i ∧ List.get? context i = some b.bos)) := by
  rw [← addNgramFatal_iff b.bos b.eos context]
  constructor
  · intro hnone
    by_contra hff
    have hfatal : addNgramFatal b.bos b.eos context = false := by
      cases h : addNgramFatal b.bos b.eos context
      · rfl
      · exact absurd h hff
    have hctx : ∀ s ∈ context, s ≠ b.eos := by
      intro s hs hse
      exact hff ((addNgramFatal_iff b.bos b.eos context).mpr
        (Or.inl (hse ▸ hs)))
    have h1 := hg.1
    have h2 := hg.2.1
    obtain ⟨b1, p1, hfs, hg1, hp1, hv1, hbos1, heos1, hbid1, heid1⟩ :=
      findState_spec context b STATE_EMPTY hg
        (by show 0 < b.transitions.length; omega)
        hctx (by omega)
    obtain ⟨hg2, hid2, hvg2, hvle2, hgetw, htr2, hbk2, hbos2, heos2, hbid2,
      heid2, hne2⟩ := idOrAdd_spec b1 word hg1
    have hxlt : (b1.idOrAdd word).2 < WORD_NIL := by omega
    have hsome : ∃ br, b.AddNgram context word w0 bow0 = some br := by
      unfold Builder.AddNgram
      dsimp only
      rw [hfatal, if_neg Bool.false_ne_true]
      rw [hfs]
      dsimp only
      by_cases hxe : (b1.idOrAdd word).2 = (b1.idOrAdd word).1.eosId
      · rw [if_neg (not_not_intro hxe)]
        obtain ⟨b5, hst, -, -, -, -, -, -, -, -⟩ :=
          setTransition_spec (b1.idOrAdd word).1 p1 (b1.idOrAdd word).2 STATE_NIL
            (if Weight.leB w0 textLog0 = true then WEIGHT_LOG0 else w0) hg2
            (by rw [htr2]; exact hp1) hxlt
            (fun hne => absurd hxe hne)
        rw [hst]
        exact ⟨_, rfl⟩
      · rw [if_pos hxe]
        obtain ⟨b3, q, hfns, hg3, hq3, hbk3, hvoc3, hbos3, heos3, hbid3, heid3⟩ :=
          findNextState_spec (b1.idOrAdd word).1 p1 (b1.idOrAdd word).2 hg2
            (by rw [htr2]; exact hp1) hxlt hxe
        rw [hfns]
        dsimp only
        obtain ⟨b4, hsbw, hg4, htr4, hbklen4, -, -, -, -, -⟩ :=
          setBackOffWeight_spec b3 q
            (if Weight.leB bow0 textLog0 = true then WEIGHT_LOG0 else bow0)
            hg3 hq3
        rw [hsbw]
        dsimp only
        have hp4 : p1 < b4.transitions.length := by
          rw [htr4, hg3.1]
          have ha := hg1.1
          have hb := congrArg List.length hbk2
          omega
        obtain ⟨b5, hst, -, -, -, -, -, -, -, -⟩ :=
          setTransition_spec b4 p1 (b1.idOrAdd word).2 q
            (if Weight.leB w0 textLog0 = true then WEIGHT_LOG0 else w0)
            hg4 hp4 hxlt
            (fun _ => by rw [hbklen4]; exact hq3)
        rw [hst]
        exact ⟨_, rfl⟩
    obtain ⟨br, hbr⟩ := hsome
    rw [hbr] at hnone
    cases hnone
  · intro hf
    unfold Builder.AddNgram
    dsimp only
    rw [if_pos hf]

/-- Witness: a fresh-style builder with context ["</s>"] is rejected. -/
theorem addNgram_fatal_iff_witness :
    Builder.AddNgram
      ⟨["<s>", "</s>"], "<s>", "</s>", 0, 1, [none, none],
        [⟨STATE_NIL, 0⟩, ⟨STATE_NIL, 0⟩]⟩
      ["</s>"] "a" (Weight.fin 0) (Weight.fin 0) = none :=
  (addNgram_fatal_iff _ ["</s>"] "a" (Weight.fin 0) (Weight.fin 0)
      (by decide) (by decide)).mpr
    (Or.inl (by decide))

/-- C2: one step of Builder.linkTransition on a state q whose back-off is
unresolved (STATE_NIL): if the chain lookup of x along p's back-off chain
finds an entry (pBack, x) -> qBack, then after recursively resolving
qBack's back-off to (qBackBack, w), q's back-off state is set to qBackBack
with w added to q's back-off weight when qBack has no transition map (maps
are only created at the first insertion, so a nil map means no outgoing
lexical transitions), and to qBack with the weight unchanged otherwise;
if the chain lookup misses, q's back-off state is set to STATE_EMPTY. -/
theorem linkTransition_spec (b : Builder) (fuel p x q : Nat)
    (sw : StateWeight) (hq : List.get? b.backoff q = some sw)
    (hunres : sw.State = STATE_NIL)
    (pbo : StateWeight) (hp : List.get? b.backoff p = some pbo) :
    (∀ pBack qwBack,
      b.chainFindAux x (b.backoff.length + 1) pbo.State = some (pBack, some qwBack) →
      ∀ b1 qBackBack w,
      b.linkTransition fuel pBack x qwBack.State = some (b1, qBackBack, w) →
      ∀ e, List.get? b1.backoff q = some e →
      ∀ mqb, List.get? b1.transitions qwBack.State = some mqb →
      b.linkTransition (fuel + 1) p x q =
        (if mqb = none then
          some ({b1 with backoff := List.set b1.backoff q ⟨qBackBack, e.Weight + w⟩},
                qBackBack, e.Weight + w)
        else
          some ({b1 with backoff := List.set b1.backoff q ⟨qwBack.State, e.Weight⟩},
                qwBack.State, e.Weight))) ∧
    (∀ pBack,
      b.chainFindAux x (b.backoff.length + 1) pbo.State = some (pBack, none) →
      b.linkTransition (fuel + 1) p x q =
        some ({b with backoff := List.set b.backoff q ⟨STATE_EMPTY, sw.Weight⟩},
              STATE_EMPTY, sw.Weight)) := by
  constructor
  · intro pBack qwBack hchain b1 qBackBack w hrec e he mqb hmqb
    rw [Builder.linkTransition]
    rw [hq]
    dsimp only
    rw [if_neg (not_not_intro hunres)]
    rw [hp]
    dsimp only
    rw [hchain]
    dsimp only
    rw [hrec]
    dsimp only
    rw [he]
    dsimp only
    rw [hmqb]
  · intro pBack hchain
    rw [Builder.linkTransition]
    rw [hq]
    dsimp only
    rw [if_neg (not_not_intro hunres)]
    rw [hp]
    dsimp only
    rw [hchain]

/-- Witness: a concrete unresolved state whose chain lookup misses backs
off to STATE_EMPTY with its weight kept. -/
theorem linkTransition_spec_witness :
    Builder.linkTransition
      ⟨["<s>", "</s>"], "<s>", "</s>", 0, 1,
        [some ⟨xqwInitBuckets 2, 0, 1⟩, none, none],
        [⟨STATE_NIL, 0⟩, ⟨0, 0⟩, ⟨STATE_NIL, Weight.fin 7⟩]⟩ 1 1 5 2 =
    some (⟨["<s>", "</s>"], "<s>", "</s>", 0, 1,
        [some ⟨xqwInitBuckets 2, 0, 1⟩, none, none],
        List.set [⟨STATE_NIL, 0⟩, ⟨0, 0⟩, ⟨STATE_NIL, Weight.fin 7⟩] 2
          ⟨STATE_EMPTY, Weight.fin 7⟩⟩,
      STATE_EMPTY, Weight.fin 7) :=
  (linkTransition_spec
      ⟨["<s>", "</s>"], "<s>", "</s>", 0, 1,
        [some ⟨xqwInitBuckets 2, 0, 1⟩, none, none],
        [⟨STATE_NIL, 0⟩, ⟨0, 0⟩, ⟨STATE_NIL, Weight.fin 7⟩]⟩ 0 1 5 2
      ⟨STATE_NIL, Weight.fin 7⟩ rfl rfl ⟨0, 0⟩ rfl).2 0 (by decide)

/-
The probing discipline (bucketsFindOk): stability of the probe loops
under the insertions of probing_impl.go.
-/

theorem bucketsFindOk_initBuckets (n : Nat) : bucketsFindOk (xqwInitBuckets n) := by
  intro j e hj hke
  have hmem : e ∈ List.replicate n (⟨WORD_NIL, ⟨0, 0⟩⟩ : xqwEntry) :=
    List.get?_mem hj
  have := List.eq_of_mem_replicate hmem
  rw [this] at hke
  exact absurd rfl hke

theorem bucketsFindOk_pairwise {b : xqwBuckets} (hok : bucketsFindOk b) :
    List.Pairwise (fun a c : xqwEntry =>
      a.Key ≠ WORD_NIL → c.Key ≠ WORD_NIL → a.Key ≠ c.Key) b := by
  rw [List.pairwise_iff_get]
  intro i j hij ha hc hac
  have hgi : List.get? (b : List xqwEntry) i.1 = some (List.get b i) :=
    List.get?_eq_get i.2
  have hgj : List.get? (b : List xqwEntry) j.1 = some (List.get b j) :=
    List.get?_eq_get j.2
  have h1 := hok i.1 _ hgi ha
  have h2 := hok j.1 _ hgj hc
  rw [hac] at h1
  rw [h1] at h2
  have : j.1 = i.1 := (Option.some.inj h2).symm
  omega

theorem findEntryAux_keys_congr {b b2 : xqwBuckets} (k : Nat)
    (hlen : List.length (b : List xqwEntry) = List.length (b2 : List xqwEntry))
    (hkey : ∀ j, (List.get? (b : List xqwEntry) j).map xqwEntry.Key =
      (List.get? (b2 : List xqwEntry) j).map xqwEntry.Key) :
    ∀ fuel i, findEntryAux b k fuel i = findEntryAux b2 k fuel i := by
  intro fuel
  induction fuel with
  | zero => intro i; rfl
  | succ f ih =>
    intro i
    have hj := hkey i
    cases hb : List.get? (b : List xqwEntry) i with
    | none =>
      rw [hb] at hj
      cases hb2 : List.get? (b2 : List xqwEntry) i with
      | none => rw [findEntryAux, findEntryAux, hb, hb2]
      | some e2 => rw [hb2] at hj; cases hj
    | some e =>
      rw [hb] at hj
      cases hb2 : List.get? (b2 : List xqwEntry) i with
      | none => rw [hb2] at hj; cases hj
      | some e2 =>
        rw [hb2] at hj
        have hk : e.Key = e2.Key := Option.some.inj hj
        rw [findEntryAux, findEntryAux, hb, hb2]
        dsimp only
        rw [hk]
        by_cases hstop : e2.Key = k ∨ e2.Key = WORD_NIL
        · rw [if_pos hstop, if_pos hstop]
        · rw [if_neg hstop, if_neg hstop, hlen]
          exact ih _

theorem bucketsFindOk_keys_congr {b b2 : xqwBuckets}
    (hlen : List.length (b : List xqwEntry) = List.length (b2 : List xqwEntry))
    (hkey : ∀ j, (List.get? (b : List xqwEntry) j).map xqwEntry.Key =
      (List.get? (b2 : List xqwEntry) j).map xqwEntry.Key)
    (hok : bucketsFindOk b) : bucketsFindOk b2 := by
  intro j e2 hj hke
  have hj2 := hkey j
  cases hb : List.get? (b : List xqwEntry) j with
  | none => rw [hb, hj] at hj2; cases hj2
  | some e =>
    rw [hb, hj] at hj2
    have hk : e.Key = e2.Key := Option.some.inj hj2
    have h1 := hok j e hb (by rw [hk]; exact hke)
    show xqwBuckets.FindEntry b2 e2.Key = some j
    unfold xqwBuckets.FindEntry at h1 ⊢
    have hstart : xqwBuckets.start b2 e2.Key = xqwBuckets.start b e.Key := by
      unfold xqwBuckets.start xqwBuckets.length
      rw [hk, hlen]
    have hblen : xqwBuckets.length b2 = xqwBuckets.length b := by
      unfold xqwBuckets.length
      rw [hlen]
    rw [hstart, hblen, ← hk]
    rw [← findEntryAux_keys_congr e.Key hlen hkey]
    exact h1

/-- Filling an empty bucket never disturbs a successful probe for a live
key: the walk only crosses live buckets and ends on the key itself. -/
theorem findEntryAux_set_nil {b : xqwBuckets} {k idx : Nat} {enil x : xqwEntry}
    (hidx : List.get? (b : List xqwEntry) idx = some enil) (hnil : enil.Key = WORD_NIL)
    (hk : k ≠ WORD_NIL) :
    ∀ fuel i j ej, findEntryAux b k fuel i = some j →
      List.get? (b : List xqwEntry) j = some ej → ej.Key = k →
      findEntryAux (List.set b idx x) k fuel i = some j := by
  intro fuel
  induction fuel with
  | zero => intro i j ej h _ _; cases h
  | succ f ih =>
    intro i j ej h hj hkey
    rw [findEntryAux] at h
    cases hb : List.get? (b : List xqwEntry) i with
    | none => rw [hb] at h; cases h
    | some ei =>
      rw [hb] at h
      dsimp only at h
      by_cases hstop : ei.Key = k ∨ ei.Key = WORD_NIL
      · rw [if_pos hstop] at h
        have hij : i = j := Option.some.inj h
        subst hij
        rw [hb] at hj
        have heq : ei = ej := Option.some.inj hj
        have hne : idx ≠ i := by
          intro hcontra
          rw [hcontra, hb] at hidx
          have h2 : ei = enil := Option.some.inj hidx
          rw [← h2, heq, hkey] at hnil
          exact hk hnil
        rw [findEntryAux, List.get?_set_ne _ _ hne, hb]
        dsimp only
        rw [if_pos hstop]
      · rw [if_neg hstop] at h
        have hne : idx ≠ i := by
          intro hcontra
          rw [hcontra, hb] at hidx
          have h2 : ei = enil := Option.some.inj hidx
          exact hstop (Or.inr (by rw [h2]; exact hnil))
        rw [findEntryAux, List.get?_set_ne _ _ hne, hb]
        dsimp only
        rw [if_neg hstop, List.length_set]
        exact ih _ _ _ h hj hkey

/-- Installing the key at the bucket its own probe found makes the same
probe find it there. -/
theorem findEntryAux_set_self {b : xqwBuckets} {k idx : Nat} {x : xqwEntry}
    (hx : x.Key = k) :
    ∀ fuel i, findEntryAux b k fuel i = some idx →
      findEntryAux (List.set b idx x) k fuel i = some idx := by
  intro fuel
  induction fuel with
  | zero => intro i h; cases h
  | succ f ih =>
    intro i h
    rw [findEntryAux] at h
    cases hb : List.get? (b : List xqwEntry) i with
    | none => rw [hb] at h; cases h
    | some ei =>
      rw [hb] at h
      dsimp only at h
      by_cases hstop : ei.Key = k ∨ ei.Key = WORD_NIL
      · rw [if_pos hstop] at h
        have hij : i = idx := Option.some.inj h
        subst hij
        have hlt : i < List.length (b : List xqwEntry) := get?_lt_length hb
        rw [findEntryAux]
        rw [List.get?_set_eq_of_lt _ hlt]
        dsimp only
        rw [if_pos (Or.inl hx)]
      · rw [if_neg hstop] at h
        obtain ⟨ehit, hhit, hkhit⟩ := findEntryAux_sound b k _ _ _ h
        have hne : idx ≠ i := by
          intro hcontra
          rw [hcontra, hb] at hhit
          have h2 : ei = ehit := Option.some.inj hhit
          exact hstop (h2 ▸ hkhit)
        rw [findEntryAux, List.get?_set_ne _ _ hne, hb]
        dsimp only
        rw [if_neg hstop, List.length_set]
        exact ih _ h

/-- Installing an absent key at the first empty bucket of its probe path
makes FindEntry find it there. -/
theorem nextAvailableAux_set_find {b : xqwBuckets} {k idx : Nat} {x : xqwEntry}
    (hx : x.Key = k)
    (habs : ∀ j e, List.get? (b : List xqwEntry) j = some e → e.Key ≠ k) :
    ∀ fuel i, nextAvailableAux b fuel i = some idx →
      findEntryAux (List.set b idx x) k fuel i = some idx := by
  intro fuel
  induction fuel with
  | zero => intro i h; cases h
  | succ f ih =>
    intro i h
    rw [nextAvailableAux] at h
    cases hb : List.get? (b : List xqwEntry) i with
    | none => rw [hb] at h; cases h
    | some ei =>
      rw [hb] at h
      dsimp only at h
      by_cases hstop : ei.Key = WORD_NIL
      · rw [if_pos hstop] at h
        have hij : i = idx := Option.some.inj h
        subst hij
        have hlt : i < List.length (b : List xqwEntry) := get?_lt_length hb
        rw [findEntryAux]
        rw [List.get?_set_eq_of_lt _ hlt]
        dsimp only
        rw [if_pos (Or.inl hx)]
      · rw [if_neg hstop] at h
        obtain ⟨ehit, hhit, hkhit⟩ := nextAvailableAux_sound b _ _ _ h
        have hne : idx ≠ i := by
          intro hcontra
          rw [hcontra, hb] at hhit
          have h2 : ei = ehit := Option.some.inj hhit
          exact hstop (h2 ▸ hkhit)
        have hnk : ¬(ei.Key = k ∨ ei.Key = WORD_NIL) := by
          rintro (h1 | h2)
          · exact habs i ei hb h1
          · exact hstop h2
        rw [findEntryAux, List.get?_set_ne _ _ hne, hb]
        dsimp only
        rw [if_neg hnk, List.length_set]
        exact ih _ h

theorem FindEntry_set_eq (b : xqwBuckets) (idx : Nat) (x : xqwEntry) (k : Nat) :
    xqwBuckets.FindEntry (List.set b idx x) k =
      findEntryAux (List.set b idx x) k (xqwBuckets.length b) (xqwBuckets.start b k) := by
  unfold xqwBuckets.FindEntry xqwBuckets.start xqwBuckets.length
  rw [List.length_set]

/-- Inserting a key at the empty bucket FindEntry reported keeps every
live bucket findable at its own index. -/
theorem bucketsFindOk_set_found {b : xqwBuckets} {k idx : Nat} {enil x : xqwEntry}
    (hok : bucketsFindOk b) (hk : k ≠ WORD_NIL) (hx : x.Key = k)
    (hfe : xqwBuckets.FindEntry b k = some idx)
    (hidx : List.get? (b : List xqwEntry) idx = some enil)
    (hnil : enil.Key = WORD_NIL) :
    bucketsFindOk (List.set b idx x) := by
  intro j e hj hke
  by_cases hjidx : j = idx
  · subst hjidx
    have hlt : j < List.length (b : List xqwEntry) := get?_lt_length hidx
    rw [List.get?_set_eq_of_lt _ hlt] at hj
    have hex : x = e := Option.some.inj hj
    have hek : e.Key = k := by rw [← hex]; exact hx
    rw [hek, FindEntry_set_eq]
    exact findEntryAux_set_self hx _ _ hfe
  · have hne : idx ≠ j := Ne.symm hjidx
    rw [List.get?_set_ne _ _ hne] at hj
    have hold := hok j e hj hke
    have hkek : e.Key ≠ k := by
      intro hcontra
      rw [hcontra] at hold
      rw [hold] at hfe
      exact hjidx (Option.some.inj hfe)
    rw [FindEntry_set_eq]
    exact findEntryAux_set_nil hidx hnil hke _ _ _ _ hold hj rfl

/-- Inserting an absent key at the empty bucket nextAvailable reported
keeps every live bucket findable at its own index. -/
theorem bucketsFindOk_set_avail {b : xqwBuckets} {k idx : Nat} {x : xqwEntry}
    (hok : bucketsFindOk b) (hk : k ≠ WORD_NIL) (hx : x.Key = k)
    (hna : xqwBuckets.nextAvailable b k = some idx)
    (habs : ∀ j e, List.get? (b : List xqwEntry) j = some e → e.Key ≠ k) :
    bucketsFindOk (List.set b idx x) := by
  obtain ⟨enil, hidx, hnil⟩ := nextAvailableAux_sound b _ _ _ hna
  intro j e hj hke
  by_cases hjidx : j = idx
  · subst hjidx
    have hlt : j < List.length (b : List xqwEntry) := get?_lt_length hidx
    rw [List.get?_set_eq_of_lt _ hlt] at hj
    have hex : x = e := Option.some.inj hj
    have hek : e.Key = k := by rw [← hex]; exact hx
    rw [hek, FindEntry_set_eq]
    exact nextAvailableAux_set_find hx habs _ _ hna
  · have hne : idx ≠ j := Ne.symm hjidx
    rw [List.get?_set_ne _ _ hne] at hj
    have hold := hok j e hj hke
    rw [FindEntry_set_eq]
    exact findEntryAux_set_nil hidx hnil hke _ _ _ _ hold hj rfl

/-- Reinsertion keeps the probing discipline: each live entry goes to
the first empty bucket of its probe path, and keys stay distinct. -/
theorem reinsertAll_findOk :
    ∀ (old : List xqwEntry) (init : xqwBuckets) (res : xqwBuckets),
      reinsertAll old init = some res →
      bucketsFindOk init →
      (∀ e ∈ old, e.Key ≠ WORD_NIL →
        ∀ j e2, List.get? (init : List xqwEntry) j = some e2 → e2.Key ≠ e.Key) →
      List.Pairwise (fun a c : xqwEntry =>
        a.Key ≠ WORD_NIL → c.Key ≠ WORD_NIL → a.Key ≠ c.Key) old →
      bucketsFindOk res ∧
      (∀ e2 ∈ (res : List xqwEntry),
        e2 ∈ (init : List xqwEntry) ∨ e2 ∈ old) := by
  intro old
  induction old with
  | nil =>
    intro init res h hok _ _
    have : init = res := Option.some.inj h
    subst this
    exact ⟨hok, fun e2 he2 => Or.inl he2⟩
  | cons e rest ih =>
    intro init res h hok habs hpw
    rw [reinsertAll_cons] at h
    by_cases hk : e.Key = WORD_NIL
    · rw [if_pos hk] at h
      obtain ⟨h1, h2⟩ := ih init res h hok
        (fun e3 he3 hke3 => habs e3 (List.mem_cons_of_mem _ he3) hke3)
        (List.Pairwise.of_cons hpw)
      exact ⟨h1, fun e2 he2 => (h2 e2 he2).imp id (List.mem_cons_of_mem _)⟩
    · rw [if_neg hk] at h
      cases hna : init.nextAvailable e.Key with
      | none => rw [hna] at h; cases h
      | some j =>
        rw [hna] at h
        dsimp only at h
        have habse : ∀ j2 e2, List.get? (init : List xqwEntry) j2 = some e2 →
            e2.Key ≠ e.Key :=
          fun j2 e2 hj2 => habs e (List.mem_cons_self _ _) hk j2 e2 hj2
        have hok2 : bucketsFindOk (List.set init j e) :=
          bucketsFindOk_set_avail hok hk rfl hna habse
        have hpwhead : ∀ e3 ∈ rest, e.Key ≠ WORD_NIL → e3.Key ≠ WORD_NIL →
            e.Key ≠ e3.Key :=
          fun e3 he3 => List.rel_of_pairwise_cons hpw he3
        have habs2 : ∀ e3 ∈ rest, e3.Key ≠ WORD_NIL →
            ∀ j2 e2, List.get? (List.set init j e : List xqwEntry) j2 = some e2 →
            e2.Key ≠ e3.Key := by
          intro e3 he3 hke3 j2 e2 hj2 hcontra
          rcases List.mem_or_eq_of_mem_set (List.get?_mem hj2) with hm | hm
          · obtain ⟨j3, hj3⟩ := List.mem_iff_get?.mp hm
            exact habs e3 (List.mem_cons_of_mem _ he3) hke3 j3 e2 hj3 hcontra
          · rw [hm] at hcontra
            exact hpwhead e3 he3 hk hke3 hcontra
        obtain ⟨h1, h2⟩ := ih (List.set init j e) res h hok2 habs2
          (List.Pairwise.of_cons hpw)
        refine ⟨h1, fun e2 he2 => ?_⟩
        rcases h2 e2 he2 with hm | hm
        · rcases List.mem_or_eq_of_mem_set hm with hm2 | hm2
          · exact Or.inl hm2
          · exact Or.inr (hm2 ▸ List.mem_cons_self _ _)
        · exact Or.inr (List.mem_cons_of_mem _ hm)

/-- Resize keeps the probing discipline and introduces no new keys. -/
theorem Resize_findOk {m : xqwMap} {n : Nat} {m2 : xqwMap}
    (h : m.Resize n = some m2) (hok : bucketsFindOk m.buckets) :
    bucketsFindOk m2.buckets ∧
    (∀ e2 ∈ (m2.buckets : List xqwEntry), e2.Key ≠ WORD_NIL →
      e2 ∈ (m.buckets : List xqwEntry)) := by
  unfold xqwMap.Resize at h
  dsimp only at h
  cases hre : reinsertAll m.buckets
      (xqwInitBuckets (if n < m.numEntries + 1 then m.numEntries + 1 else n)) with
  | none => rw [hre] at h; cases h
  | some buckets =>
    rw [hre] at h
    dsimp only at h
    have hb2 : m2.buckets = buckets := by
      have := Option.some.inj h
      rw [← this]
    obtain ⟨h1, h2⟩ := reinsertAll_findOk _ _ _ hre
      (bucketsFindOk_initBuckets _)
      (by
        intro e3 _ hke3 j2 e2 hj2 hcontra
        have hmem := List.get?_mem hj2
        have hrep := List.eq_of_mem_replicate hmem
        rw [hrep] at hcontra
        exact hke3 hcontra.symm)
      (bucketsFindOk_pairwise hok)
    constructor
    · rw [hb2]; exact h1
    · intro e2 he2 hke2
      rw [hb2] at he2
      rcases h2 e2 he2 with hm | hm
      · have := List.eq_of_mem_replicate hm
        rw [this] at hke2
        exact absurd rfl hke2
      · exact hm

/-- FindOrInsert keeps the probing discipline and adds only the probed
key. -/
theorem FindOrInsert_findOk {m m2 : xqwMap} {k i : Nat}
    (h : m.FindOrInsert k = some (m2, i))
    (hok : bucketsFindOk m.buckets) (hlt : mapKeysLt m) (hklt : k < WORD_NIL) :
    bucketsFindOk m2.buckets ∧ mapKeysLt m2 := by
  have hk : k ≠ WORD_NIL := Nat.ne_of_lt hklt
  unfold xqwMap.FindOrInsert at h
  cases hfe : m.buckets.FindEntry k with
  | none => rw [hfe] at h; cases h
  | some i0 =>
    rw [hfe] at h
    dsimp only at h
    cases hgi : List.get? (m.buckets : List xqwEntry) i0 with
    | none => rw [hgi] at h; cases h
    | some e =>
      rw [hgi] at h
      dsimp only at h
      by_cases hkey : e.Key ≠ WORD_NIL
      · rw [if_pos hkey] at h
        have hp := Option.some.inj h
        have hm2 : m = m2 := congrArg Prod.fst hp
        rw [← hm2]
        exact ⟨hok, hlt⟩
      · rw [if_neg hkey] at h
        have hkeynil : e.Key = WORD_NIL := not_not.mp hkey
        by_cases hth : m.numEntries ≥ m.threshold
        · rw [if_pos hth] at h
          cases hres : m.Resize (m.buckets.length * 2) with
          | none => rw [hres] at h; cases h
          | some m1 =>
            rw [hres] at h
            dsimp only at h
            cases hna : m1.buckets.nextAvailable k with
            | none => rw [hna] at h; cases h
            | some j =>
              rw [hna] at h
              dsimp only at h
              have hp := Option.some.inj h
              have hm2 : (⟨List.set m1.buckets j ⟨k, ⟨0, 0⟩⟩, m1.numEntries + 1,
                  m1.threshold⟩ : xqwMap) = m2 := congrArg Prod.fst hp
              obtain ⟨hok1, hmem1⟩ := Resize_findOk hres hok
              have habs : ∀ j2 e2, List.get? (m1.buckets : List xqwEntry) j2 = some e2 →
                  e2.Key ≠ k := by
                intro j2 e2 hj2 hcontra
                have hlive : e2.Key ≠ WORD_NIL := by rw [hcontra]; exact hk
                have hmm := hmem1 e2 (List.get?_mem hj2) hlive
                obtain ⟨j3, hj3⟩ := List.mem_iff_get?.mp hmm
                have hfind := hok j3 e2 hj3 hlive
                rw [hcontra] at hfind
                rw [hfind] at hfe
                have hji : j3 = i0 := Option.some.inj hfe
                rw [hji, hgi] at hj3
                have he2e : e = e2 := Option.some.inj hj3
                rw [← he2e, hkeynil] at hcontra
                exact hk hcontra.symm
              have hok2 : bucketsFindOk (List.set m1.buckets j ⟨k, ⟨0, 0⟩⟩) :=
                bucketsFindOk_set_avail hok1 hk rfl hna habs
              constructor
              · rw [← hm2]
                exact hok2
              · rw [← hm2]
                intro e2 he2 hke2
                rcases List.mem_or_eq_of_mem_set he2 with hm | hm
                · exact hlt e2 (hmem1 e2 hm hke2) hke2
                · rw [hm]
                  exact hklt
        · rw [if_neg hth] at h
          have hp := Option.some.inj h
          have hm2 : (⟨List.set m.buckets i0 ⟨k, ⟨0, 0⟩⟩, m.numEntries + 1,
              m.threshold⟩ : xqwMap) = m2 := congrArg Prod.fst hp
          have hok2 : bucketsFindOk (List.set m.buckets i0 ⟨k, ⟨0, 0⟩⟩) :=
            bucketsFindOk_set_found hok hk rfl hfe hgi hkeynil
          constructor
          · rw [← hm2]
            exact hok2
          · rw [← hm2]
            intro e2 he2 hke2
            rcases List.mem_or_eq_of_mem_set he2 with hm | hm
            · exact hlt e2 hm hke2
            · rw [hm]
              exact hklt

/-- Writing a value through the FindOrInsert pointer changes no key, so
the probing discipline survives. -/
theorem setValueAt_findOk (m : xqwMap) (i : Nat) (v : StateWeight)
    (hok : bucketsFindOk m.buckets) (hlt : mapKeysLt m) :
    bucketsFindOk (m.setValueAt i v).buckets ∧ mapKeysLt (m.setValueAt i v) := by
  unfold xqwMap.setValueAt
  cases hgi : List.get? (m.buckets : List xqwEntry) i with
  | none => exact ⟨hok, hlt⟩
  | some e =>
    dsimp only
    constructor
    · apply bucketsFindOk_keys_congr (List.length_set _ _ _).symm ?_ hok
      intro j
      by_cases hji : i = j
      · subst hji
        rw [List.get?_set_eq_of_lt _ (get?_lt_length hgi), hgi]
        rfl
      · rw [List.get?_set_ne _ _ hji]
    · intro e2 he2 hke2
      rcases List.mem_or_eq_of_mem_set he2 with hm | hm
      · exact hlt e2 hm hke2
      · rw [hm]
        exact hlt e (List.get?_mem hgi) (by rw [hm] at hke2; exact hke2)

theorem newXqwMap_findOk (a : Int) (mu : Rat) :
    bucketsFindOk (newXqwMap a mu).buckets ∧ mapKeysLt (newXqwMap a mu) := by
  constructor
  · exact bucketsFindOk_initBuckets _
  · intro e he hke
    have hrep : e = (⟨WORD_NIL, ⟨0, 0⟩⟩ : xqwEntry) := List.eq_of_mem_replicate he
    rw [hrep] at hke
    exact absurd rfl hke

theorem getD_map_findOk {b : Builder} {p : Nat} {mp0 : Option xqwMap}
    (hko : b.KeysOk) (hmp : List.get? b.transitions p = some mp0) :
    bucketsFindOk (mp0.getD (newXqwMap 0 0)).buckets ∧
    mapKeysLt (mp0.getD (newXqwMap 0 0)) := by
  cases mp0 with
  | none => exact newXqwMap_findOk 0 0
  | some mp => exact hko (some mp) (List.get?_mem hmp) mp rfl

/-- setTransition keeps every transition map within the probing
discipline when the inserted key is a valid word id. -/
theorem setTransition_keysOk {b b2 : Builder} {p x q : Nat} {w : Weight}
    (h : b.setTransition p x q w = some b2) (hko : b.KeysOk) (hx : x < WORD_NIL) :
    b2.KeysOk ∧ b2.vocab = b.vocab ∧ b2.backoff = b.backoff ∧
    b2.transitions.length = b.transitions.length ∧
    b2.bos = b.bos ∧ b2.eos = b.eos ∧ b2.bosId = b.bosId ∧ b2.eosId = b.eosId := by
  unfold Builder.setTransition at h
  cases hmp : List.get? b.transitions p with
  | none => rw [hmp] at h; cases h
  | some mp0 =>
    rw [hmp] at h
    dsimp only at h
    cases hfoi : (mp0.getD (newXqwMap 0 0)).FindOrInsert x with
    | none => rw [hfoi] at h; cases h
    | some mi =>
      rw [hfoi] at h
      dsimp only at h
      have hb2 := Option.some.inj h
      obtain ⟨hbok, hblt⟩ := getD_map_findOk hko hmp
      obtain ⟨hfok, hklt⟩ := FindOrInsert_findOk hfoi hbok hblt hx
      obtain ⟨hsok, hslt⟩ := setValueAt_findOk mi.1 mi.2 ⟨q, w⟩ hfok hklt
      refine ⟨?_, ?_, ?_, ?_, ?_, ?_, ?_, ?_⟩
      · rw [← hb2]
        intro omp homp mp hmp2
        rcases List.mem_or_eq_of_mem_set homp with hm | hm
        · exact hko omp hm mp hmp2
        · rw [hm] at hmp2
          have hmpv : mp = mi.1.setValueAt mi.2 ⟨q, w⟩ := (Option.some.inj hmp2).symm
          rw [hmpv]
          exact ⟨hsok, hslt⟩
      · rw [← hb2]
      · rw [← hb2]
      · rw [← hb2]
        exact List.length_set _ _ _
      · rw [← hb2]
      · rw [← hb2]
      · rw [← hb2]
      · rw [← hb2]

theorem setBackOffWeight_shape {b b2 : Builder} {p : Nat} {bow : Weight}
    (h : b.setBackOffWeight p bow = some b2) :
    b2.transitions = b.transitions ∧ b2.vocab = b.vocab ∧
    b2.backoff.length = b.backoff.length ∧ b2.bos = b.bos ∧ b2.eos = b.eos ∧
    b2.bosId = b.bosId ∧ b2.eosId = b.eosId := by
  unfold Builder.setBackOffWeight at h
  cases hg : List.get? b.backoff p with
  | none => rw [hg] at h; cases h
  | some e =>
    rw [hg] at h
    dsimp only at h
    have hb2 := Option.some.inj h
    refine ⟨?_, ?_, ?_, ?_, ?_, ?_, ?_⟩
    · rw [← hb2]
    · rw [← hb2]
    · rw [← hb2]
      exact List.length_set _ _ _
    · rw [← hb2]
    · rw [← hb2]
    · rw [← hb2]
    · rw [← hb2]

/-- findNextState keeps the probing discipline; it adds at most one
state. -/
theorem findNextState_keysOk {b b2 : Builder} {p x q : Nat}
    (h : b.findNextState p x = some (b2, q)) (hko : b.KeysOk) (hx : x < WORD_NIL) :
    b2.KeysOk ∧ b2.vocab = b.vocab ∧
    b.backoff.length ≤ b2.backoff.length ∧
    b2.backoff.length ≤ b.backoff.length + 1 ∧
    b.transitions.length ≤ b2.transitions.length ∧
    b2.transitions.length ≤ b.transitions.length + 1 ∧
    b2.bos = b.bos ∧ b2.eos = b.eos ∧ b2.bosId = b.bosId ∧ b2.eosId = b.eosId := by
  unfold Builder.findNextState at h
  cases hmp : List.get? b.transitions p with
  | none => rw [hmp] at h; cases h
  | some mp0 =>
    rw [hmp] at h
    dsimp only at h
    set bmid : Builder :=
      {b with transitions := List.set b.transitions p (some (mp0.getD (newXqwMap 0 0)))}
      with hbmid
    have hkomid : bmid.KeysOk := by
      intro omp homp mp hmp2
      rw [hbmid] at homp
      rcases List.mem_or_eq_of_mem_set homp with hm | hm
      · exact hko omp hm mp hmp2
      · rw [hm] at hmp2
        have hmpv : mp = mp0.getD (newXqwMap 0 0) := (Option.some.inj hmp2).symm
        rw [hmpv]
        exact getD_map_findOk hko hmp
    have htrmid : bmid.transitions.length = b.transitions.length := by
      rw [hbmid]
      exact List.length_set _ _ _
    have hbkmid : bmid.backoff = b.backoff := by rw [hbmid]
    cases hfind : (mp0.getD (newXqwMap 0 0)).Find x with
    | none => rw [hfind] at h; cases h
    | some r =>
      rw [hfind] at h
      cases r with
      | some qw =>
        dsimp only at h
        have hp := Option.some.inj h
        have hb2 : bmid = b2 := congrArg Prod.fst hp
        rw [← hb2]
        refine ⟨hkomid, by rw [hbmid], by rw [hbkmid], by rw [hbkmid]; omega,
          by omega, by omega, by rw [hbmid], by rw [hbmid], by rw [hbmid],
          by rw [hbmid]⟩
      | none =>
        dsimp only at h
        have hns : bmid.newState =
            (⟨bmid.vocab, bmid.bos, bmid.eos, bmid.bosId, bmid.eosId,
              bmid.transitions ++ [none],
              bmid.backoff ++ [⟨STATE_NIL, 0⟩]⟩, bmid.backoff.length) := rfl
        rw [hns] at h
        dsimp only at h
        cases hst : Builder.setTransition
            ⟨bmid.vocab, bmid.bos, bmid.eos, bmid.bosId, bmid.eosId,
              bmid.transitions ++ [none], bmid.backoff ++ [⟨STATE_NIL, 0⟩]⟩
            p x bmid.backoff.length 0 with
        | none => rw [hst] at h; cases h
        | some b3 =>
          rw [hst] at h
          dsimp only at h
          have hp := Option.some.inj h
          have hb2 : b3 = b2 := congrArg Prod.fst hp
          have hkoapp : Builder.KeysOk
              ⟨bmid.vocab, bmid.bos, bmid.eos, bmid.bosId, bmid.eosId,
                bmid.transitions ++ [none], bmid.backoff ++ [⟨STATE_NIL, 0⟩]⟩ := by
            intro omp homp mp hmp2
            rcases List.mem_append.mp homp with hm | hm
            · exact hkomid omp hm mp hmp2
            · have : omp = none := List.mem_singleton.mp hm
              rw [this] at hmp2
              cases hmp2
          obtain ⟨hko3, hv3, hbk3, htr3, hbos3, heos3, hbid3, heid3⟩ :=
            setTransition_keysOk hst hkoapp hx
          rw [← hb2]
          refine ⟨hko3, ?_, ?_, ?_, ?_, ?_, ?_, ?_, ?_, ?_⟩
          · rw [hv3, hbmid]
          · rw [hbk3]
            have : List.length (bmid.backoff ++ [(⟨STATE_NIL, 0⟩ : StateWeight)]) =
                List.length bmid.backoff + 1 := by
              simp
            rw [this, hbkmid]
            omega
          · rw [hbk3]
            have : List.length (bmid.backoff ++ [(⟨STATE_NIL, 0⟩ : StateWeight)]) =
                List.length bmid.backoff + 1 := by
              simp
            rw [this, hbkmid]
          · rw [htr3]
            have : List.length (bmid.transitions ++ [(none : Option xqwMap)]) =
                List.length bmid.transitions + 1 := by
              simp
            rw [this, htrmid]
            omega
          · rw [htr3]
            have : List.length (bmid.transitions ++ [(none : Option xqwMap)]) =
                List.length bmid.transitions + 1 := by
              simp
            rw [this, htrmid]
          · rw [hbos3, hbmid]
          · rw [heos3, hbmid]
          · rw [hbid3, hbmid]
          · rw [heid3, hbmid]

/-- findState keeps the probing discipline; vocabulary and state count
grow by at most the number of context words. -/
theorem findState_keysOk :
    ∀ (ws : List String) (b : Builder) (p : Nat) (b2 : Builder) (p2 : Nat),
      b.findState p ws = some (b2, p2) → b.KeysOk →
      List.length b.vocab + List.length ws ≤ WORD_NIL →
      b2.KeysOk ∧
      List.length b2.vocab ≤ List.length b.vocab + List.length ws ∧
      List.length b.transitions ≤ List.length b2.transitions ∧
      List.length b2.transitions ≤ List.length b.transitions + List.length ws ∧
      b2.bos = b.bos ∧ b2.eos = b.eos ∧ b2.bosId = b.bosId ∧ b2.eosId = b.eosId := by
  intro ws
  induction ws with
  | nil =>
    intro b p b2 p2 h hko _
    have hp := Option.some.inj h
    have hb2 : b = b2 := congrArg Prod.fst hp
    rw [← hb2]
    exact ⟨hko, by omega, by omega, by simp, rfl, rfl, rfl, rfl⟩
  | cons w ws ih =>
    intro b p b2 p2 h hko hroom
    rw [Builder.findState] at h
    obtain ⟨ha, hb, hc, hd, he⟩ := vocabIdOrAdd_spec b.vocab w
    have hkoadd : (b.idOrAdd w).1.KeysOk := by
      intro omp homp mp hmp2
      exact hko omp homp mp hmp2
    have hxlt : (b.idOrAdd w).2 < WORD_NIL := by
      have h1 : (b.idOrAdd w).2 < List.length (b.idOrAdd w).1.vocab := ha
      have h2 : List.length (b.idOrAdd w).1.vocab ≤ List.length b.vocab + 1 := hc
      simp only [List.length_cons] at hroom
      omega
    cases hfns : (b.idOrAdd w).1.findNextState p (b.idOrAdd w).2 with
    | none => rw [hfns] at h; cases h
    | some bq =>
      rw [hfns] at h
      dsimp only at h
      obtain ⟨hko1, hv1, _, _, htr1a, htr1b, hbos1, heos1, hbid1, heid1⟩ :=
        @findNextState_keysOk _ bq.1 _ _ bq.2 hfns hkoadd hxlt
      obtain ⟨hko2, hv2, htr2a, htr2b, hbos2, heos2, hbid2, heid2⟩ :=
        ih bq.1 bq.2 b2 p2 h hko1
          (by
            have h1 : List.length bq.1.vocab = List.length (b.idOrAdd w).1.vocab := by
              rw [hv1]
            have h2 : List.length (b.idOrAdd w).1.vocab ≤ List.length b.vocab + 1 := hc
            simp only [List.length_cons] at hroom
            omega)
      have hvadd : List.length (b.idOrAdd w).1.vocab ≤ List.length b.vocab + 1 := hc
      have hvq : List.length bq.1.vocab = List.length (b.idOrAdd w).1.vocab := by
        rw [hv1]
      have htradd : (b.idOrAdd w).1.transitions = b.transitions := rfl
      refine ⟨hko2, ?_, ?_, ?_, ?_, ?_, ?_, ?_⟩
      · simp only [List.length_cons]
        omega
      · rw [htradd] at htr1a
        omega
      · rw [htradd] at htr1b
        simp only [List.length_cons]
        omega
      · rw [hbos2, hbos1]
        rfl
      · rw [heos2, heos1]
        rfl
      · rw [hbid2, hbid1]
        rfl
      · rw [heid2, heid1]
        rfl

/-- AddNgram keeps the probing discipline; vocabulary and state count
grow by at most context-length + 1. -/
theorem addNgram_keysOk {b b2 : Builder} {context : List String} {word : String}
    {w0 bow0 : Weight}
    (h : b.AddNgram context word w0 bow0 = some b2) (hko : b.KeysOk)
    (hroom : List.length b.vocab + List.length context + 1 ≤ WORD_NIL) :
    b2.KeysOk ∧
    List.length b2.vocab ≤ List.length b.vocab + List.length context + 1 ∧
    List.length b.transitions ≤ List.length b2.transitions ∧
    List.length b2.transitions ≤ List.length b.transitions + List.length context + 1 ∧
    b2.bos = b.bos ∧ b2.eos = b.eos := by
  unfold Builder.AddNgram at h
  dsimp only at h
  by_cases hfat : addNgramFatal b.bos b.eos context = true
  · rw [if_pos hfat] at h
    cases h
  · rw [if_neg hfat] at h
    cases hfs : b.findState STATE_EMPTY context with
    | none => rw [hfs] at h; cases h
    | some bp =>
      rw [hfs] at h
      dsimp only at h
      obtain ⟨hko1, hv1, htr1a, htr1b, hbos1, heos1, hbid1, heid1⟩ :=
        findState_keysOk context b STATE_EMPTY bp.1 bp.2 hfs hko (by omega)
      have hko2 : (bp.1.idOrAdd word).1.KeysOk :=
        fun omp homp mp hmp2 => hko1 omp homp mp hmp2
      have ha : (bp.1.idOrAdd word).2 < List.length (bp.1.idOrAdd word).1.vocab :=
        (vocabIdOrAdd_spec bp.1.vocab word).1
      have hcv : List.length (bp.1.idOrAdd word).1.vocab ≤ List.length bp.1.vocab + 1 :=
        (vocabIdOrAdd_spec bp.1.vocab word).2.2.1
      have hxlt : (bp.1.idOrAdd word).2 < WORD_NIL := by omega
      have htradd : (bp.1.idOrAdd word).1.transitions = bp.1.transitions := rfl
      have hbosadd : (bp.1.idOrAdd word).1.bos = bp.1.bos := rfl
      have heosadd : (bp.1.idOrAdd word).1.eos = bp.1.eos := rfl
      by_cases hxe : (bp.1.idOrAdd word).2 ≠ (bp.1.idOrAdd word).1.eosId
      · rw [if_pos hxe] at h
        cases hfns : (bp.1.idOrAdd word).1.findNextState bp.2 (bp.1.idOrAdd word).2 with
        | none => rw [hfns] at h; cases h
        | some bq =>
          rw [hfns] at h
          dsimp only at h
          obtain ⟨hko3, hv3, _, _, htr3a, htr3b, hbos3, heos3, _, _⟩ :=
            @findNextState_keysOk _ bq.1 _ _ bq.2 hfns hko2 hxlt
          cases hsbw : bq.1.setBackOffWeight bq.2
              (if Weight.leB bow0 textLog0 = true then WEIGHT_LOG0 else bow0) with
          | none => rw [hsbw] at h; cases h
          | some b3 =>
            rw [hsbw] at h
            dsimp only at h
            obtain ⟨htr4, hv4, _, hbos4, heos4, _, _⟩ := setBackOffWeight_shape hsbw
            have hko4 : b3.KeysOk := by
              intro omp homp mp hmp2
              rw [htr4] at homp
              exact hko3 omp homp mp hmp2
            obtain ⟨hko5, hv5, _, htr5, hbos5, heos5, _, _⟩ :=
              setTransition_keysOk h hko4 hxlt
            have hvc : List.length b2.vocab = List.length b3.vocab := by rw [hv5]
            have hvc2 : List.length b3.vocab = List.length bq.1.vocab := by rw [hv4]
            have hvc3 : List.length bq.1.vocab =
                List.length (bp.1.idOrAdd word).1.vocab := by rw [hv3]
            have htc : List.length b3.transitions = List.length bq.1.transitions := by
              rw [htr4]
            have htc2 : List.length (bp.1.idOrAdd word).1.transitions =
                List.length bp.1.transitions := by rw [htradd]
            refine ⟨hko5, by omega, by omega, by omega, ?_, ?_⟩
            · rw [hbos5, hbos4, hbos3, hbosadd, hbos1]
            · rw [heos5, heos4, heos3, heosadd, heos1]
      · rw [if_neg hxe] at h
        obtain ⟨hko5, hv5, _, htr5, hbos5, heos5, _, _⟩ :=
          setTransition_keysOk h hko2 hxlt
        have hvc : List.length b2.vocab =
            List.length (bp.1.idOrAdd word).1.vocab := by rw [hv5]
        have htc2 : List.length (bp.1.idOrAdd word).1.transitions =
            List.length bp.1.transitions := by rw [htradd]
        refine ⟨hko5, by omega, by omega, by omega, ?_, ?_⟩
        · rw [hbos5, hbosadd, hbos1]
        · rw [heos5, heosadd, heos1]

theorem setTransition_shape {b b2 : Builder} {p x q : Nat} {w : Weight}
    (h : b.setTransition p x q w = some b2) :
    b2.vocab = b.vocab ∧ b2.backoff = b.backoff ∧ b2.bos = b.bos ∧
    b2.eos = b.eos ∧ b2.bosId = b.bosId ∧ b2.eosId = b.eosId ∧
    b2.transitions.length = b.transitions.length := by
  unfold Builder.setTransition at h
  cases hmp : List.get? b.transitions p with
  | none => rw [hmp] at h; cases h
  | some mp0 =>
    rw [hmp] at h
    dsimp only at h
    cases hfoi : (mp0.getD (newXqwMap 0 0)).FindOrInsert x with
    | none => rw [hfoi] at h; cases h
    | some mi =>
      rw [hfoi] at h
      dsimp only at h
      have hb2 := Option.some.inj h
      refine ⟨?_, ?_, ?_, ?_, ?_, ?_, ?_⟩
      · rw [← hb2]
      · rw [← hb2]
      · rw [← hb2]
      · rw [← hb2]
      · rw [← hb2]
      · rw [← hb2]
      · rw [← hb2]
        exact List.length_set _ _ _

/-- A run of AddNgram calls keeps the probing discipline; growth is
bounded by the total room of the calls. -/
theorem addAll_keysOk :
    ∀ (ngrams : List (List String × String × Weight × Weight)) (b b2 : Builder),
      addAll b ngrams = some b2 → b.KeysOk →
      List.length b.vocab + ngramRoom ngrams ≤ WORD_NIL →
      b2.KeysOk ∧
      List.length b2.vocab ≤ List.length b.vocab + ngramRoom ngrams ∧
      List.length b.transitions ≤ List.length b2.transitions ∧
      List.length b2.transitions ≤ List.length b.transitions + ngramRoom ngrams ∧
      b2.bos = b.bos ∧ b2.eos = b.eos := by
  intro ngrams
  induction ngrams with
  | nil =>
    intro b b2 h hko _
    have hb : b = b2 := Option.some.inj h
    subst hb
    have h0 : ngramRoom [] = 0 := rfl
    exact ⟨hko, by omega, by omega, by omega, rfl, rfl⟩
  | cons ng rest ih =>
    intro b b2 h hko hroom
    unfold addAll at h
    rw [List.foldlM_cons] at h
    have hsplit : ngramRoom (ng :: rest) =
        List.length ng.1 + 1 + ngramRoom rest := by
      simp [ngramRoom]
    cases hng : b.AddNgram ng.1 ng.2.1 ng.2.2.1 ng.2.2.2 with
    | none =>
      rw [hng] at h
      cases h
    | some b1 =>
      rw [hng] at h
      have h2 : addAll b1 rest = some b2 := h
      obtain ⟨hko1, hv1, htr1a, htr1b, hbos1, heos1⟩ :=
        addNgram_keysOk hng hko (by rw [hsplit] at hroom; omega)
      obtain ⟨hko2, hv2, htr2a, htr2b, hbos2, heos2⟩ :=
        ih b1 b2 h2 hko1 (by rw [hsplit] at hroom; omega)
      rw [hsplit] at hroom ⊢
      refine ⟨hko2, by omega, by omega, by omega, ?_, ?_⟩
      · rw [hbos2, hbos1]
      · rw [heos2, heos1]

/-- NewBuilder starts inside the probing discipline with exactly the two
initial states. -/
theorem NewBuilder_keysOk {vocab0 : Option (List String)} {bos0 eos0 : String}
    {b0 : Builder}
    (h : NewBuilder vocab0 bos0 eos0 = some b0)
    (hlen : List.length b0.vocab ≤ WORD_NIL) :
    b0.KeysOk ∧ List.length b0.transitions = 2 := by
  unfold NewBuilder at h
  dsimp only at h
  by_cases hbe : (match vocab0 with
      | none => ([NewBuilder.a_bos, NewBuilder.a_eos], NewBuilder.a_bos, NewBuilder.a_eos)
      | some v => (v, bos0, eos0)).2.1 =
    (match vocab0 with
      | none => ([NewBuilder.a_bos, NewBuilder.a_eos], NewBuilder.a_bos, NewBuilder.a_eos)
      | some v => (v, bos0, eos0)).2.2
  · rw [if_pos hbe] at h
    cases h
  · rw [if_neg hbe] at h
    set vbe := (match vocab0 with
      | none => ([NewBuilder.a_bos, NewBuilder.a_eos], NewBuilder.a_bos, NewBuilder.a_eos)
      | some v => (v, bos0, eos0)) with hvbe
    by_cases hbid : vocabIdOf vbe.1 vbe.2.1 = WORD_NIL
    · rw [if_pos hbid] at h
      cases h
    · rw [if_neg hbid] at h
      by_cases heid : vocabIdOf vbe.1 vbe.2.2 = WORD_NIL
      · rw [if_pos heid] at h
        cases h
      · rw [if_neg heid] at h
        have hkob : Builder.KeysOk
            ⟨vbe.1, vbe.2.1, vbe.2.2, vocabIdOf vbe.1 vbe.2.1, vocabIdOf vbe.1 vbe.2.2,
              [none, none], [⟨STATE_NIL, 0⟩, ⟨STATE_NIL, 0⟩]⟩ := by
          intro omp homp mp hmp2
          rcases List.mem_cons.mp homp with hm | hm
          · rw [hm] at hmp2
            cases hmp2
          · rcases List.mem_cons.mp hm with hm2 | hm2
            · rw [hm2] at hmp2
              cases hmp2
            · cases hm2
        have hvl : b0.vocab = vbe.1 := by
          have hs := (setTransition_shape h).1
          rw [hs]
        have hbidlt : vocabIdOf vbe.1 vbe.2.1 < WORD_NIL := by
          cases hidx : List.indexOf? vbe.2.1 vbe.1 with
          | none =>
            exact absurd (by unfold vocabIdOf; rw [hidx]) hbid
          | some i =>
            have hi : vocabIdOf vbe.1 vbe.2.1 = i := by
              unfold vocabIdOf
              rw [hidx]
            have hget := indexOf?_get? vbe.1 i hidx
            have hilt : i < List.length vbe.1 := get?_lt_length hget
            rw [hi]
            rw [hvl] at hlen
            omega
        obtain ⟨hko0, _, _, htr0, _, _, _, _⟩ := setTransition_keysOk h hkob hbidlt
        refine ⟨hko0, ?_⟩
        rw [htr0]
        rfl

/-- linkTransition only rewrites back-off entries: transitions and the
state count are untouched. -/
theorem linkTransition_shape :
    ∀ (fuel : Nat) (b : Builder) (p x q : Nat) (r : Builder × Nat × Weight),
      b.linkTransition fuel p x q = some r →
      r.1.transitions = b.transitions ∧ r.1.vocab = b.vocab ∧
      r.1.bos = b.bos ∧ r.1.eos = b.eos ∧ r.1.bosId = b.bosId ∧
      r.1.eosId = b.eosId ∧ List.length r.1.backoff = List.length b.backoff := by
  intro fuel
  induction fuel with
  | zero => intro b p x q r h; cases h
  | succ f ih =>
    intro b p x q r h
    rw [Builder.linkTransition] at h
    cases hq : List.get? b.backoff q with
    | none => rw [hq] at h; cases h
    | some qbo =>
      rw [hq] at h
      dsimp only at h
      by_cases hres : qbo.State ≠ STATE_NIL
      · rw [if_pos hres] at h
        have hr := Option.some.inj h
        rw [← hr]
        exact ⟨rfl, rfl, rfl, rfl, rfl, rfl, rfl⟩
      · rw [if_neg hres] at h
        cases hp : List.get? b.backoff p with
        | none => rw [hp] at h; cases h
        | some pbo =>
          rw [hp] at h
          dsimp only at h
          cases hcf : b.chainFindAux x (b.backoff.length + 1) pbo.State with
          | none => rw [hcf] at h; cases h
          | some cfr =>
            rw [hcf] at h
            obtain ⟨pBack, oqw⟩ := cfr
            cases oqw with
            | none =>
              dsimp only at h
              have hr := Option.some.inj h
              rw [← hr]
              exact ⟨rfl, rfl, rfl, rfl, rfl, rfl, List.length_set _ _ _⟩
            | some qwBack =>
              dsimp only at h
              cases hrec : b.linkTransition f pBack x qwBack.State with
              | none => rw [hrec] at h; cases h
              | some bw =>
                rw [hrec] at h
                dsimp only at h
                obtain ⟨htr, hv, hbos, heos, hbid, heid, hbk⟩ :=
                  ih b pBack x qwBack.State bw hrec
                cases he : List.get? bw.1.backoff q with
                | none => rw [he] at h; cases h
                | some e =>
                  rw [he] at h
                  dsimp only at h
                  cases hmqb : List.get? bw.1.transitions qwBack.State with
                  | none => rw [hmqb] at h; cases h
                  | some mqb =>
                    rw [hmqb] at h
                    dsimp only at h
                    by_cases hnil : mqb = none
                    · rw [if_pos hnil] at h
                      have hr := Option.some.inj h
                      rw [← hr]
                      refine ⟨htr, hv, hbos, heos, hbid, heid, ?_⟩
                      show List.length (List.set bw.1.backoff q _) = _
                      rw [List.length_set]
                      exact hbk
                    · rw [if_neg hnil] at h
                      have hr := Option.some.inj h
                      rw [← hr]
                      refine ⟨htr, hv, hbos, heos, hbid, heid, ?_⟩
                      show List.length (List.set bw.1.backoff q _) = _
                      rw [List.length_set]
                      exact hbk

theorem link_fold1_shape :
    ∀ (l : List xqwEntry) (bb bb2 : Builder),
      List.foldlM (fun (bb : Builder) (e : xqwEntry) =>
          if e.Value.State ≠ STATE_NIL then
            match List.get? bb.backoff e.Value.State with
            | none => none
            | some sw =>
              some {bb with backoff := List.set bb.backoff e.Value.State ⟨STATE_EMPTY, sw.Weight⟩}
          else some bb) bb l = some bb2 →
      bb2.transitions = bb.transitions ∧ bb2.vocab = bb.vocab ∧ bb2.bos = bb.bos ∧
      bb2.eos = bb.eos ∧ bb2.bosId = bb.bosId ∧ bb2.eosId = bb.eosId ∧
      List.length bb2.backoff = List.length bb.backoff := by
  intro l
  induction l with
  | nil =>
    intro bb bb2 h
    have hb := Option.some.inj h
    rw [← hb]
    exact ⟨rfl, rfl, rfl, rfl, rfl, rfl, rfl⟩
  | cons e rest ih =>
    intro bb bb2 h
    rw [List.foldlM_cons] at h
    by_cases hs : e.Value.State ≠ STATE_NIL
    · rw [if_pos hs] at h
      cases hg : List.get? bb.backoff e.Value.State with
      | none => rw [hg] at h; cases h
      | some sw =>
        rw [hg] at h
        dsimp only at h
        obtain ⟨h1, h2, h3, h4, h5, h6, h7⟩ := ih _ _ h
        refine ⟨h1, h2, h3, h4, h5, h6, ?_⟩
        rw [h7]
        exact List.length_set _ _ _
    · rw [if_neg hs] at h
      exact ih _ _ h

theorem link_fold2_inner_shape :
    ∀ (l : List xqwEntry) (p : Nat) (bb bb2 : Builder),
      List.foldlM (fun (bb2 : Builder) (e : xqwEntry) =>
          if e.Value.State ≠ STATE_NIL then
            (bb2.linkTransition (bb2.backoff.length + 1) p e.Key e.Value.State).map
              (fun r => r.1)
          else some bb2) bb l = some bb2 →
      bb2.transitions = bb.transitions ∧ bb2.vocab = bb.vocab ∧ bb2.bos = bb.bos ∧
      bb2.eos = bb.eos ∧ bb2.bosId = bb.bosId ∧ bb2.eosId = bb.eosId ∧
      List.length bb2.backoff = List.length bb.backoff := by
  intro l
  induction l with
  | nil =>
    intro p bb bb2 h
    have hb := Option.some.inj h
    rw [← hb]
    exact ⟨rfl, rfl, rfl, rfl, rfl, rfl, rfl⟩
  | cons e rest ih =>
    intro p bb bb2 h
    rw [List.foldlM_cons] at h
    by_cases hs : e.Value.State ≠ STATE_NIL
    · rw [if_pos hs] at h
      cases hlt : bb.linkTransition (bb.backoff.length + 1) p e.Key e.Value.State with
      | none => rw [hlt] at h; cases h
      | some r =>
        rw [hlt] at h
        dsimp only [Option.map] at h
        obtain ⟨g1, g2, g3, g4, g5, g6, g7⟩ := linkTransition_shape _ _ _ _ _ _ hlt
        obtain ⟨h1, h2, h3, h4, h5, h6, h7⟩ := ih _ _ _ h
        exact ⟨by rw [h1, g1], by rw [h2, g2], by rw [h3, g3], by rw [h4, g4],
          by rw [h5, g5], by rw [h6, g6], by rw [h7, g7]⟩
    · rw [if_neg hs] at h
      exact ih _ _ _ h

theorem link_fold2_shape (b0 : Builder) :
    ∀ (l : List Nat) (bb bb2 : Builder),
      List.foldlM (fun (bb : Builder) (p : Nat) =>
          match List.get? b0.transitions p with
          | none => none
          | some none => some bb
          | some (some es) =>
            List.foldlM (fun (bb2 : Builder) (e : xqwEntry) =>
                if e.Value.State ≠ STATE_NIL then
                  (bb2.linkTransition (bb2.backoff.length + 1) p e.Key e.Value.State).map
                    (fun r => r.1)
                else some bb2)
              bb es.buckets.Range) bb l = some bb2 →
      bb2.transitions = bb.transitions ∧ bb2.vocab = bb.vocab ∧ bb2.bos = bb.bos ∧
      bb2.eos = bb.eos ∧ bb2.bosId = bb.bosId ∧ bb2.eosId = bb.eosId ∧
      List.length bb2.backoff = List.length bb.backoff := by
  intro l
  induction l with
  | nil =>
    intro bb bb2 h
    have hb := Option.some.inj h
    rw [← hb]
    exact ⟨rfl, rfl, rfl, rfl, rfl, rfl, rfl⟩
  | cons p rest ih =>
    intro bb bb2 h
    rw [List.foldlM_cons] at h
    cases hg : List.get? b0.transitions p with
    | none => rw [hg] at h; cases h
    | some omp =>
      rw [hg] at h
      cases omp with
      | none =>
        dsimp only at h
        exact ih _ _ h
      | some es =>
        dsimp only at h
        cases hin : List.foldlM (fun (bb2 : Builder) (e : xqwEntry) =>
            if e.Value.State ≠ STATE_NIL then
              (bb2.linkTransition (bb2.backoff.length + 1) p e.Key e.Value.State).map
                (fun r => r.1)
            else some bb2) bb es.buckets.Range with
        | none => rw [hin] at h; cases h
        | some bmid =>
          rw [hin] at h
          obtain ⟨g1, g2, g3, g4, g5, g6, g7⟩ := link_fold2_inner_shape _ _ _ _ hin
          obtain ⟨h1, h2, h3, h4, h5, h6, h7⟩ := ih _ _ h
          exact ⟨by rw [h1, g1], by rw [h2, g2], by rw [h3, g3], by rw [h4, g4],
            by rw [h5, g5], by rw [h6, g6], by rw [h7, g7]⟩

/-- link only resolves back-offs: the transition tables, the vocabulary
and the state count are unchanged. -/
theorem link_shape {b b1 : Builder} (h : b.link = some b1) :
    b1.transitions = b.transitions ∧ b1.vocab = b.vocab ∧ b1.bos = b.bos ∧
    b1.eos = b.eos ∧ b1.bosId = b.bosId ∧ b1.eosId = b.eosId ∧
    List.length b1.backoff = List.length b.backoff := by
  unfold Builder.link at h
  cases hg : List.get? b.transitions STATE_EMPTY with
  | none => rw [hg] at h; cases h
  | some omp =>
    rw [hg] at h
    cases omp with
    | none => dsimp only at h; cases h
    | some mp0 =>
      dsimp only [Bind.bind, Option.bind] at h
      cases hf1 : List.foldlM (fun (bb : Builder) (e : xqwEntry) =>
          if e.Value.State ≠ STATE_NIL then
            match List.get? bb.backoff e.Value.State with
            | none => none
            | some sw =>
              some {bb with backoff := List.set bb.backoff e.Value.State ⟨STATE_EMPTY, sw.Weight⟩}
          else some bb) b mp0.buckets.Range with
      | none => rw [hf1] at h; cases h
      | some bmid =>
        rw [hf1] at h
        obtain ⟨g1, g2, g3, g4, g5, g6, g7⟩ := link_fold1_shape _ _ _ hf1
        obtain ⟨h1, h2, h3, h4, h5, h6, h7⟩ := link_fold2_shape b _ _ _ h
        exact ⟨by rw [h1, g1], by rw [h2, g2], by rw [h3, g3], by rw [h4, g4],
          by rw [h5, g5], by rw [h6, g6], by rw [h7, g7]⟩

/-- A strictly ascending array that contains WORD_NIL and nothing above
it has the sorted row shape. -/
theorem rowOk_of_sorted (row : List WordStateWeight) :
    List.Pairwise (fun a b : WordStateWeight => a.Word < b.Word) row →
    (∃ e ∈ row, e.Word = WORD_NIL) →
    (∀ e ∈ row, e.Word ≤ WORD_NIL) →
    sortedRowOk row = true := by
  induction row with
  | nil =>
    intro _ hex _
    obtain ⟨e, he, _⟩ := hex
    cases he
  | cons e rest ih =>
    intro hpw hex hle
    cases rest with
    | nil =>
      obtain ⟨e2, he2, hnil⟩ := hex
      have he2e : e2 = e := List.mem_singleton.mp he2
      rw [he2e] at hnil
      simp [sortedRowOk, hnil]
    | cons f rest2 =>
      have hpwtail := List.Pairwise.of_cons hpw
      have hhead : ∀ c ∈ f :: rest2, e.Word < c.Word := by
        intro c hc
        exact List.rel_of_pairwise_cons hpw hc
      obtain ⟨e2, he2, hnil⟩ := hex
      have hwit : ∃ e3 ∈ f :: rest2, e3.Word = WORD_NIL := by
        rcases List.mem_cons.mp he2 with h1 | h1
        · exfalso
          have h2 : e.Word < f.Word := hhead f (List.mem_cons_self _ _)
          have h3 : f.Word ≤ WORD_NIL :=
            hle f (List.mem_cons_of_mem _ (List.mem_cons_self _ _))
          rw [h1] at hnil
          omega
        · exact ⟨e2, h1, hnil⟩
      have hok := ih hpwtail hwit (fun e3 he3 => hle e3 (List.mem_cons_of_mem _ he3))
      simp only [sortedRowOk, Bool.and_eq_true, decide_eq_true_eq,
        List.all_eq_true] at hok ⊢
      obtain ⟨⟨⟨hne2, hlast⟩, hpw2⟩, hall⟩ := hok
      refine ⟨⟨⟨?_, ?_⟩, hpw⟩, ?_⟩
      · rfl
      · rw [List.getLast?_cons_cons]
        exact hlast
      · rw [List.dropLast_cons_of_ne_nil (by simp : f :: rest2 ≠ [])]
        intro x hx
        rcases List.mem_cons.mp hx with h1 | h1
        · have h2 : e.Word < f.Word := hhead f (List.mem_cons_self _ _)
          have h3 : f.Word ≤ WORD_NIL :=
            hle f (List.mem_cons_of_mem _ (List.mem_cons_self _ _))
          rw [h1]
          exact Nat.lt_of_lt_of_le h2 h3
        · exact hall x h1

/-- Sorting duplicate-free valid-word entries together with the final
WORD_NIL back-off entry produces a well-shaped sorted row. -/
theorem sortedRowOk_sortByWord (entries : List WordStateWeight) (sw : Nat) (w : Weight)
    (hnodup : List.Nodup (List.map WordStateWeight.Word entries))
    (hlt : ∀ e ∈ entries, e.Word < WORD_NIL) :
    sortedRowOk (sortByWord (entries ++ [⟨WORD_NIL, sw, w⟩])) = true := by
  have hperm : List.Perm (sortByWord (entries ++ [⟨WORD_NIL, sw, w⟩]))
      (entries ++ [⟨WORD_NIL, sw, w⟩]) := List.perm_insertionSort _ _
  have hndl : List.Nodup
      (List.map WordStateWeight.Word (entries ++ [⟨WORD_NIL, sw, w⟩])) := by
    rw [List.map_append]
    rw [List.nodup_append]
    refine ⟨hnodup, by simp, ?_⟩
    intro a ha hb
    have hanil : a = WORD_NIL := by
      simp only [List.map_cons, List.map_nil, List.mem_singleton] at hb
      exact hb
    obtain ⟨ea, hea, heaw⟩ := List.mem_map.mp ha
    rw [hanil] at heaw
    have := hlt ea hea
    omega
  have hndrow : List.Nodup
      (List.map WordStateWeight.Word (sortByWord (entries ++ [⟨WORD_NIL, sw, w⟩]))) :=
    (hperm.map WordStateWeight.Word).symm.nodup hndl
  have hnerow : List.Pairwise
      (fun a b : WordStateWeight => a.Word ≠ b.Word)
      (sortByWord (entries ++ [⟨WORD_NIL, sw, w⟩])) :=
    List.pairwise_map.mp hndrow
  haveI hto : IsTotal WordStateWeight (fun a b => a.Word ≤ b.Word) :=
    ⟨fun a b => Nat.le_total a.Word b.Word⟩
  haveI htr : IsTrans WordStateWeight (fun a b => a.Word ≤ b.Word) :=
    ⟨fun a b c h1 h2 => Nat.le_trans h1 h2⟩
  have hsorted : List.Pairwise (fun a b : WordStateWeight => a.Word ≤ b.Word)
      (sortByWord (entries ++ [⟨WORD_NIL, sw, w⟩])) :=
    List.sorted_insertionSort _ _
  apply rowOk_of_sorted
  · exact (hsorted.and hnerow).imp (by
      intro a b hab
      obtain ⟨h1, h2⟩ := hab
      omega)
  · refine ⟨⟨WORD_NIL, sw, w⟩, ?_, rfl⟩
    rw [hperm.mem_iff]
    simp
  · intro e he
    rw [hperm.mem_iff] at he
    rcases List.mem_append.mp he with hm | hm
    · have := hlt e hm
      omega
    · have : e = ⟨WORD_NIL, sw, w⟩ := List.mem_singleton.mp hm
      rw [this]

/-- Live keys of a disciplined bucket array are pairwise distinct. -/
theorem Range_keys_nodup {b : xqwBuckets} (hok : bucketsFindOk b) :
    List.Nodup (List.map xqwEntry.Key b.Range) := by
  have hpw := bucketsFindOk_pairwise hok
  have hpwf : List.Pairwise (fun a c : xqwEntry =>
      a.Key ≠ WORD_NIL → c.Key ≠ WORD_NIL → a.Key ≠ c.Key) b.Range :=
    List.Pairwise.filter _ hpw
  have hpwne : List.Pairwise (fun a c : xqwEntry => a.Key ≠ c.Key) b.Range := by
    apply List.Pairwise.imp_of_mem ?_ hpwf
    intro a c ha hc hR
    have ha2 := List.of_mem_filter ha
    have hc2 := List.of_mem_filter hc
    exact hR (of_decide_eq_true ha2) (of_decide_eq_true hc2)
  exact List.pairwise_map.mpr hpwne

/-- pruneAux hands out the ids n0, n0+1, ... to surviving states, in
order: ids are fresh, bounded by the final count, and every id below the
final count is assigned. -/
theorem pruneAux_spec :
    ∀ (lst : List (Option xqwMap)) (n0 : Nat),
      n0 ≤ (pruneAux lst n0).2 ∧
      (pruneAux lst n0).2 ≤ n0 + List.length lst ∧
      List.length (pruneAux lst n0).1 = List.length lst ∧
      (∀ v ∈ (pruneAux lst n0).1, v ≠ STATE_NIL →
        n0 ≤ v ∧ v < (pruneAux lst n0).2) ∧
      (∀ t, n0 ≤ t → t < (pruneAux lst n0).2 → t ∈ (pruneAux lst n0).1) := by
  intro lst
  induction lst with
  | nil =>
    intro n0
    refine ⟨Nat.le_refl _, by simp [pruneAux], rfl, ?_, ?_⟩
    · intro v hv
      cases hv
    · intro t h1 h2
      exact absurd (Nat.lt_of_le_of_lt h1 h2) (Nat.lt_irrefl _)
  | cons es rest ih =>
    intro n0
    rw [pruneAux]
    by_cases hs : es.isSome = true
    · rw [if_pos hs]
      dsimp only
      obtain ⟨i1, i2, i3, i4, i5⟩ := ih (n0 + 1)
      refine ⟨by omega, by simp only [List.length_cons]; omega,
        by simp only [List.length_cons]; omega, ?_, ?_⟩
      · intro v hv hvnil
        rcases List.mem_cons.mp hv with h1 | h1
        · subst h1
          exact ⟨Nat.le_refl _, by omega⟩
        · have := i4 v h1 hvnil
          exact ⟨by omega, this.2⟩
      · intro t h1 h2
        rcases Nat.eq_or_lt_of_le h1 with h3 | h3
        · exact h3 ▸ List.mem_cons_self _ _
        · exact List.mem_cons_of_mem _ (i5 t h3 h2)
    · rw [if_neg hs]
      dsimp only
      obtain ⟨i1, i2, i3, i4, i5⟩ := ih n0
      refine ⟨by omega, by simp only [List.length_cons]; omega,
        by simp only [List.length_cons]; omega, ?_, ?_⟩
      · intro v hv hvnil
        rcases List.mem_cons.mp hv with h1 | h1
        · exact absurd h1 hvnil
        · exact i4 v h1 hvnil
      · intro t h1 h2
        exact List.mem_cons_of_mem _ (i5 t h1 h2)

/-- prune keeps 0 and 1, assigns dense new ids below the returned count,
covers every new id, and never returns more states than it was given. -/
theorem prune_spec (b : Builder) (h2 : 2 ≤ List.length b.transitions) :
    2 ≤ (b.prune).2 ∧
    (b.prune).2 ≤ List.length b.transitions ∧
    (∀ v ∈ (b.prune).1, v ≠ STATE_NIL → v < (b.prune).2) ∧
    (∀ t, t < (b.prune).2 → t ∈ (b.prune).1) := by
  obtain ⟨i1, i2, i3, i4, i5⟩ := pruneAux_spec (List.drop 2 b.transitions) 2
  have hdl : List.length (List.drop 2 b.transitions) =
      List.length b.transitions - 2 := List.length_drop _ _
  unfold Builder.prune
  dsimp only
  refine ⟨i1, by omega, ?_, ?_⟩
  · intro v hv hvnil
    rcases List.mem_cons.mp hv with h1 | h1
    · subst h1
      show STATE_EMPTY < _
      have : STATE_EMPTY = 0 := rfl
      omega
    · rcases List.mem_cons.mp h1 with h3 | h3
      · subst h3
        show STATE_START < _
        have : STATE_START = 1 := rfl
        omega
      · exact (i4 v h3 hvnil).2
  · intro t ht
    match t with
    | 0 => exact List.mem_cons_self _ _
    | 1 => exact List.mem_cons_of_mem _ (List.mem_cons_self _ _)
    | (n + 2) =>
      exact List.mem_cons_of_mem _ (List.mem_cons_of_mem _ (i5 _ (by omega) ht))

theorem moveSorted_entries_words (b : Builder) (oldToNew : List Nat) :
    ∀ (l : List xqwEntry) (lst0 lst : List WordStateWeight),
      List.foldlM (fun (lst : List WordStateWeight) (e : xqwEntry) => do
          let qw ← prewalkEntry b oldToNew e.Value.State e.Value.Weight
          pure (lst ++ [⟨e.Key, qw.1, qw.2⟩]))
        lst0 l = some lst →
      List.map WordStateWeight.Word lst =
        List.map WordStateWeight.Word lst0 ++ List.map xqwEntry.Key l := by
  intro l
  induction l with
  | nil =>
    intro lst0 lst h
    have hb := Option.some.inj h
    rw [← hb]
    simp
  | cons e rest ih =>
    intro lst0 lst h
    rw [List.foldlM_cons] at h
    cases hpw : prewalkEntry b oldToNew e.Value.State e.Value.Weight with
    | none =>
      rw [hpw] at h
      dsimp only [Bind.bind, Option.bind] at h
      cases h
    | some qw =>
      rw [hpw] at h
      dsimp only [Bind.bind, Option.bind, pure] at h
      have hres := ih _ _ h
      rw [hres]
      simp

theorem moveSorted_fold_rows (b : Builder) (oldToNew : List Nat) (hko : b.KeysOk) :
    ∀ (pairs : List (Nat × Nat)) (acc res : List (List WordStateWeight)),
      List.foldlM (fun (acc : List (List WordStateWeight)) (oe : Nat × Nat) =>
          if oe.2 = STATE_NIL then some acc
          else do
            let entries ← match List.get? b.transitions oe.1 with
              | none => none
              | some none => some ([] : List WordStateWeight)
              | some (some mp) =>
                List.foldlM (fun (lst : List WordStateWeight) (e : xqwEntry) => do
                    let qw ← prewalkEntry b oldToNew e.Value.State e.Value.Weight
                    pure (lst ++ [⟨e.Key, qw.1, qw.2⟩]))
                  ([] : List WordStateWeight) mp.buckets.Range
            let bo ← List.get? b.backoff oe.1
            let bo1 ← remapBackoff oldToNew bo
            pure (List.set acc oe.2
              (sortByWord (entries ++ [⟨WORD_NIL, bo1.State, bo1.Weight⟩]))))
        acc pairs = some res →
      List.length acc ≤ STATE_NIL →
      (∀ pr ∈ pairs, pr.2 ≠ STATE_NIL → pr.2 < List.length acc) →
      (∀ t row, List.get? acc t = some row →
        sortedRowOk row = true ∨ ∃ pr ∈ pairs, pr.2 = t) →
      ∀ t row, List.get? res t = some row → sortedRowOk row = true := by
  intro pairs
  induction pairs with
  | nil =>
    intro acc res h hlen hbnd hinv t row hrow
    have hb := Option.some.inj h
    rw [← hb] at hrow
    rcases hinv t row hrow with h1 | ⟨pr, hpr, _⟩
    · exact h1
    · cases hpr
  | cons pr rest ih =>
    intro acc res h hlen hbnd hinv
    rw [List.foldlM_cons] at h
    by_cases hnil : pr.2 = STATE_NIL
    · rw [if_pos hnil] at h
      dsimp only [Bind.bind, Option.bind] at h
      apply ih acc res h hlen
        (fun pr2 hpr2 => hbnd pr2 (List.mem_cons_of_mem _ hpr2))
      intro t row hrow
      rcases hinv t row hrow with h1 | ⟨pr2, hpr2, hpr2t⟩
      · exact Or.inl h1
      · rcases List.mem_cons.mp hpr2 with h2 | h2
        · exfalso
          have ht : t < List.length acc := get?_lt_length hrow
          rw [h2, hnil] at hpr2t
          rw [← hpr2t] at ht
          exact absurd (Nat.lt_of_lt_of_le ht hlen) (Nat.lt_irrefl _)
        · exact Or.inr ⟨pr2, h2, hpr2t⟩
    · rw [if_neg hnil] at h
      cases hmp : List.get? b.transitions pr.1 with
      | none =>
        rw [hmp] at h
        dsimp only [Bind.bind, Option.bind] at h
        cases h
      | some omp =>
        rw [hmp] at h
        have hcont : ∀ (entries : List WordStateWeight),
            List.Nodup (List.map WordStateWeight.Word entries) →
            (∀ e ∈ entries, e.Word < WORD_NIL) →
            ((List.get? b.backoff pr.1).bind (fun bo =>
              (remapBackoff oldToNew bo).bind (fun bo1 =>
                some (List.set acc pr.2
                  (sortByWord (entries ++ [⟨WORD_NIL, bo1.State, bo1.Weight⟩])))))).bind
              (fun acc2 =>
                List.foldlM (fun (acc : List (List WordStateWeight)) (oe : Nat × Nat) =>
                    if oe.2 = STATE_NIL then some acc
                    else do
                      let entries ← match List.get? b.transitions oe.1 with
                        | none => none
                        | some none => some ([] : List WordStateWeight)
                        | some (some mp) =>
                          List.foldlM (fun (lst : List WordStateWeight) (e : xqwEntry) => do
                              let qw ← prewalkEntry b oldToNew e.Value.State e.Value.Weight
                              pure (lst ++ [⟨e.Key, qw.1, qw.2⟩]))
                            ([] : List WordStateWeight) mp.buckets.Range
                      let bo ← List.get? b.backoff oe.1
                      let bo1 ← remapBackoff oldToNew bo
                      pure (List.set acc oe.2
                        (sortByWord (entries ++ [⟨WORD_NIL, bo1.State, bo1.Weight⟩]))))
                  acc2 rest) = some res →
            ∀ t row, List.get? res t = some row → sortedRowOk row = true := by
          intro entries hndw hltw hrun
          cases hbo : List.get? b.backoff pr.1 with
          | none =>
            rw [hbo] at hrun
            dsimp only [Option.bind] at hrun
            cases hrun
          | some bo =>
            rw [hbo] at hrun
            dsimp only [Option.bind] at hrun
            cases hbo1 : remapBackoff oldToNew bo with
            | none =>
              rw [hbo1] at hrun
              dsimp only [Option.bind] at hrun
              cases hrun
            | some bo1 =>
              rw [hbo1] at hrun
              dsimp only [Option.bind] at hrun
              have hrowok : sortedRowOk
                  (sortByWord (entries ++ [⟨WORD_NIL, bo1.State, bo1.Weight⟩])) = true :=
                sortedRowOk_sortByWord entries bo1.State bo1.Weight hndw hltw
              have hszlen : List.length (List.set acc pr.2
                  (sortByWord (entries ++ [⟨WORD_NIL, bo1.State, bo1.Weight⟩]))) =
                  List.length acc := List.length_set _ _ _
              apply ih _ res hrun (by omega)
                (by
                  intro pr2 hpr2 hpr2nil
                  rw [hszlen]
                  exact hbnd pr2 (List.mem_cons_of_mem _ hpr2) hpr2nil)
              intro t row hrow
              by_cases htpr : t = pr.2
              · have hlt2 : pr.2 < List.length acc :=
                  hbnd pr (List.mem_cons_self _ _) hnil
                rw [htpr, List.get?_set_eq_of_lt _ hlt2] at hrow
                have hroweq : sortByWord
                    (entries ++ [⟨WORD_NIL, bo1.State, bo1.Weight⟩]) = row :=
                  Option.some.inj hrow
                rw [← hroweq]
                exact Or.inl hrowok
              · rw [List.get?_set_ne _ _ (Ne.symm htpr)] at hrow
                rcases hinv t row hrow with h1 | ⟨pr2, hpr2, hpr2t⟩
                · exact Or.inl h1
                · rcases List.mem_cons.mp hpr2 with h2 | h2
                  · exfalso
                    rw [← h2] at htpr
                    exact htpr hpr2t.symm
                  · exact Or.inr ⟨pr2, h2, hpr2t⟩
        cases omp with
        | none =>
          dsimp only at h
          exact hcont [] List.nodup_nil (by intro e he; cases he) h
        | some mp =>
          dsimp only at h
          cases hent : List.foldlM (fun (lst : List WordStateWeight) (e : xqwEntry) => do
              let qw ← prewalkEntry b oldToNew e.Value.State e.Value.Weight
              pure (lst ++ [(⟨e.Key, qw.1, qw.2⟩ : WordStateWeight)]))
            ([] : List WordStateWeight) mp.buckets.Range with
          | none =>
            rw [hent] at h
            cases h
          | some entries =>
            rw [hent] at h
            obtain ⟨hfok, hklt⟩ := hko (some mp) (List.get?_mem hmp) mp rfl
            have hwords := moveSorted_entries_words b oldToNew _ _ _ hent
            rw [List.map_nil, List.nil_append] at hwords
            refine hcont entries ?_ ?_ h
            · rw [hwords]
              exact Range_keys_nodup hfok
            · intro e he
              have hmem : e.Word ∈ List.map WordStateWeight.Word entries :=
                List.mem_map.mpr ⟨e, he, rfl⟩
              rw [hwords] at hmem
              obtain ⟨e0, he0, hkey0⟩ := List.mem_map.mp hmem
              have he0R : e0 ∈ List.filter
                  (fun e : xqwEntry => decide (e.Key ≠ WORD_NIL))
                  (mp.buckets : List xqwEntry) := he0
              obtain ⟨he0b, he0p⟩ := List.mem_filter.mp he0R
              have he0live : e0.Key ≠ WORD_NIL := of_decide_eq_true he0p
              rw [← hkey0]
              exact hklt e0 he0b he0live

theorem moveSorted_rows {b : Builder} {oldToNew : List Nat} {numStates : Nat}
    {m : Sorted} (h : b.moveSorted oldToNew numStates = some m) (hko : b.KeysOk)
    (hns : numStates ≤ STATE_NIL)
    (hbnd : ∀ v ∈ oldToNew, v ≠ STATE_NIL → v < numStates)
    (hsurj : ∀ t, t < numStates → t ∈ oldToNew) :
    ∀ row ∈ m.transitions, sortedRowOk row = true := by
  unfold Builder.moveSorted at h
  dsimp only at h
  cases hf : List.foldlM (fun (acc : List (List WordStateWeight)) (oe : Nat × Nat) =>
      if oe.2 = STATE_NIL then some acc
      else do
        let entries ← match List.get? b.transitions oe.1 with
          | none => none
          | some none => some ([] : List WordStateWeight)
          | some (some mp) =>
            List.foldlM (fun (lst : List WordStateWeight) (e : xqwEntry) => do
                let qw ← prewalkEntry b oldToNew e.Value.State e.Value.Weight
                pure (lst ++ [(⟨e.Key, qw.1, qw.2⟩ : WordStateWeight)]))
              ([] : List WordStateWeight) mp.buckets.Range
        let bo ← List.get? b.backoff oe.1
        let bo1 ← remapBackoff oldToNew bo
        pure (List.set acc oe.2
          (sortByWord (entries ++ [⟨WORD_NIL, bo1.State, bo1.Weight⟩]))))
    (List.replicate numStates ([] : List WordStateWeight)) (List.enum oldToNew) with
  | none =>
    rw [hf] at h
    cases h
  | some trans =>
    rw [hf] at h
    have hm : m.transitions = trans := by
      have hmm : (⟨b.vocab, b.bos, b.eos, b.bosId, b.eosId, trans⟩ : Sorted) = m :=
        Option.some.inj h
      rw [← hmm]
    intro row hrow
    rw [hm] at hrow
    obtain ⟨t, ht⟩ := List.mem_iff_get?.mp hrow
    refine moveSorted_fold_rows b oldToNew hko (List.enum oldToNew)
      (List.replicate numStates ([] : List WordStateWeight)) trans hf
      ?_ ?_ ?_ t row ht
    · rw [List.length_replicate]
      exact hns
    · intro pr hpr hprnil
      rw [List.length_replicate]
      have hget : List.get? oldToNew pr.1 = some pr.2 :=
        List.mem_enum_iff_get?.mp hpr
      exact hbnd pr.2 (List.get?_mem hget) hprnil
    · intro t2 row2 hrow2
      have ht2 : t2 < numStates := by
        have := get?_lt_length hrow2
        rw [List.length_replicate] at this
        exact this
      obtain ⟨i, hi⟩ := List.mem_iff_get?.mp (hsurj t2 ht2)
      exact Or.inr ⟨(i, t2), List.mk_mem_enum_iff_get?.mpr hi, rfl⟩

theorem dumpSorted_rows {b : Builder} {m : Sorted} (h : b.DumpSorted = some m)
    (hko : b.KeysOk) (h2 : 2 ≤ List.length b.transitions)
    (hsb : List.length b.transitions ≤ STATE_NIL) :
    ∀ row ∈ m.transitions, sortedRowOk row = true := by
  unfold Builder.DumpSorted at h
  cases hl : b.link with
  | none =>
    rw [hl] at h
    cases h
  | some b1 =>
    rw [hl] at h
    dsimp only [Bind.bind, Option.bind] at h
    obtain ⟨htr1, _, _, _, _, _, _⟩ := link_shape hl
    have hko1 : b1.KeysOk := by
      intro omp homp mp hmp2
      rw [htr1] at homp
      exact hko omp homp mp hmp2
    obtain ⟨p1, p2, p3, p4⟩ := prune_spec b1 (by rw [htr1]; exact h2)
    exact moveSorted_rows h hko1 (by rw [htr1] at p2; omega) p3 p4

/-- C6: in every compiled sorted model — built by NewBuilder, any run of
AddNgram calls that fits in the word-id space, and DumpSorted — every
per-state transition array is non-empty, its entries before the last are
strictly ascending in word id, and its last entry carries WORD_NIL (the
back-off entry). -/
theorem buildSorted_rows_wellshaped (vocab0 : Option (List String))
    (bos0 eos0 : String) (ngrams : List (List String × String × Weight × Weight))
    (b0 : Builder) (m : Sorted)
    (h0 : NewBuilder vocab0 bos0 eos0 = some b0)
    (hroomv : List.length b0.vocab + ngramRoom ngrams ≤ WORD_NIL)
    (hrooms : 2 + ngramRoom ngrams ≤ WORD_NIL)
    (h : buildSorted vocab0 bos0 eos0 ngrams = some m) :
    ∀ row ∈ m.transitions, sortedRowOk row = true := by
  unfold buildSorted at h
  rw [h0] at h
  dsimp only [Bind.bind, Option.bind] at h
  cases haa : addAll b0 ngrams with
  | none =>
    rw [haa] at h
    cases h
  | some b =>
    rw [haa] at h
    dsimp only at h
    obtain ⟨hko0, htr0⟩ := NewBuilder_keysOk h0 (by omega)
    obtain ⟨hko, hv, htra, htrb, _, _⟩ := addAll_keysOk ngrams b0 b haa hko0 hroomv
    have hsn : STATE_NIL = WORD_NIL := rfl
    exact dumpSorted_rows h hko (by omega) (by rw [hsn]; omega)

attribute [local semireducible] Rat.add Rat.mul Rat.sub Rat.inv Rat.ofScientific

/-- Witness: the two-state model compiled from the single unigram "a". -/
theorem buildSorted_rows_wellshaped_witness :
    sortedRowOk [(⟨0, 1, Weight.fin 0⟩ : WordStateWeight),
      ⟨2, 0, Weight.fin (-1)⟩, ⟨WORD_NIL, STATE_NIL, Weight.fin 0⟩] = true :=
  buildSorted_rows_wellshaped none "" "" [([], "a", Weight.fin (-1), Weight.fin 0)]
    ⟨["<s>", "</s>"], "<s>", "</s>", 0, 1,
      [some ⟨[⟨0, ⟨1, Weight.fin 0⟩⟩, ⟨WORD_NIL, ⟨0, Weight.fin 0⟩⟩,
        ⟨WORD_NIL, ⟨0, Weight.fin 0⟩⟩, ⟨WORD_NIL, ⟨0, Weight.fin 0⟩⟩], 1, 3⟩, none],
      [⟨STATE_NIL, Weight.fin 0⟩, ⟨STATE_NIL, Weight.fin 0⟩]⟩
    ⟨["<s>", "</s>", "a"], "<s>", "</s>", 0, 1,
      [[⟨0, 1, Weight.fin 0⟩, ⟨2, 0, Weight.fin (-1)⟩,
        ⟨WORD_NIL, STATE_NIL, Weight.fin 0⟩],
       [⟨WORD_NIL, 0, Weight.fin 0⟩]]⟩
    (by decide)
    (by decide)
    (by decide)
    (by decide)
    [(⟨0, 1, Weight.fin 0⟩ : WordStateWeight),
      ⟨2, 0, Weight.fin (-1)⟩, ⟨WORD_NIL, STATE_NIL, Weight.fin 0⟩]
    (by decide)

/-- Find misses on an all-empty bucket array. -/
theorem Find_initBuckets {n k : Nat} (hk : k ≠ WORD_NIL) (hn : 0 < n) :
    xqwBuckets.Find (xqwInitBuckets n) k = some none := by
  have hlen : xqwBuckets.length (xqwInitBuckets n) = n := by
    show List.length (List.replicate n _) = n
    exact List.length_replicate _ _
  unfold xqwBuckets.Find
  have hstep : findAux (xqwInitBuckets n) k (xqwBuckets.length (xqwInitBuckets n))
      ((xqwInitBuckets n).start k) = some none := by
    rw [hlen]
    cases n with
    | zero => omega
    | succ f =>
      rw [findAux]
      have hi : (xqwInitBuckets (f + 1)).start k < f + 1 := by
        show WordIdHash k % xqwBuckets.length (xqwInitBuckets (f + 1)) < f + 1
        rw [hlen]
        exact Nat.mod_lt _ (by omega)
      cases hg : List.get? (xqwInitBuckets (f + 1) : List xqwEntry)
          ((xqwInitBuckets (f + 1)).start k) with
      | none =>
        exfalso
        rw [List.get?_eq_none] at hg
        have : List.length (xqwInitBuckets (f + 1) : List xqwEntry) = f + 1 := hlen
        omega
      | some ei =>
        have hei : ei = (⟨WORD_NIL, ⟨0, 0⟩⟩ : xqwEntry) :=
          List.eq_of_mem_replicate (List.get?_mem hg)
        dsimp only
        rw [if_neg (by rw [hei]; exact fun hcontra => hk hcontra.symm),
          if_pos (by rw [hei])]
  rw [hstep]

end Fslm














































